import Mathlib

/-!
Verification of the maze-graph MST subsystem: an adjacency-list graph over
2-D grid coordinates (`src/graph/adjacency_list.py`) and Kruskal's algorithm
with a union-find forest (`src/MST/kruskals.py`).

Python dictionaries are embedded as association lists preserving insertion
order; Python `int` is embedded as `Int`; in-place mutation becomes explicit
state passing (a method that mutates `self` and returns a `bool` becomes a
Lean function returning the new state paired with the `Bool`).
-/

/-- A 2-D grid position (`graph/coordinate.py`): `(row, col)` with
non-negative integer components, value equality. -/
structure Coordinate where
  row : Nat
  col : Nat
deriving DecidableEq, Repr

/-- Absolute difference of two naturals. -/
def natDist (a b : Nat) : Nat := (a - b) + (b - a)

/-- Modelled from the spec: `Coordinate.isAdjacent` lives in
`graph/coordinate.py`, which is not part of the sources; per the spec it is
true iff the Manhattan distance between the two coordinates is exactly 1
(same row or column, differing by 1 in the other axis). -/
def Coordinate.isAdjacent (a b : Coordinate) : Bool :=
  natDist a.row b.row + natDist a.col b.col == 1

/-- An adjacency list entry: a `(neighbour, weight)` pair. -/
abbrev Entry := Coordinate × Int

/-- The adjacency dictionary `Coordinate → List (Coordinate, weight)`,
embedded as an insertion-ordered association list. -/
abbrev AdjDict := List (Coordinate × List Entry)

/-- First-match lookup in the adjacency dictionary (Python `d[k]` / `k in d`). -/
def dictGet (d : AdjDict) (c : Coordinate) : Option (List Entry) :=
  match d with
  | [] => none
  | (k, v) :: rest => if k = c then some v else dictGet rest c

/-- Membership test in the adjacency dictionary (Python `k in d`). -/
def dictHas (d : AdjDict) (c : Coordinate) : Bool :=
  (dictGet d c).isSome

/-- Replace the value stored at key `c` (first occurrence) by `f` of it.
Models in-place mutation of `d[c]`. -/
def dictModify (d : AdjDict) (c : Coordinate) (f : List Entry → List Entry) :
    AdjDict :=
  match d with
  | [] => []
  | (k, v) :: rest =>
    if k = c then (k, f v) :: rest else (k, v) :: dictModify rest c f

/-- The graph state of `AdjacencyListGraph.__init__`: grid shape, vertex
list in insertion order, and the adjacency dictionary. -/
structure AdjacencyListGraph where
  rows : Nat
  cols : Nat
  vertices : List Coordinate
  adj_list : AdjDict
deriving DecidableEq, Repr

namespace AdjacencyListGraph

/-- The derived field `self.size = rows * cols`. -/
def size (g : AdjacencyListGraph) : Nat := g.rows * g.cols

/-- A freshly constructed graph: `AdjacencyListGraph(rows, cols)`. -/
def init (rows cols : Nat) : AdjacencyListGraph :=
  { rows := rows, cols := cols, vertices := [], adj_list := [] }

/-- `addVertex`: if absent from the dictionary, bind an empty adjacency
list and append to the vertex list. -/
def addVertex (g : AdjacencyListGraph) (label : Coordinate) :
    AdjacencyListGraph :=
  if dictHas g.adj_list label then g
  else { g with adj_list := g.adj_list ++ [(label, [])],
                vertices := g.vertices ++ [label] }

/-- `addVertices`: `addVertex` applied to each label in order. -/
def addVertices (g : AdjacencyListGraph) (labels : List Coordinate) :
    AdjacencyListGraph :=
  labels.foldl addVertex g

/-- First entry for `vert2` in a single adjacency list. -/
def entryGet (l : List Entry) (vert2 : Coordinate) : Option Entry :=
  match l with
  | [] => none
  | (v, w) :: rest => if v = vert2 then some (v, w) else entryGet rest vert2

/-- `_get_edge`: the `(vert2, weight)` entry in `vert1`'s adjacency list,
if both exist. -/
def getEdge (g : AdjacencyListGraph) (vert1 vert2 : Coordinate) :
    Option Entry :=
  match dictGet g.adj_list vert1 with
  | none => none
  | some l => entryGet l vert2

/-- Overwrite the weight of the first entry for `vert2`; reports whether an
entry was found (inner loop of `_update_edge_in_list`). -/
def entryUpdate (l : List Entry) (vert2 : Coordinate) (weight : Int) :
    List Entry × Bool :=
  match l with
  | [] => ([], false)
  | (v, w) :: rest =>
    if v = vert2 then ((v, weight) :: rest, true)
    else
      let r := entryUpdate rest vert2 weight
      ((v, w) :: r.1, r.2)

/-- `_update_edge_in_list`: update the weight of an existing edge entry in
`vert1`'s list; `false` (state unchanged) if `vert1` is unknown or the entry
does not exist. -/
def updateEdgeInList (g : AdjacencyListGraph) (vert1 vert2 : Coordinate)
    (weight : Int) : AdjacencyListGraph × Bool :=
  match dictGet g.adj_list vert1 with
  | none => (g, false)
  | some l =>
    let r := entryUpdate l vert2 weight
    ({ g with adj_list := dictModify g.adj_list vert1 (fun _ => r.1) }, r.2)

/-- `_remove_edge_from_list`: drop every entry for `vert2` from `vert1`'s
list; reports whether the list shrank. -/
def removeEdgeFromList (g : AdjacencyListGraph) (vert1 vert2 : Coordinate) :
    AdjacencyListGraph × Bool :=
  match dictGet g.adj_list vert1 with
  | none => (g, false)
  | some l =>
    let l2 := l.filter (fun e => e.1 ≠ vert2)
    ({ g with adj_list := dictModify g.adj_list vert1 (fun _ => l2) },
     decide (l2.length < l.length))

/-- Append an entry to the adjacency list of key `v`
(`self.adj_list[v].append(e)`). -/
def pushEntry (g : AdjacencyListGraph) (v : Coordinate) (e : Entry) :
    AdjacencyListGraph :=
  { g with adj_list := dictModify g.adj_list v (fun l => l ++ [e]) }

/-- `addEdge`: requires both endpoints present, adjacency, positive weight
and no existing edge; on success appends the symmetric pair of entries. -/
def addEdge (g : AdjacencyListGraph) (vert1 vert2 : Coordinate)
    (weight : Int) : AdjacencyListGraph × Bool :=
  if ¬ dictHas g.adj_list vert1 ∨ ¬ dictHas g.adj_list vert2 then (g, false)
  else if ¬ vert1.isAdjacent vert2 then (g, false)
  else if weight ≤ 0 then (g, false)
  else if (g.getEdge vert1 vert2).isSome then (g, false)
  else ((g.pushEntry vert1 (vert2, weight)).pushEntry vert2 (vert1, weight),
        true)

/-- `updateWall`: wall insertion removes the edge in both directions
(idempotently); wall removal updates or inserts the symmetric edge with the
given positive weight. -/
def updateWall (g : AdjacencyListGraph) (vert1 vert2 : Coordinate)
    (hasWall : Bool) (weight : Int) : AdjacencyListGraph × Bool :=
  if ¬ dictHas g.adj_list vert1 ∨ ¬ dictHas g.adj_list vert2 ∨
      ¬ vert1.isAdjacent vert2 then (g, false)
  else if hasWall then
    let g1 := (g.removeEdgeFromList vert1 vert2).1
    let g2 := (g1.removeEdgeFromList vert2 vert1).1
    (g2, true)
  else if weight ≤ 0 then (g, false)
  else if (g.getEdge vert1 vert2).isSome then
    let r1 := g.updateEdgeInList vert1 vert2 weight
    let r2 := r1.1.updateEdgeInList vert2 vert1 weight
    (r2.1, r1.2 && r2.2)
  else ((g.pushEntry vert1 (vert2, weight)).pushEntry vert2 (vert1, weight),
        true)

/-- `removeEdge`: adding a wall. -/
def removeEdge (g : AdjacencyListGraph) (vert1 vert2 : Coordinate) :
    AdjacencyListGraph × Bool :=
  g.updateWall vert1 vert2 true 1

/-- `hasVertex`. -/
def hasVertex (g : AdjacencyListGraph) (label : Coordinate) : Bool :=
  dictHas g.adj_list label

/-- `hasEdge`: an entry exists and its weight is positive. -/
def hasEdge (g : AdjacencyListGraph) (vert1 vert2 : Coordinate) : Bool :=
  match g.getEdge vert1 vert2 with
  | none => false
  | some e => 0 < e.2

/-- `getWallStatus`: non-adjacency or a missing vertex counts as a wall;
otherwise a wall is the absence of a stored entry. -/
def getWallStatus (g : AdjacencyListGraph) (vert1 vert2 : Coordinate) :
    Bool :=
  if ¬ vert1.isAdjacent vert2 then true
  else if ¬ dictHas g.adj_list vert1 ∨ ¬ dictHas g.adj_list vert2 then true
  else (g.getEdge vert1 vert2).isNone

/-- `getWeight`: the stored weight when positive, else `0`. -/
def getWeight (g : AdjacencyListGraph) (vert1 vert2 : Coordinate) : Int :=
  match g.getEdge vert1 vert2 with
  | some e => if 0 < e.2 then e.2 else 0
  | none => 0

/-- `getVertices`. -/
def getVertices (g : AdjacencyListGraph) : List Coordinate := g.vertices

/-- `neighbours`: the neighbours reachable over entries of positive weight. -/
def neighbours (g : AdjacencyListGraph) (label : Coordinate) :
    List Coordinate :=
  match dictGet g.adj_list label with
  | none => []
  | some l => (l.filter (fun e => 0 < e.2)).map (fun e => e.1)

end AdjacencyListGraph

open AdjacencyListGraph

/-! ## Union-find (`src/MST/kruskals.py`)

The Python parent dictionary becomes a total function on coordinates
(identity outside its domain, matching `{v: v for v in vertices}` extended
by the only writes the code performs).  The recursive `find` is not
structurally recursive, so it takes explicit fuel; every theorem below
supplies enough fuel for the chains involved, and `kruskalMST` passes a
fuel proven sufficient for all its calls. -/

/-- A disjoint-set parent map. -/
abbrev Parent := Coordinate → Coordinate

/-- Point update of a parent map (`parent[c] = r`). -/
def setP (p : Parent) (c r : Coordinate) : Parent :=
  fun x => if x = c then r else p x

/-- `find`: follow parent pointers to the self-parented root, reassigning
every visited vertex's parent to the root while unwinding (path
compression); returns the root together with the updated map.  When fuel
runs out the current pointer is returned unchanged (the source recursion is
unbounded; all uses supply sufficient fuel). -/
def find : Nat → Coordinate → Parent → Coordinate × Parent
  | 0, coord, parent => (parent coord, parent)
  | fuel + 1, coord, parent =>
    if parent coord = coord then (parent coord, parent)
    else
      let r := find fuel (parent coord) parent
      let p2 := setP r.2 coord r.1
      (p2 coord, p2)

/-- `union`: find both roots (the second `find` sees the compression done by
the first); if they differ, attach `b`'s root under `a`'s root and report
`true`, else report `false`. -/
def union (fuel : Nat) (a b : Coordinate) (parent : Parent) :
    Bool × Parent :=
  let ra := find fuel a parent
  let rb := find fuel b ra.2
  if ra.1 ≠ rb.1 then (true, setP rb.2 rb.1 ra.1)
  else (false, rb.2)

/-! ## Kruskal (`kruskalMST`) -/

/-- A collected edge `(w, u, v)`. -/
abbrev KEdge := Int × Coordinate × Coordinate

/-- Membership of the unordered pair `{u, v}` in the processed-edges set
(Python `frozenset([u, v]) in processed_edges`). -/
def pairSeen (s : List (Coordinate × Coordinate)) (u v : Coordinate) :
    Bool :=
  s.any fun q => decide ((q.1 = u ∧ q.2 = v) ∨ (q.1 = v ∧ q.2 = u))

/-- Inner collection loop: for each neighbour `v` of `u`, skip pairs already
processed, read the weight, and keep positive-weight edges, recording the
pair as processed. -/
def collectFrom (g : AdjacencyListGraph) (u : Coordinate) :
    List Coordinate →
    List KEdge × List (Coordinate × Coordinate) →
    List KEdge × List (Coordinate × Coordinate)
  | [], acc => acc
  | v :: vs, acc =>
    if pairSeen acc.2 u v then collectFrom g u vs acc
    else
      let w := g.getWeight u v
      if 0 < w then
        collectFrom g u vs (acc.1 ++ [(w, u, v)], acc.2 ++ [(u, v)])
      else collectFrom g u vs acc

/-- Outer collection loop over the vertices. -/
def collectAll (g : AdjacencyListGraph) :
    List Coordinate →
    List KEdge × List (Coordinate × Coordinate) →
    List KEdge × List (Coordinate × Coordinate)
  | [], acc => acc
  | u :: us, acc => collectAll g us (collectFrom g u (g.neighbours u) acc)

/-- Comparison used by `all_edges.sort(key=lambda x: x[0])`. -/
def kGLE (a b : KEdge) : Prop := a.1 ≤ b.1

instance : DecidableRel kGLE := fun a b => Int.decLe a.1 b.1

instance : IsTotal KEdge kGLE := ⟨fun a b => Int.le_total a.1 b.1⟩

instance : IsTrans KEdge kGLE := ⟨fun _ _ _ h1 h2 => le_trans h1 h2⟩

/-- The weight-ascending stable sort of the collected edges (Python's
`list.sort` is stable; the stable sort result is rendered by insertion
sort). -/
def sortEdges (es : List KEdge) : List KEdge :=
  List.insertionSort kGLE es

/-- The main Kruskal loop: attempt a union for each edge in sorted order and
insert the edge into the result exactly when the union succeeds. -/
def processEdges (fuel : Nat) :
    List KEdge → AdjacencyListGraph → Parent → AdjacencyListGraph × Parent
  | [], mst, parent => (mst, parent)
  | (w, u, v) :: rest, mst, parent =>
    let r := union fuel u v parent
    if r.1 then processEdges fuel rest (mst.addEdge u v w).1 r.2
    else processEdges fuel rest mst r.2

/-- `kruskalMST`: empty input yields a fresh empty graph of the same shape;
otherwise copy the vertices into a fresh graph, collect the distinct
traversable edges, sort them by weight, and run the union-find loop. -/
def kruskalMST (graph : AdjacencyListGraph) : AdjacencyListGraph :=
  if graph.getVertices.isEmpty then
    AdjacencyListGraph.init graph.rows graph.cols
  else
    let mst :=
      (AdjacencyListGraph.init graph.rows graph.cols).addVertices
        graph.getVertices
    let all_edges := sortEdges (collectAll graph graph.getVertices ([], [])).1
    let parent : Parent := fun v => v
    let fuel := graph.getVertices.length + all_edges.length
    (processEdges fuel all_edges mst parent).1

/-! ## State-threaded reads for the frame property of `kruskalMST`

`kruskalMST` touches its input only through `getVertices`, `neighbours`,
`getWeight` and the `rows`/`cols` fields.  Each is a method on the input
graph; the threaded variants below make the input state explicit so that
"the call leaves the input unchanged" is expressible. -/

/-- `getVertices` as a state-threaded method call. -/
def getVerticesS (g : AdjacencyListGraph) :
    List Coordinate × AdjacencyListGraph := (g.getVertices, g)

/-- `neighbours` as a state-threaded method call. -/
def neighboursS (g : AdjacencyListGraph) (c : Coordinate) :
    List Coordinate × AdjacencyListGraph := (g.neighbours c, g)

/-- `getWeight` as a state-threaded method call. -/
def getWeightS (g : AdjacencyListGraph) (u v : Coordinate) :
    Int × AdjacencyListGraph := (g.getWeight u v, g)

/-- Inner collection loop, threading the input-graph state. -/
def collectFromS (u : Coordinate) :
    List Coordinate →
    (List KEdge × List (Coordinate × Coordinate)) × AdjacencyListGraph →
    (List KEdge × List (Coordinate × Coordinate)) × AdjacencyListGraph
  | [], acc => acc
  | v :: vs, (acc, g) =>
    if pairSeen acc.2 u v then collectFromS u vs (acc, g)
    else
      let wr := getWeightS g u v
      if 0 < wr.1 then
        collectFromS u vs
          ((acc.1 ++ [(wr.1, u, v)], acc.2 ++ [(u, v)]), wr.2)
      else collectFromS u vs (acc, wr.2)

/-- Outer collection loop, threading the input-graph state. -/
def collectAllS :
    List Coordinate →
    (List KEdge × List (Coordinate × Coordinate)) × AdjacencyListGraph →
    (List KEdge × List (Coordinate × Coordinate)) × AdjacencyListGraph
  | [], acc => acc
  | u :: us, (acc, g) =>
    let nr := neighboursS g u
    collectAllS us (collectFromS u nr.1 (acc, nr.2))

/-- `kruskalMST` with the input-graph state threaded through every method
call it performs on the input; returns the result together with the final
state of the input graph. -/
def kruskalMSTS (graph : AdjacencyListGraph) :
    AdjacencyListGraph × AdjacencyListGraph :=
  let vr := getVerticesS graph
  if vr.1.isEmpty then
    (AdjacencyListGraph.init vr.2.rows vr.2.cols, vr.2)
  else
    let mst := (AdjacencyListGraph.init vr.2.rows vr.2.cols).addVertices vr.1
    let cr := collectAllS vr.1 (([], []), vr.2)
    let all_edges := sortEdges cr.1.1
    let parent : Parent := fun v => v
    let fuel := vr.1.length + all_edges.length
    ((processEdges fuel all_edges mst parent).1, cr.2)

/-! ## Derived edge-counting and weight measures -/

/-- The sum of the lengths of all adjacency lists (each undirected edge of a
well-formed graph contributes two entries). -/
def degreeSum (g : AdjacencyListGraph) : Nat :=
  (g.adj_list.map (fun kv => kv.2.length)).sum

/-- The number of undirected edges of a well-formed graph. -/
def numEdges (g : AdjacencyListGraph) : Nat := degreeSum g / 2

/-- The sum of all stored entry weights (each undirected edge of a
well-formed graph contributes its weight twice). -/
def weightSum (g : AdjacencyListGraph) : Int :=
  (g.adj_list.map (fun kv => (kv.2.map (fun e => e.2)).sum)).sum

/-- The total weight of the undirected edge set of a well-formed graph. -/
def totalWeight (g : AdjacencyListGraph) : Int := weightSum g / 2

/-! ## Dictionary lemmas -/

theorem dictGet_modify_self (d : AdjDict) (c : Coordinate)
    (f : List Entry → List Entry) :
    dictGet (dictModify d c f) c = (dictGet d c).map f := by
  induction d with
  | nil => rfl
  | cons kv rest ih =>
    by_cases h : kv.1 = c <;> simp [dictGet, dictModify, h, ih]

theorem dictGet_modify_ne (d : AdjDict) (c x : Coordinate)
    (f : List Entry → List Entry) (hx : x ≠ c) :
    dictGet (dictModify d c f) x = dictGet d x := by
  induction d with
  | nil => rfl
  | cons kv rest ih =>
    by_cases h : kv.1 = c
    · simp [dictGet, dictModify, h]
      rw [if_neg (fun h' => hx h'.symm), if_neg (fun h' => hx h'.symm)]
    · simp [dictGet, dictModify, h, ih]

theorem dictHas_modify (d : AdjDict) (c x : Coordinate)
    (f : List Entry → List Entry) :
    dictHas (dictModify d c f) x = dictHas d x := by
  by_cases h : x = c
  · subst h; simp [dictHas, dictGet_modify_self]
  · simp [dictHas, dictGet_modify_ne d c x f h]

theorem dictModify_get_eq (d : AdjDict) (c : Coordinate) (l : List Entry)
    (h : dictGet d c = some l) : dictModify d c (fun _ => l) = d := by
  induction d with
  | nil => rfl
  | cons kv rest ih =>
    obtain ⟨k, v⟩ := kv
    by_cases hk : k = c
    · simp [dictGet, hk] at h
      simp [dictModify, hk, h]
    · simp [dictGet, hk] at h
      simp [dictModify, hk, ih h]

theorem dictModify_map_fst (d : AdjDict) (c : Coordinate)
    (f : List Entry → List Entry) :
    (dictModify d c f).map Prod.fst = d.map Prod.fst := by
  induction d with
  | nil => rfl
  | cons kv rest ih =>
    by_cases h : kv.1 = c <;> simp [dictModify, h, ih]

/-! ## Coordinate lemmas -/

theorem isAdjacent_ne {u v : Coordinate} (h : u.isAdjacent v = true) :
    u ≠ v := by
  intro he
  subst he
  simp [Coordinate.isAdjacent, natDist] at h

theorem isAdjacent_symm (u v : Coordinate) :
    u.isAdjacent v = v.isAdjacent u := by
  simp [Coordinate.isAdjacent, natDist]
  omega

theorem entryGet_append_self (l : List Entry) (v : Coordinate) (w : Int)
    (h : entryGet l v = none) : entryGet (l ++ [(v, w)]) v = some (v, w) := by
  induction l with
  | nil => simp [entryGet]
  | cons e rest ih =>
    obtain ⟨a, b⟩ := e
    by_cases he : a = v
    · simp [entryGet, he] at h
    · simp [entryGet, he] at h ⊢
      exact ih h

theorem filter_idem (l : List Entry) (p : Entry → Bool) :
    (l.filter p).filter p = l.filter p := by
  rw [List.filter_filter]
  simp

/-- Claim C9: `kruskalMST` on a graph with an empty vertex set returns a
graph with the same `(rows, cols)` and zero vertices and zero edges. -/
theorem kruskalMST_empty (g : AdjacencyListGraph)
    (h : g.getVertices = []) :
    (kruskalMST g).rows = g.rows ∧ (kruskalMST g).cols = g.cols ∧
    (kruskalMST g).vertices = [] ∧ (kruskalMST g).adj_list = [] ∧
    numEdges (kruskalMST g) = 0 := by
  simp [kruskalMST, h, AdjacencyListGraph.init, numEdges, degreeSum]

/-- Witness for C9 at the concrete empty graph of shape `(3, 4)`. -/
theorem kruskalMST_empty_witness :
    (kruskalMST (AdjacencyListGraph.init 3 4)).rows =
      (AdjacencyListGraph.init 3 4).rows ∧
    (kruskalMST (AdjacencyListGraph.init 3 4)).cols =
      (AdjacencyListGraph.init 3 4).cols ∧
    (kruskalMST (AdjacencyListGraph.init 3 4)).vertices = [] ∧
    (kruskalMST (AdjacencyListGraph.init 3 4)).adj_list = [] ∧
    numEdges (kruskalMST (AdjacencyListGraph.init 3 4)) = 0 :=
  kruskalMST_empty (AdjacencyListGraph.init 3 4) rfl

/-- Claim C4: `addEdge` succeeds exactly when both endpoints exist, they are
adjacent, the weight is positive and no edge exists yet; every failure
leaves the state unchanged; success appends the symmetric entry pair. -/
theorem addEdge_gate (g : AdjacencyListGraph) (u v : Coordinate) (w : Int) :
    ((g.addEdge u v w).2 = true ↔
      (dictHas g.adj_list u = true ∧ dictHas g.adj_list v = true ∧
       u.isAdjacent v = true ∧ 0 < w ∧ g.getEdge u v = none)) ∧
    ((g.addEdge u v w).2 = false → (g.addEdge u v w).1 = g) ∧
    ((g.addEdge u v w).2 = true →
      ∃ lu lv, dictGet g.adj_list u = some lu ∧
        dictGet g.adj_list v = some lv ∧
        dictGet (g.addEdge u v w).1.adj_list u = some (lu ++ [(v, w)]) ∧
        dictGet (g.addEdge u v w).1.adj_list v = some (lv ++ [(u, w)]) ∧
        (g.addEdge u v w).1.getEdge u v = some (v, w)) := by
  refine ⟨?_, ?_, ?_⟩
  · unfold AdjacencyListGraph.addEdge
    split_ifs with h1 h2 h3 h4
    · simp only [Bool.false_eq_true, false_iff]
      rintro ⟨hu, hv, -⟩
      rcases h1 with h1 | h1 <;> simp_all
    · simp only [Bool.false_eq_true, false_iff]
      rintro ⟨-, -, -, hw, -⟩
      omega
    · simp only [Bool.false_eq_true, false_iff]
      rintro ⟨-, -, -, -, hne⟩
      rw [hne] at h4
      cases h4
    · simp only [true_iff]
      push_neg at h1
      have h4' : g.getEdge u v = none := by simpa using h4
      exact ⟨by simpa using h1.1, by simpa using h1.2, h2, by omega, h4'⟩
    · simp only [Bool.false_eq_true, false_iff]
      rintro ⟨-, -, hadj, -⟩
      exact h2 hadj
  · unfold AdjacencyListGraph.addEdge
    split_ifs <;> simp
  · unfold AdjacencyListGraph.addEdge
    split_ifs with h1 h2 h3 h4 <;> try (intro h; cases h)
    push_neg at h1
    obtain ⟨lu, hlu⟩ := Option.isSome_iff_exists.mp (by simpa [dictHas] using h1.1)
    obtain ⟨lv, hlv⟩ := Option.isSome_iff_exists.mp (by simpa [dictHas] using h1.2)
    have hne : u ≠ v := isAdjacent_ne h2
    have hgu : entryGet lu v = none := by
      have h4' : g.getEdge u v = none := by simpa using h4
      unfold AdjacencyListGraph.getEdge at h4'
      rw [hlu] at h4'
      exact h4'
    refine ⟨lu, lv, hlu, hlv, ?_, ?_, ?_⟩
    · simp only [AdjacencyListGraph.pushEntry]
      rw [dictGet_modify_ne _ _ _ _ hne, dictGet_modify_self, hlu]
      rfl
    · simp only [AdjacencyListGraph.pushEntry]
      rw [dictGet_modify_self, dictGet_modify_ne _ _ _ _ (Ne.symm hne), hlv]
      rfl
    · unfold AdjacencyListGraph.getEdge
      simp only [AdjacencyListGraph.pushEntry]
      rw [dictGet_modify_ne _ _ _ _ hne, dictGet_modify_self, hlu]
      show entryGet (lu ++ [(v, w)]) v = some (v, w)
      exact entryGet_append_self lu v w hgu

/-- A concrete two-cell graph used to instantiate hypotheses. -/
def gW : AdjacencyListGraph :=
  (AdjacencyListGraph.init 1 2).addVertices [⟨0, 0⟩, ⟨0, 1⟩]

/-- Witness for C4: a successful insertion and a failing (non-positive
weight) call that leaves the concrete graph unchanged. -/
theorem addEdge_gate_witness :
    ((gW.addEdge ⟨0, 0⟩ ⟨0, 1⟩ 5).2 = true) ∧
    ((gW.addEdge ⟨0, 0⟩ ⟨0, 1⟩ 0).1 = gW) :=
  ⟨(addEdge_gate gW ⟨0, 0⟩ ⟨0, 1⟩ 5).1.mpr (by decide),
   (addEdge_gate gW ⟨0, 0⟩ ⟨0, 1⟩ 0).2.1 (by decide)⟩

theorem dictGet_removeEdgeFromList (g : AdjacencyListGraph)
    (a b x : Coordinate) :
    dictGet (g.removeEdgeFromList a b).1.adj_list x =
      if x = a then
        (dictGet g.adj_list a).map (fun l => l.filter (fun e => e.1 ≠ b))
      else dictGet g.adj_list x := by
  unfold AdjacencyListGraph.removeEdgeFromList
  cases h : dictGet g.adj_list a with
  | none => by_cases hx : x = a <;> simp [h, hx]
  | some l =>
    by_cases hx : x = a
    · subst hx; simp [h, dictGet_modify_self]
    · simp [h, dictGet_modify_ne _ _ _ _ hx, hx]

theorem dictHas_removeEdgeFromList (g : AdjacencyListGraph)
    (a b x : Coordinate) :
    dictHas (g.removeEdgeFromList a b).1.adj_list x =
      dictHas g.adj_list x := by
  by_cases hx : x = a
  · subst hx; simp [dictHas, dictGet_removeEdgeFromList]
  · simp [dictHas, dictGet_removeEdgeFromList, hx]

theorem removeEdgeFromList_eq_self (g : AdjacencyListGraph)
    (a b : Coordinate)
    (h : ∀ l, dictGet g.adj_list a = some l →
      l.filter (fun e => e.1 ≠ b) = l) :
    (g.removeEdgeFromList a b).1 = g := by
  unfold AdjacencyListGraph.removeEdgeFromList
  cases hg : dictGet g.adj_list a with
  | none => rfl
  | some l =>
    show { g with adj_list := (dictModify g.adj_list a
      (fun _ => l.filter (fun e => e.1 ≠ b))) } = g
    rw [h l hg, dictModify_get_eq _ _ _ hg]

theorem updateWall_true_eq (g : AdjacencyListGraph) (u v : Coordinate)
    (w : Int) (hu : dictHas g.adj_list u = true)
    (hv : dictHas g.adj_list v = true) (hadj : u.isAdjacent v = true) :
    g.updateWall u v true w =
      (((g.removeEdgeFromList u v).1.removeEdgeFromList v u).1, true) := by
  have hc : ¬ (¬ dictHas g.adj_list u = true ∨ ¬ dictHas g.adj_list v = true ∨
      ¬ u.isAdjacent v = true) := by simp [hu, hv, hadj]
  simp only [AdjacencyListGraph.updateWall, if_neg hc, if_pos]

/-- Claim C7: for existing adjacent vertices, `updateWall(u, v, true)` twice
yields the same state as once, and each call returns `true` regardless of
whether an edge existed. -/
theorem updateWall_wall_idempotent (g : AdjacencyListGraph)
    (u v : Coordinate) (hu : dictHas g.adj_list u = true)
    (hv : dictHas g.adj_list v = true) (hadj : u.isAdjacent v = true) :
    (g.updateWall u v true 1).2 = true ∧
    ((g.updateWall u v true 1).1.updateWall u v true 1).2 = true ∧
    ((g.updateWall u v true 1).1.updateWall u v true 1).1 =
      (g.updateWall u v true 1).1 := by
  have hne : u ≠ v := isAdjacent_ne hadj
  have e1 := updateWall_true_eq g u v 1 hu hv hadj
  have hu2 : dictHas ((g.removeEdgeFromList u v).1.removeEdgeFromList
      v u).1.adj_list u = true := by
    rw [dictHas_removeEdgeFromList, dictHas_removeEdgeFromList]; exact hu
  have hv2 : dictHas ((g.removeEdgeFromList u v).1.removeEdgeFromList
      v u).1.adj_list v = true := by
    rw [dictHas_removeEdgeFromList, dictHas_removeEdgeFromList]; exact hv
  have e2 := updateWall_true_eq
    ((g.removeEdgeFromList u v).1.removeEdgeFromList v u).1 u v 1 hu2 hv2 hadj
  have r1 : (((g.removeEdgeFromList u v).1.removeEdgeFromList
      v u).1.removeEdgeFromList u v).1 =
      ((g.removeEdgeFromList u v).1.removeEdgeFromList v u).1 := by
    apply removeEdgeFromList_eq_self
    intro l hl
    rw [dictGet_removeEdgeFromList, if_neg hne,
      dictGet_removeEdgeFromList, if_pos rfl] at hl
    cases hg : dictGet g.adj_list u with
    | none => rw [hg] at hl; cases hl
    | some lu =>
      rw [hg] at hl
      have hleq : l = lu.filter (fun e => e.1 ≠ v) := by simpa using hl.symm
      rw [hleq]
      exact filter_idem _ _
  have r2 : (((g.removeEdgeFromList u v).1.removeEdgeFromList
      v u).1.removeEdgeFromList v u).1 =
      ((g.removeEdgeFromList u v).1.removeEdgeFromList v u).1 := by
    apply removeEdgeFromList_eq_self
    intro l hl
    rw [dictGet_removeEdgeFromList, if_pos rfl,
      dictGet_removeEdgeFromList, if_neg (Ne.symm hne)] at hl
    cases hg : dictGet g.adj_list v with
    | none => rw [hg] at hl; cases hl
    | some lv =>
      rw [hg] at hl
      have hleq : l = lv.filter (fun e => e.1 ≠ u) := by simpa using hl.symm
      rw [hleq]
      exact filter_idem _ _
  refine ⟨by rw [e1], ?_, ?_⟩
  · rw [e1]
    show (((g.removeEdgeFromList u v).1.removeEdgeFromList
      v u).1.updateWall u v true 1).2 = true
    rw [e2]
  · rw [e1]
    show (((g.removeEdgeFromList u v).1.removeEdgeFromList
      v u).1.updateWall u v true 1).1 =
      ((g.removeEdgeFromList u v).1.removeEdgeFromList v u).1
    rw [e2]
    show ((((g.removeEdgeFromList u v).1.removeEdgeFromList
      v u).1.removeEdgeFromList u v).1.removeEdgeFromList v u).1 =
      ((g.removeEdgeFromList u v).1.removeEdgeFromList v u).1
    rw [r1, r2]

theorem dictGet_mem {d : AdjDict} {c : Coordinate} {l : List Entry}
    (h : dictGet d c = some l) : (c, l) ∈ d := by
  induction d with
  | nil => cases h
  | cons kv rest ih =>
    obtain ⟨k, v⟩ := kv
    by_cases hk : k = c
    · subst hk
      simp [dictGet] at h
      simp [h]
    · simp [dictGet, hk] at h
      exact List.mem_cons_of_mem _ (ih h)

theorem dictGet_of_mem_nodup {d : AdjDict} (hn : (d.map Prod.fst).Nodup)
    {kv : Coordinate × List Entry} (h : kv ∈ d) :
    dictGet d kv.1 = some kv.2 := by
  induction d with
  | nil => cases h
  | cons hd rest ih =>
    obtain ⟨k, v⟩ := hd
    simp only [List.map_cons, List.nodup_cons] at hn
    rcases List.mem_cons.mp h with rfl | hmem
    · simp [dictGet]
    · have hk : k ≠ kv.1 := by
        intro he
        exact hn.1 (he ▸ List.mem_map_of_mem Prod.fst hmem)
      simp [dictGet, hk]
      exact ih hn.2 hmem

theorem dictHas_iff_mem_keys {d : AdjDict} {c : Coordinate} :
    dictHas d c = true ↔ c ∈ d.map Prod.fst := by
  induction d with
  | nil => simp [dictHas, dictGet]
  | cons kv rest ih =>
    obtain ⟨k, v⟩ := kv
    by_cases hk : k = c
    · subst hk; simp [dictHas, dictGet]
    · have hck : ¬ c = k := fun h => hk h.symm
      simp only [dictHas, dictGet, if_neg hk, List.map_cons,
        List.mem_cons] at ih ⊢
      simp [hck, ih]

theorem entryGet_eq_none_iff {l : List Entry} {v : Coordinate} :
    entryGet l v = none ↔ v ∉ l.map Prod.fst := by
  induction l with
  | nil => simp [entryGet]
  | cons e rest ih =>
    obtain ⟨a, b⟩ := e
    by_cases ha : a = v
    · subst ha; simp [entryGet]
    · have hva : ¬ v = a := fun h => ha h.symm
      simp [entryGet, ha, hva, ih]

theorem entryGet_mem {l : List Entry} {v : Coordinate} {e : Entry}
    (h : entryGet l v = some e) : e ∈ l ∧ e.1 = v := by
  induction l with
  | nil => cases h
  | cons e0 rest ih =>
    obtain ⟨a, b⟩ := e0
    by_cases ha : a = v
    · subst ha
      simp [entryGet] at h
      simp [← h]
    · simp [entryGet, ha] at h
      obtain ⟨hm, hv⟩ := ih h
      exact ⟨List.mem_cons_of_mem _ hm, hv⟩

theorem entryGet_of_mem_nodup {l : List Entry}
    (hn : (l.map Prod.fst).Nodup) {e : Entry} (he : e ∈ l) :
    entryGet l e.1 = some e := by
  induction l with
  | nil => cases he
  | cons e0 rest ih =>
    obtain ⟨a, b⟩ := e0
    simp only [List.map_cons, List.nodup_cons] at hn
    rcases List.mem_cons.mp he with rfl | hmem
    · simp [entryGet]
    · have ha : a ≠ e.1 := by
        intro h
        exact hn.1 (h ▸ List.mem_map_of_mem Prod.fst hmem)
      simp [entryGet, ha]
      exact ih hn.2 hmem

/-- An entry `(v, w)` stored in `u`'s adjacency list. -/
def entryMem (g : AdjacencyListGraph) (u v : Coordinate) (w : Int) : Prop :=
  (v, w) ∈ ((dictGet g.adj_list u).getD [])

/-- The representation invariant of well-formed adjacency-list graphs (the
spec's Graph data-model invariants): the dictionary keys are exactly the
vertex list, vertices are distinct, each adjacency list mentions a
neighbour at most once, every stored entry has positive weight and joins
adjacent existing vertices, and every entry has its symmetric mirror. -/
def WF (g : AdjacencyListGraph) : Prop :=
  g.adj_list.map Prod.fst = g.vertices ∧
  g.vertices.Nodup ∧
  (∀ kv ∈ g.adj_list, ((kv.2).map Prod.fst).Nodup) ∧
  (∀ kv ∈ g.adj_list, ∀ e ∈ kv.2,
    0 < e.2 ∧ (kv.1).isAdjacent e.1 = true ∧
      dictHas g.adj_list e.1 = true) ∧
  (∀ kv ∈ g.adj_list, ∀ e ∈ kv.2, entryMem g e.1 (kv.1) e.2)

theorem WF.entryMem_symm {g : AdjacencyListGraph} (hw : WF g)
    {u v : Coordinate} {w : Int} (h : entryMem g u v w) :
    entryMem g v u w := by
  unfold entryMem at h
  cases hg : dictGet g.adj_list u with
  | none => rw [hg] at h; cases h
  | some l =>
    rw [hg] at h
    exact hw.2.2.2.2 (u, l) (dictGet_mem hg) (v, w) h

theorem dictGet_append_left {d1 : AdjDict} (d2 : AdjDict) {x : Coordinate}
    {l : List Entry} (h : dictGet d1 x = some l) :
    dictGet (d1 ++ d2) x = some l := by
  induction d1 with
  | nil => cases h
  | cons kv rest ih =>
    obtain ⟨k, v⟩ := kv
    by_cases hk : k = x
    · simp [dictGet, hk] at h ⊢
      exact h
    · simp [dictGet, hk] at h ⊢
      exact ih h

theorem WF_init (rows cols : Nat) : WF (AdjacencyListGraph.init rows cols) := by
  refine ⟨rfl, List.nodup_nil, ?_, ?_, ?_⟩ <;> intro kv hkv <;> cases hkv

theorem WF_addVertex {g : AdjacencyListGraph} (hw : WF g) (c : Coordinate) :
    WF (g.addVertex c) := by
  unfold AdjacencyListGraph.addVertex
  by_cases hc : dictHas g.adj_list c = true
  · simp only [hc, if_pos]
    exact hw
  · rw [if_neg (by simpa using hc)]
    obtain ⟨h1, h2, h3, h4, h5⟩ := hw
    have hcv : c ∉ g.vertices := by
      rw [← h1]
      intro hmem
      exact hc (dictHas_iff_mem_keys.mpr hmem)
    refine ⟨?_, ?_, ?_, ?_, ?_⟩
    · simp [h1]
    · simp only [List.nodup_append]
      exact ⟨h2, List.nodup_singleton c, by simpa [List.disjoint_singleton] using hcv⟩
    · intro kv hkv
      rcases List.mem_append.mp hkv with hkv | hkv
      · exact h3 kv hkv
      · simp at hkv
        simp [hkv]
    · intro kv hkv e he
      rcases List.mem_append.mp hkv with hkv | hkv
      · obtain ⟨hp, ha, hh⟩ := h4 kv hkv e he
        refine ⟨hp, ha, ?_⟩
        rw [dictHas_iff_mem_keys] at hh ⊢
        simp only [List.map_append, List.mem_append]
        exact Or.inl hh
      · simp at hkv
        subst hkv
        simp at he
    · intro kv hkv e he
      rcases List.mem_append.mp hkv with hkv | hkv
      · have hm := h5 kv hkv e he
        unfold entryMem at hm ⊢
        cases hg : dictGet g.adj_list e.1 with
        | none => rw [hg] at hm; cases hm
        | some l =>
          rw [hg] at hm
          rw [dictGet_append_left _ hg]
          exact hm
      · simp at hkv
        subst hkv
        simp at he

theorem WF_addVertices {g : AdjacencyListGraph} (hw : WF g)
    (cs : List Coordinate) : WF (g.addVertices cs) := by
  unfold AdjacencyListGraph.addVertices
  induction cs generalizing g with
  | nil => exact hw
  | cons c rest ih => exact ih (WF_addVertex hw c)

theorem WF.keysNodup {g : AdjacencyListGraph} (hw : WF g) :
    (g.adj_list.map Prod.fst).Nodup := hw.1 ▸ hw.2.1

theorem dictGet_pushPair {g : AdjacencyListGraph} {u v : Coordinate}
    (hne : u ≠ v) (w : Int) (x : Coordinate) :
    dictGet ((g.pushEntry u (v, w)).pushEntry v (u, w)).adj_list x =
      if x = u then (dictGet g.adj_list u).map (fun l => l ++ [(v, w)])
      else if x = v then (dictGet g.adj_list v).map (fun l => l ++ [(u, w)])
      else dictGet g.adj_list x := by
  simp only [AdjacencyListGraph.pushEntry]
  by_cases hxu : x = u
  · subst hxu
    rw [dictGet_modify_ne _ _ _ _ hne, dictGet_modify_self, if_pos rfl]
  · by_cases hxv : x = v
    · subst hxv
      rw [dictGet_modify_self, dictGet_modify_ne _ _ _ _ (Ne.symm hne),
        if_neg (Ne.symm hne), if_pos rfl]
    · rw [dictGet_modify_ne _ _ _ _ hxv, dictGet_modify_ne _ _ _ _ hxu,
        if_neg hxu, if_neg hxv]

theorem pushPair_vertices (g : AdjacencyListGraph) (u v : Coordinate)
    (w : Int) :
    ((g.pushEntry u (v, w)).pushEntry v (u, w)).vertices = g.vertices := rfl

theorem pushPair_map_fst (g : AdjacencyListGraph) (u v : Coordinate)
    (w : Int) :
    ((g.pushEntry u (v, w)).pushEntry v (u, w)).adj_list.map Prod.fst =
      g.adj_list.map Prod.fst := by
  simp only [AdjacencyListGraph.pushEntry]
  rw [dictModify_map_fst, dictModify_map_fst]

theorem WF_pushPair {g : AdjacencyListGraph} (hw : WF g) {u v : Coordinate}
    {w : Int} (hu : dictHas g.adj_list u = true)
    (hv : dictHas g.adj_list v = true) (hadj : u.isAdjacent v = true)
    (hpos : 0 < w) (hnone : g.getEdge u v = none) :
    WF ((g.pushEntry u (v, w)).pushEntry v (u, w)) := by
  have hne : u ≠ v := isAdjacent_ne hadj
  obtain ⟨lu, hlu⟩ := Option.isSome_iff_exists.mp (by simpa [dictHas] using hu)
  obtain ⟨lv, hlv⟩ := Option.isSome_iff_exists.mp (by simpa [dictHas] using hv)
  have hvlu : v ∉ lu.map Prod.fst := by
    apply entryGet_eq_none_iff.mp
    unfold AdjacencyListGraph.getEdge at hnone
    rw [hlu] at hnone
    exact hnone
  have hulv : u ∉ lv.map Prod.fst := by
    intro hmem
    obtain ⟨e, he, hefst⟩ := List.mem_map.mp hmem
    have hm1 : entryMem g v u e.2 := by
      unfold entryMem
      rw [hlv]
      simpa [← hefst] using he
    have hm2 := hw.entryMem_symm hm1
    unfold entryMem at hm2
    rw [hlu] at hm2
    exact hvlu (List.mem_map_of_mem Prod.fst (by simpa using hm2))
  obtain ⟨h1, h2, h3, h4, h5⟩ := hw
  have hD := fun x => dictGet_pushPair (g := g) hne w x
  have hkeys : ((g.pushEntry u (v, w)).pushEntry v (u, w)).adj_list.map
      Prod.fst = g.vertices := by rw [pushPair_map_fst]; exact h1
  have hknd : (((g.pushEntry u (v, w)).pushEntry v
      (u, w)).adj_list.map Prod.fst).Nodup := by rw [hkeys]; exact h2
  have hHas : ∀ x, dictHas ((g.pushEntry u (v, w)).pushEntry v
      (u, w)).adj_list x = dictHas g.adj_list x := by
    intro x
    simp only [AdjacencyListGraph.pushEntry]
    rw [dictHas_modify, dictHas_modify]
  -- case analysis for a member cell of the new dictionary
  have hcell : ∀ kv ∈ ((g.pushEntry u (v, w)).pushEntry v (u, w)).adj_list,
      (kv.1 = u ∧ kv.2 = lu ++ [(v, w)]) ∨
      (kv.1 = v ∧ kv.2 = lv ++ [(u, w)]) ∨
      (kv.1 ≠ u ∧ kv.1 ≠ v ∧ dictGet g.adj_list kv.1 = some kv.2) := by
    intro kv hkv
    have hg := dictGet_of_mem_nodup hknd hkv
    rw [hD kv.1] at hg
    by_cases hxu : kv.1 = u
    · rw [if_pos hxu, hlu] at hg
      left
      exact ⟨hxu, by simpa using hg.symm⟩
    · by_cases hxv : kv.1 = v
      · rw [if_neg hxu, if_pos hxv, hlv] at hg
        right; left
        exact ⟨hxv, by simpa using hg.symm⟩
      · rw [if_neg hxu, if_neg hxv] at hg
        right; right
        exact ⟨hxu, hxv, hg⟩
  refine ⟨?_, ?_, ?_, ?_, ?_⟩
  · rw [pushPair_map_fst, pushPair_vertices]; exact h1
  · rw [pushPair_vertices]; exact h2
  · intro kv hkv
    rcases hcell kv hkv with ⟨hx, hl⟩ | ⟨hx, hl⟩ | ⟨-, -, hg⟩
    · rw [hl]
      simp only [List.map_append, List.map_cons, List.map_nil]
      refine List.Nodup.append (h3 (u, lu) (dictGet_mem hlu)) (List.nodup_singleton v) ?_
      simpa [List.disjoint_singleton] using hvlu
    · rw [hl]
      simp only [List.map_append, List.map_cons, List.map_nil]
      refine List.Nodup.append (h3 (v, lv) (dictGet_mem hlv)) (List.nodup_singleton u) ?_
      simpa [List.disjoint_singleton] using hulv
    · exact h3 (kv.1, kv.2) (dictGet_mem hg)
  · intro kv hkv e he
    rcases hcell kv hkv with ⟨hx, hl⟩ | ⟨hx, hl⟩ | ⟨-, -, hg⟩
    · rw [hl] at he
      rcases List.mem_append.mp he with he | he
      · obtain ⟨hp, ha, hh⟩ := h4 (u, lu) (dictGet_mem hlu) e he
        exact ⟨hp, by rw [hx]; exact ha, by rw [hHas]; exact hh⟩
      · simp at he
        subst he
        exact ⟨hpos, by rw [hx]; exact hadj, by rw [hHas]; exact hv⟩
    · rw [hl] at he
      rcases List.mem_append.mp he with he | he
      · obtain ⟨hp, ha, hh⟩ := h4 (v, lv) (dictGet_mem hlv) e he
        exact ⟨hp, by rw [hx]; exact ha, by rw [hHas]; exact hh⟩
      · simp at he
        subst he
        exact ⟨hpos, by rw [hx, isAdjacent_symm]; exact hadj,
          by rw [hHas]; exact hu⟩
    · obtain ⟨hp, ha, hh⟩ := h4 (kv.1, kv.2) (dictGet_mem hg) e he
      exact ⟨hp, ha, by rw [hHas]; exact hh⟩
  · intro kv hkv e he
    have hmono : ∀ a b : Coordinate, ∀ wt : Int, entryMem g a b wt →
        entryMem ((g.pushEntry u (v, w)).pushEntry v (u, w)) a b wt := by
      intro a b wt hm
      unfold entryMem at hm ⊢
      rw [hD a]
      by_cases hau : a = u
      · subst hau
        rw [if_pos rfl, hlu]
        rw [hlu] at hm
        simp only [Option.getD_some] at hm
        simp only [Option.map_some', Option.getD_some]
        exact List.mem_append_left _ hm
      · by_cases hav : a = v
        · subst hav
          rw [if_neg hau, if_pos rfl, hlv]
          rw [hlv] at hm
          simp only [Option.getD_some] at hm
          simp only [Option.map_some', Option.getD_some]
          exact List.mem_append_left _ hm
        · rw [if_neg hau, if_neg hav]
          exact hm
    rcases hcell kv hkv with ⟨hx, hl⟩ | ⟨hx, hl⟩ | ⟨hxu, hxv, hg⟩
    · rw [hl] at he
      rw [hx]
      rcases List.mem_append.mp he with he | he
      · exact hmono e.1 u e.2 (h5 (u, lu) (dictGet_mem hlu) e he)
      · simp at he
        subst he
        unfold entryMem
        rw [hD]
        rw [if_neg (Ne.symm hne), if_pos rfl, hlv]
        simp
    · rw [hl] at he
      rw [hx]
      rcases List.mem_append.mp he with he | he
      · exact hmono e.1 v e.2 (h5 (v, lv) (dictGet_mem hlv) e he)
      · simp at he
        subst he
        unfold entryMem
        rw [hD]
        rw [if_pos rfl, hlu]
        simp
    · exact hmono e.1 kv.1 e.2 (h5 (kv.1, kv.2) (dictGet_mem hg) e he)

theorem removeEdgeFromList_map_fst (g : AdjacencyListGraph)
    (a b : Coordinate) :
    (g.removeEdgeFromList a b).1.adj_list.map Prod.fst =
      g.adj_list.map Prod.fst := by
  unfold AdjacencyListGraph.removeEdgeFromList
  cases h : dictGet g.adj_list a with
  | none => rfl
  | some l => simp [dictModify_map_fst]

theorem removeEdgeFromList_vertices (g : AdjacencyListGraph)
    (a b : Coordinate) :
    (g.removeEdgeFromList a b).1.vertices = g.vertices := by
  unfold AdjacencyListGraph.removeEdgeFromList
  cases h : dictGet g.adj_list a <;> rfl

theorem WF_removePair {g : AdjacencyListGraph} (hw : WF g)
    {u v : Coordinate} (hadj : u.isAdjacent v = true) :
    WF ((g.removeEdgeFromList u v).1.removeEdgeFromList v u).1 := by
  have hne : u ≠ v := isAdjacent_ne hadj
  obtain ⟨h1, h2, h3, h4, h5⟩ := hw
  have hD : ∀ x, dictGet ((g.removeEdgeFromList
      u v).1.removeEdgeFromList v u).1.adj_list x =
      if x = u then
        (dictGet g.adj_list u).map (fun l => l.filter (fun e => e.1 ≠ v))
      else if x = v then
        (dictGet g.adj_list v).map (fun l => l.filter (fun e => e.1 ≠ u))
      else dictGet g.adj_list x := by
    intro x
    simp only [dictGet_removeEdgeFromList]
    by_cases hxu : x = u <;> by_cases hxv : x = v
    · exact absurd (hxu.symm.trans hxv) hne
    · simp [hxu, hxv, hne, Ne.symm hne]
    · simp [hxu, hxv, hne, Ne.symm hne]
    · simp [hxu, hxv]
  have hfst : ((g.removeEdgeFromList u v).1.removeEdgeFromList
      v u).1.adj_list.map Prod.fst = g.adj_list.map Prod.fst := by
    rw [removeEdgeFromList_map_fst, removeEdgeFromList_map_fst]
  have hvert : ((g.removeEdgeFromList u v).1.removeEdgeFromList
      v u).1.vertices = g.vertices := by
    rw [removeEdgeFromList_vertices, removeEdgeFromList_vertices]
  have hknd : (((g.removeEdgeFromList u v).1.removeEdgeFromList
      v u).1.adj_list.map Prod.fst).Nodup := by
    rw [hfst, h1]; exact h2
  have hHas : ∀ x, dictHas ((g.removeEdgeFromList
      u v).1.removeEdgeFromList v u).1.adj_list x =
      dictHas g.adj_list x := by
    intro x
    rw [dictHas_removeEdgeFromList, dictHas_removeEdgeFromList]
  have hcell : ∀ kv ∈ ((g.removeEdgeFromList u v).1.removeEdgeFromList
      v u).1.adj_list,
      (kv.1 = u ∧ ∃ lu, dictGet g.adj_list u = some lu ∧
        kv.2 = lu.filter (fun e => e.1 ≠ v)) ∨
      (kv.1 = v ∧ ∃ lv, dictGet g.adj_list v = some lv ∧
        kv.2 = lv.filter (fun e => e.1 ≠ u)) ∨
      (kv.1 ≠ u ∧ kv.1 ≠ v ∧ dictGet g.adj_list kv.1 = some kv.2) := by
    intro kv hkv
    have hg := dictGet_of_mem_nodup hknd hkv
    rw [hD kv.1] at hg
    by_cases hxu : kv.1 = u
    · rw [if_pos hxu] at hg
      cases hgu : dictGet g.adj_list u with
      | none => rw [hgu] at hg; cases hg
      | some lu =>
        rw [hgu] at hg
        left
        exact ⟨hxu, lu, rfl, by simpa using hg.symm⟩
    · by_cases hxv : kv.1 = v
      · rw [if_neg hxu, if_pos hxv] at hg
        cases hgv : dictGet g.adj_list v with
        | none => rw [hgv] at hg; cases hg
        | some lv =>
          rw [hgv] at hg
          right; left
          exact ⟨hxv, lv, rfl, by simpa using hg.symm⟩
      · rw [if_neg hxu, if_neg hxv] at hg
        right; right
        exact ⟨hxu, hxv, hg⟩
  have hkeep : ∀ a b : Coordinate, ∀ wt : Int, entryMem g a b wt →
      (a = u → b ≠ v) → (a = v → b ≠ u) →
      entryMem ((g.removeEdgeFromList u v).1.removeEdgeFromList
        v u).1 a b wt := by
    intro a b wt hm hcu hcv
    unfold entryMem at hm ⊢
    rw [hD a]
    by_cases hau : a = u
    · rw [if_pos hau]
      rw [hau] at hm
      cases hg : dictGet g.adj_list u with
      | none => rw [hg] at hm; cases hm
      | some l =>
        rw [hg] at hm
        simp only [Option.getD_some] at hm
        simp only [Option.map_some', Option.getD_some]
        simp [List.mem_filter, hm, hcu hau]
    · by_cases hav : a = v
      · rw [if_neg hau, if_pos hav]
        rw [hav] at hm
        cases hg : dictGet g.adj_list v with
        | none => rw [hg] at hm; cases hm
        | some l =>
          rw [hg] at hm
          simp only [Option.getD_some] at hm
          simp only [Option.map_some', Option.getD_some]
          simp [List.mem_filter, hm, hcv hav]
      · rw [if_neg hau, if_neg hav]
        exact hm
  refine ⟨?_, ?_, ?_, ?_, ?_⟩
  · rw [hfst, hvert]; exact h1
  · rw [hvert]; exact h2
  · intro kv hkv
    rcases hcell kv hkv with ⟨hx, lu, hgu, hl⟩ | ⟨hx, lv, hgv, hl⟩ |
      ⟨-, -, hg⟩
    · rw [hl]
      exact ((List.filter_sublist lu).map Prod.fst).nodup
        (h3 (u, lu) (dictGet_mem hgu))
    · rw [hl]
      exact ((List.filter_sublist lv).map Prod.fst).nodup
        (h3 (v, lv) (dictGet_mem hgv))
    · exact h3 (kv.1, kv.2) (dictGet_mem hg)
  · intro kv hkv e he
    rcases hcell kv hkv with ⟨hx, lu, hgu, hl⟩ | ⟨hx, lv, hgv, hl⟩ |
      ⟨-, -, hg⟩
    · rw [hl] at he
      obtain ⟨hp, ha, hh⟩ := h4 (u, lu) (dictGet_mem hgu) e
        (List.mem_filter.mp he).1
      exact ⟨hp, by rw [hx]; exact ha, by rw [hHas]; exact hh⟩
    · rw [hl] at he
      obtain ⟨hp, ha, hh⟩ := h4 (v, lv) (dictGet_mem hgv) e
        (List.mem_filter.mp he).1
      exact ⟨hp, by rw [hx]; exact ha, by rw [hHas]; exact hh⟩
    · obtain ⟨hp, ha, hh⟩ := h4 (kv.1, kv.2) (dictGet_mem hg) e he
      exact ⟨hp, ha, by rw [hHas]; exact hh⟩
  · intro kv hkv e he
    rcases hcell kv hkv with ⟨hx, lu, hgu, hl⟩ | ⟨hx, lv, hgv, hl⟩ |
      ⟨hxu, hxv, hg⟩
    · rw [hl] at he
      have hel := (List.mem_filter.mp he).1
      have hev : e.1 ≠ v := by simpa using (List.mem_filter.mp he).2
      have heu : e.1 ≠ u := by
        have := (h4 (u, lu) (dictGet_mem hgu) e hel).2.1
        exact fun h => isAdjacent_ne this h.symm
      rw [hx]
      exact hkeep e.1 u e.2 (h5 (u, lu) (dictGet_mem hgu) e hel)
        (fun h => absurd h heu) (fun h => absurd h hev)
    · rw [hl] at he
      have hel := (List.mem_filter.mp he).1
      have heu : e.1 ≠ u := by simpa using (List.mem_filter.mp he).2
      have hev : e.1 ≠ v := by
        have := (h4 (v, lv) (dictGet_mem hgv) e hel).2.1
        exact fun h => isAdjacent_ne this h.symm
      rw [hx]
      exact hkeep e.1 v e.2 (h5 (v, lv) (dictGet_mem hgv) e hel)
        (fun h => absurd h heu) (fun h => absurd h hev)
    · exact hkeep e.1 kv.1 e.2 (h5 (kv.1, kv.2) (dictGet_mem hg) e he)
        (fun _ => hxv) (fun _ => hxu)

theorem entryUpdate_map_fst (l : List Entry) (b : Coordinate) (w : Int) :
    (entryUpdate l b w).1.map Prod.fst = l.map Prod.fst := by
  induction l with
  | nil => rfl
  | cons e rest ih =>
    obtain ⟨a, w0⟩ := e
    by_cases ha : a = b <;> simp [entryUpdate, ha, ih]

theorem entryUpdate_not_mem {l : List Entry} {b : Coordinate}
    (hb : b ∉ l.map Prod.fst) (w : Int) : (entryUpdate l b w).1 = l := by
  induction l with
  | nil => rfl
  | cons e rest ih =>
    obtain ⟨a, w0⟩ := e
    simp only [List.map_cons, List.mem_cons] at hb
    push_neg at hb
    simp [entryUpdate, Ne.symm hb.1, ih hb.2]

theorem mem_entryUpdate {l : List Entry} (hn : (l.map Prod.fst).Nodup)
    {b : Coordinate} (hb : b ∈ l.map Prod.fst) {w : Int} {e : Entry} :
    e ∈ (entryUpdate l b w).1 ↔ (e = (b, w) ∨ (e ∈ l ∧ e.1 ≠ b)) := by
  induction l with
  | nil => cases hb
  | cons e0 rest ih =>
    obtain ⟨a, w0⟩ := e0
    simp only [List.map_cons, List.nodup_cons] at hn
    by_cases ha : a = b
    · subst ha
      simp only [entryUpdate, if_pos rfl]
      constructor
      · intro hm
        rcases List.mem_cons.mp hm with rfl | hr
        · exact Or.inl rfl
        · refine Or.inr ⟨List.mem_cons_of_mem _ hr, ?_⟩
          intro hfst
          exact hn.1 (hfst ▸ List.mem_map_of_mem Prod.fst hr)
      · intro hm
        rcases hm with rfl | ⟨hmem, hfst⟩
        · exact List.mem_cons_self _ _
        · rcases List.mem_cons.mp hmem with rfl | hr
          · exact absurd rfl hfst
          · exact List.mem_cons_of_mem _ hr
    · have hb' : b ∈ rest.map Prod.fst := by
        rcases List.mem_cons.mp hb with h | h
        · exact absurd h.symm ha
        · exact h
      simp only [entryUpdate, if_neg ha]
      constructor
      · intro hm
        rcases List.mem_cons.mp hm with rfl | hr
        · exact Or.inr ⟨List.mem_cons_self _ _, fun h => ha h⟩
        · rcases (ih hn.2 hb').mp hr with h | ⟨h1, h2⟩
          · exact Or.inl h
          · exact Or.inr ⟨List.mem_cons_of_mem _ h1, h2⟩
      · intro hm
        rcases hm with rfl | ⟨hmem, hfst⟩
        · exact List.mem_cons_of_mem _ ((ih hn.2 hb').mpr (Or.inl rfl))
        · rcases List.mem_cons.mp hmem with rfl | hr
          · exact List.mem_cons_self _ _
          · exact List.mem_cons_of_mem _
              ((ih hn.2 hb').mpr (Or.inr ⟨hr, hfst⟩))

theorem updateEdgeInList_adj {g : AdjacencyListGraph} {a : Coordinate}
    {l : List Entry} (h : dictGet g.adj_list a = some l) (b : Coordinate)
    (w : Int) :
    (g.updateEdgeInList a b w).1 =
      { g with adj_list := (dictModify g.adj_list a
        (fun _ => (entryUpdate l b w).1)) } := by
  unfold AdjacencyListGraph.updateEdgeInList
  rw [h]

theorem WF_updatePair {g : AdjacencyListGraph} (hw : WF g)
    {u v : Coordinate} {lu lv : List Entry}
    (hlu : dictGet g.adj_list u = some lu)
    (hlv : dictGet g.adj_list v = some lv)
    (hadj : u.isAdjacent v = true) {w : Int} (hpos : 0 < w) :
    WF ((g.updateEdgeInList u v w).1.updateEdgeInList v u w).1 := by
  have hne : u ≠ v := isAdjacent_ne hadj
  obtain ⟨h1, h2, h3, h4, h5⟩ := hw
  have hnu : (lu.map Prod.fst).Nodup := h3 (u, lu) (dictGet_mem hlu)
  have hnv : (lv.map Prod.fst).Nodup := h3 (v, lv) (dictGet_mem hlv)
  have hX := updateEdgeInList_adj hlu v w
  have hXv : dictGet (g.updateEdgeInList u v w).1.adj_list v = some lv := by
    rw [hX]
    exact (dictGet_modify_ne _ _ _ _ (Ne.symm hne)).trans hlv
  have hY := updateEdgeInList_adj hXv u w
  have hD : ∀ x, dictGet ((g.updateEdgeInList
      u v w).1.updateEdgeInList v u w).1.adj_list x =
      if x = u then some (entryUpdate lu v w).1
      else if x = v then some (entryUpdate lv u w).1
      else dictGet g.adj_list x := by
    intro x
    rw [hY, hX]
    by_cases hxv : x = v
    · rw [hxv, if_neg (Ne.symm hne), if_pos rfl]
      show dictGet (dictModify _ v _) v = _
      rw [dictGet_modify_self]
      rw [dictGet_modify_ne _ _ _ _ (Ne.symm hne), hlv]
      rfl
    · show dictGet (dictModify _ v _) x = _
      rw [dictGet_modify_ne _ _ _ _ hxv]
      by_cases hxu : x = u
      · rw [hxu, if_pos rfl]
        show dictGet (dictModify _ u _) u = _
        rw [dictGet_modify_self, hlu]
        rfl
      · rw [if_neg hxu, if_neg hxv]
        exact dictGet_modify_ne _ _ _ _ hxu
  have hfst : ((g.updateEdgeInList u v w).1.updateEdgeInList
      v u w).1.adj_list.map Prod.fst = g.adj_list.map Prod.fst := by
    rw [hY, hX]
    show (dictModify (dictModify _ _ _) _ _).map Prod.fst = _
    rw [dictModify_map_fst, dictModify_map_fst]
  have hvert : ((g.updateEdgeInList u v w).1.updateEdgeInList
      v u w).1.vertices = g.vertices := by rw [hY, hX]
  have hknd : (((g.updateEdgeInList u v w).1.updateEdgeInList
      v u w).1.adj_list.map Prod.fst).Nodup := by
    rw [hfst, h1]; exact h2
  have hHas : ∀ x, dictHas ((g.updateEdgeInList
      u v w).1.updateEdgeInList v u w).1.adj_list x =
      dictHas g.adj_list x := by
    intro x
    rw [hY, hX]
    show dictHas (dictModify (dictModify _ _ _) _ _) x = _
    rw [dictHas_modify, dictHas_modify]
  by_cases hvlu : v ∈ lu.map Prod.fst
  case neg =>
    -- no stored edge in `u`'s list: by symmetry none in `v`'s either;
    -- both updates are the identity
    have hulv : u ∉ lv.map Prod.fst := by
      intro hmem
      obtain ⟨e, he, hefst⟩ := List.mem_map.mp hmem
      have hm1 : entryMem g v u e.2 := by
        unfold entryMem
        rw [hlv]
        simpa [← hefst] using he
      have hm2 := WF.entryMem_symm (g := g) ⟨h1, h2, h3, h4, h5⟩ hm1
      unfold entryMem at hm2
      rw [hlu] at hm2
      exact hvlu (List.mem_map_of_mem Prod.fst (by simpa using hm2))
    have heq : ((g.updateEdgeInList u v w).1.updateEdgeInList
        v u w).1 = g := by
      rw [hY, hX]
      rw [entryUpdate_not_mem hvlu, entryUpdate_not_mem hulv]
      rw [dictModify_get_eq _ _ _ hlu]
      show { g with adj_list := dictModify g.adj_list v (fun _ => lv) } = g
      rw [dictModify_get_eq _ _ _ hlv]
    rw [heq]
    exact ⟨h1, h2, h3, h4, h5⟩
  case pos =>
    have hulv : u ∈ lv.map Prod.fst := by
      obtain ⟨e, he, hefst⟩ := List.mem_map.mp hvlu
      have hm1 : entryMem g u v e.2 := by
        unfold entryMem
        rw [hlu]
        simpa [← hefst] using he
      have hm2 := WF.entryMem_symm (g := g) ⟨h1, h2, h3, h4, h5⟩ hm1
      unfold entryMem at hm2
      rw [hlv] at hm2
      exact List.mem_map_of_mem Prod.fst (by simpa using hm2)
    have hcell : ∀ kv ∈ ((g.updateEdgeInList u v w).1.updateEdgeInList
        v u w).1.adj_list,
        (kv.1 = u ∧ kv.2 = (entryUpdate lu v w).1) ∨
        (kv.1 = v ∧ kv.2 = (entryUpdate lv u w).1) ∨
        (kv.1 ≠ u ∧ kv.1 ≠ v ∧ dictGet g.adj_list kv.1 = some kv.2) := by
      intro kv hkv
      have hg := dictGet_of_mem_nodup hknd hkv
      rw [hD kv.1] at hg
      by_cases hxu : kv.1 = u
      · rw [if_pos hxu] at hg
        exact Or.inl ⟨hxu, by simpa using hg.symm⟩
      · by_cases hxv : kv.1 = v
        · rw [if_neg hxu, if_pos hxv] at hg
          exact Or.inr (Or.inl ⟨hxv, by simpa using hg.symm⟩)
        · rw [if_neg hxu, if_neg hxv] at hg
          exact Or.inr (Or.inr ⟨hxu, hxv, hg⟩)
    have hkeep : ∀ a b : Coordinate, ∀ wt : Int, entryMem g a b wt →
        (a = u → b ≠ v) → (a = v → b ≠ u) →
        entryMem ((g.updateEdgeInList u v w).1.updateEdgeInList
          v u w).1 a b wt := by
      intro a b wt hm hcu hcv
      unfold entryMem at hm ⊢
      rw [hD a]
      by_cases hau : a = u
      · rw [if_pos hau]
        rw [hau, hlu] at hm
        simp only [Option.getD_some] at hm ⊢
        exact (mem_entryUpdate hnu hvlu).mpr (Or.inr ⟨hm, hcu hau⟩)
      · by_cases hav : a = v
        · rw [if_neg hau, if_pos hav]
          rw [hav, hlv] at hm
          simp only [Option.getD_some] at hm ⊢
          exact (mem_entryUpdate hnv hulv).mpr (Or.inr ⟨hm, hcv hav⟩)
        · rw [if_neg hau, if_neg hav]
          exact hm
    refine ⟨?_, ?_, ?_, ?_, ?_⟩
    · rw [hfst, hvert]; exact h1
    · rw [hvert]; exact h2
    · intro kv hkv
      rcases hcell kv hkv with ⟨hx, hl⟩ | ⟨hx, hl⟩ | ⟨-, -, hg⟩
      · rw [hl, entryUpdate_map_fst]; exact hnu
      · rw [hl, entryUpdate_map_fst]; exact hnv
      · exact h3 (kv.1, kv.2) (dictGet_mem hg)
    · intro kv hkv e he
      rcases hcell kv hkv with ⟨hx, hl⟩ | ⟨hx, hl⟩ | ⟨-, -, hg⟩
      · rw [hl] at he
        rcases (mem_entryUpdate hnu hvlu).mp he with rfl | ⟨hmem, -⟩
        · exact ⟨hpos, by rw [hx]; exact hadj, by rw [hHas, dictHas, hlv]; rfl⟩
        · obtain ⟨hp, ha, hh⟩ := h4 (u, lu) (dictGet_mem hlu) e hmem
          exact ⟨hp, by rw [hx]; exact ha, by rw [hHas]; exact hh⟩
      · rw [hl] at he
        rcases (mem_entryUpdate hnv hulv).mp he with rfl | ⟨hmem, -⟩
        · exact ⟨hpos, by rw [hx, isAdjacent_symm]; exact hadj,
            by rw [hHas, dictHas, hlu]; rfl⟩
        · obtain ⟨hp, ha, hh⟩ := h4 (v, lv) (dictGet_mem hlv) e hmem
          exact ⟨hp, by rw [hx]; exact ha, by rw [hHas]; exact hh⟩
      · obtain ⟨hp, ha, hh⟩ := h4 (kv.1, kv.2) (dictGet_mem hg) e he
        exact ⟨hp, ha, by rw [hHas]; exact hh⟩
    · intro kv hkv e he
      rcases hcell kv hkv with ⟨hx, hl⟩ | ⟨hx, hl⟩ | ⟨hxu, hxv, hg⟩
      · rw [hl] at he
        rw [hx]
        rcases (mem_entryUpdate hnu hvlu).mp he with rfl | ⟨hmem, hfst⟩
        · show entryMem _ v u w
          unfold entryMem
          rw [hD v, if_neg (Ne.symm hne), if_pos rfl]
          simp only [Option.getD_some]
          exact (mem_entryUpdate hnv hulv).mpr (Or.inl rfl)
        · have heu : e.1 ≠ u := by
            have := (h4 (u, lu) (dictGet_mem hlu) e hmem).2.1
            exact fun h => isAdjacent_ne this h.symm
          exact hkeep e.1 u e.2 (h5 (u, lu) (dictGet_mem hlu) e hmem)
            (fun h => absurd h heu) (fun h => absurd h hfst)
      · rw [hl] at he
        rw [hx]
        rcases (mem_entryUpdate hnv hulv).mp he with rfl | ⟨hmem, hfst⟩
        · show entryMem _ u v w
          unfold entryMem
          rw [hD u, if_pos rfl]
          simp only [Option.getD_some]
          exact (mem_entryUpdate hnu hvlu).mpr (Or.inl rfl)
        · have hev : e.1 ≠ v := by
            have := (h4 (v, lv) (dictGet_mem hlv) e hmem).2.1
            exact fun h => isAdjacent_ne this h.symm
          exact hkeep e.1 v e.2 (h5 (v, lv) (dictGet_mem hlv) e hmem)
            (fun h => absurd h hfst) (fun h => absurd h hev)
      · exact hkeep e.1 kv.1 e.2 (h5 (kv.1, kv.2) (dictGet_mem hg) e he)
          (fun _ => hxv) (fun _ => hxu)

/-- The graph states reachable from a freshly constructed graph through the
public mutators. -/
inductive Reachable : AdjacencyListGraph → Prop where
  | init (rows cols : Nat) : Reachable (AdjacencyListGraph.init rows cols)
  | addVertex {g} (hg : Reachable g) (c : Coordinate) :
      Reachable (g.addVertex c)
  | addVertices {g} (hg : Reachable g) (cs : List Coordinate) :
      Reachable (g.addVertices cs)
  | addEdge {g} (hg : Reachable g) (u v : Coordinate) (w : Int) :
      Reachable (g.addEdge u v w).1
  | updateWall {g} (hg : Reachable g) (u v : Coordinate) (hw : Bool)
      (w : Int) : Reachable (g.updateWall u v hw w).1
  | removeEdge {g} (hg : Reachable g) (u v : Coordinate) :
      Reachable (g.removeEdge u v).1

theorem addEdge_success_eq {g : AdjacencyListGraph} {u v : Coordinate}
    {w : Int} (hu : dictHas g.adj_list u = true)
    (hv : dictHas g.adj_list v = true) (hadj : u.isAdjacent v = true)
    (hpos : 0 < w) (hnone : g.getEdge u v = none) :
    g.addEdge u v w = ((g.pushEntry u (v, w)).pushEntry v (u, w), true) := by
  unfold AdjacencyListGraph.addEdge
  rw [if_neg (by simp [hu, hv]), if_neg (by simp [hadj]),
    if_neg (by omega), if_neg (by simp [hnone])]

theorem WF_addEdge {g : AdjacencyListGraph} (hw : WF g) (u v : Coordinate)
    (w : Int) : WF (g.addEdge u v w).1 := by
  cases hs : (g.addEdge u v w).2
  case false => rw [(addEdge_gate g u v w).2.1 hs]; exact hw
  case true =>
    obtain ⟨hu, hv, hadj, hpos, hnone⟩ := (addEdge_gate g u v w).1.mp hs
    rw [addEdge_success_eq hu hv hadj hpos hnone]
    exact WF_pushPair hw hu hv hadj hpos hnone

theorem WF_updateWall {g : AdjacencyListGraph} (hw : WF g)
    (u v : Coordinate) (hwall : Bool) (w : Int) :
    WF (g.updateWall u v hwall w).1 := by
  unfold AdjacencyListGraph.updateWall
  split_ifs with h0 h1 h2 h3
  · exact hw
  · push_neg at h0
    exact WF_removePair hw (by simpa using h0.2.2)
  · exact hw
  · push_neg at h0
    obtain ⟨lu, hlu⟩ := Option.isSome_iff_exists.mp
      (by simpa [dictHas] using h0.1)
    obtain ⟨lv, hlv⟩ := Option.isSome_iff_exists.mp
      (by simpa [dictHas] using h0.2.1)
    exact WF_updatePair hw hlu hlv (by simpa using h0.2.2) (by omega)
  · push_neg at h0
    exact WF_pushPair hw (by simpa using h0.1) (by simpa using h0.2.1)
      (by simpa using h0.2.2) (by omega) (by simpa using h3)

theorem WF_removeEdge {g : AdjacencyListGraph} (hw : WF g)
    (u v : Coordinate) : WF (g.removeEdge u v).1 :=
  WF_updateWall hw u v true 1

/-- Every reachable graph state satisfies the representation invariant. -/
theorem Reachable.wf {g : AdjacencyListGraph} (h : Reachable g) : WF g := by
  induction h with
  | init rows cols => exact WF_init rows cols
  | addVertex _ c ih => exact WF_addVertex ih c
  | addVertices _ cs ih => exact WF_addVertices ih cs
  | addEdge _ u v w ih => exact WF_addEdge ih u v w
  | updateWall _ u v hwb w ih => exact WF_updateWall ih u v hwb w
  | removeEdge _ u v ih => exact WF_removeEdge ih u v

/-- In a well-formed graph, a stored edge is mirrored with the same weight. -/
theorem WF.getEdge_symm {g : AdjacencyListGraph} (hw : WF g)
    {a b : Coordinate} {e : Entry} (he : g.getEdge a b = some e) :
    g.getEdge b a = some (a, e.2) := by
  obtain ⟨h1, h2, h3, h4, h5⟩ := hw
  unfold AdjacencyListGraph.getEdge at he ⊢
  cases hga : dictGet g.adj_list a with
  | none => rw [hga] at he; cases he
  | some la =>
    rw [hga] at he
    obtain ⟨b', wt⟩ := e
    obtain ⟨hmem, hfst⟩ := entryGet_mem he
    simp only at hfst
    subst hfst
    have hm1 : entryMem g a b' wt := by
      unfold entryMem
      rw [hga]
      simpa using hmem
    have hm2 := WF.entryMem_symm (g := g) ⟨h1, h2, h3, h4, h5⟩ hm1
    unfold entryMem at hm2
    cases hgb : dictGet g.adj_list b' with
    | none => rw [hgb] at hm2; cases hm2
    | some lb =>
      rw [hgb] at hm2
      simp only [Option.getD_some] at hm2
      exact entryGet_of_mem_nodup (h3 (b', lb) (dictGet_mem hgb)) hm2

/-- Claim C6: in every state reachable from a fresh graph via the public
operations, the edge relation is symmetric: `hasEdge` and `getWeight` agree
in both directions for every pair of coordinates. -/
theorem reachable_symmetry (g : AdjacencyListGraph) (hg : Reachable g)
    (u v : Coordinate) :
    g.hasEdge u v = g.hasEdge v u ∧ g.getWeight u v = g.getWeight v u := by
  have hw := Reachable.wf hg
  cases hab : g.getEdge u v with
  | none =>
    cases hba : g.getEdge v u with
    | none => simp [AdjacencyListGraph.hasEdge,
        AdjacencyListGraph.getWeight, hab, hba]
    | some eb =>
      have h := hw.getEdge_symm hba
      rw [hab] at h
      cases h
  | some ea =>
    have hba := hw.getEdge_symm hab
    simp [AdjacencyListGraph.hasEdge, AdjacencyListGraph.getWeight,
      hab, hba]

/-- Witness for C6: a concrete reachable two-cell graph with one edge. -/
theorem reachable_symmetry_witness :
    (gW.addEdge ⟨0, 0⟩ ⟨0, 1⟩ 3).1.hasEdge ⟨0, 0⟩ ⟨0, 1⟩ =
      (gW.addEdge ⟨0, 0⟩ ⟨0, 1⟩ 3).1.hasEdge ⟨0, 1⟩ ⟨0, 0⟩ ∧
    (gW.addEdge ⟨0, 0⟩ ⟨0, 1⟩ 3).1.getWeight ⟨0, 0⟩ ⟨0, 1⟩ =
      (gW.addEdge ⟨0, 0⟩ ⟨0, 1⟩ 3).1.getWeight ⟨0, 1⟩ ⟨0, 0⟩ :=
  reachable_symmetry (gW.addEdge ⟨0, 0⟩ ⟨0, 1⟩ 3).1
    (Reachable.addEdge (Reachable.addVertices (Reachable.init 1 2)
      [⟨0, 0⟩, ⟨0, 1⟩]) ⟨0, 0⟩ ⟨0, 1⟩ 3) ⟨0, 0⟩ ⟨0, 1⟩

/-- Witness for C7 at the concrete two-cell graph: removing the (absent)
edge between the two adjacent cells twice. -/
theorem updateWall_wall_idempotent_witness :
    (gW.updateWall ⟨0, 0⟩ ⟨0, 1⟩ true 1).2 = true ∧
    ((gW.updateWall ⟨0, 0⟩ ⟨0, 1⟩ true 1).1.updateWall
      ⟨0, 0⟩ ⟨0, 1⟩ true 1).2 = true ∧
    ((gW.updateWall ⟨0, 0⟩ ⟨0, 1⟩ true 1).1.updateWall
      ⟨0, 0⟩ ⟨0, 1⟩ true 1).1 = (gW.updateWall ⟨0, 0⟩ ⟨0, 1⟩ true 1).1 :=
  updateWall_wall_idempotent gW ⟨0, 0⟩ ⟨0, 1⟩ (by decide) (by decide)
    (by decide)


/-! ## The frame property of `kruskalMST` (C5) -/

theorem collectFromS_eq (u : Coordinate) (vs : List Coordinate)
    (acc : List KEdge × List (Coordinate × Coordinate))
    (g : AdjacencyListGraph) :
    collectFromS u vs (acc, g) = (collectFrom g u vs acc, g) := by
  induction vs generalizing acc with
  | nil => rfl
  | cons v rest ih =>
    simp only [collectFromS, collectFrom, getWeightS]
    by_cases hp : pairSeen acc.2 u v = true
    · simp [hp, ih]
    · by_cases hw : 0 < g.getWeight u v
      · simp [hp, hw, ih]
      · simp [hp, hw, ih]

theorem collectAllS_eq (us : List Coordinate)
    (acc : List KEdge × List (Coordinate × Coordinate))
    (g : AdjacencyListGraph) :
    collectAllS us (acc, g) = (collectAll g us acc, g) := by
  induction us generalizing acc with
  | nil => rfl
  | cons u rest ih =>
    simp only [collectAllS, collectAll, neighboursS]
    rw [collectFromS_eq, ih]

theorem addVertex_shape (g : AdjacencyListGraph) (c : Coordinate) :
    (g.addVertex c).rows = g.rows ∧ (g.addVertex c).cols = g.cols := by
  unfold AdjacencyListGraph.addVertex
  split_ifs <;> exact ⟨rfl, rfl⟩

theorem addVertices_shape (g : AdjacencyListGraph) (cs : List Coordinate) :
    (g.addVertices cs).rows = g.rows ∧ (g.addVertices cs).cols = g.cols := by
  unfold AdjacencyListGraph.addVertices
  induction cs generalizing g with
  | nil => exact ⟨rfl, rfl⟩
  | cons c rest ih =>
    have h := addVertex_shape g c
    have h2 := ih (g.addVertex c)
    exact ⟨h2.1.trans h.1, h2.2.trans h.2⟩

theorem addEdge_shape (g : AdjacencyListGraph) (u v : Coordinate)
    (w : Int) :
    (g.addEdge u v w).1.rows = g.rows ∧
    (g.addEdge u v w).1.cols = g.cols := by
  unfold AdjacencyListGraph.addEdge
  split_ifs <;> exact ⟨rfl, rfl⟩

theorem processEdges_shape (fuel : Nat) (es : List KEdge)
    (mst : AdjacencyListGraph) (parent : Parent) :
    (processEdges fuel es mst parent).1.rows = mst.rows ∧
    (processEdges fuel es mst parent).1.cols = mst.cols := by
  induction es generalizing mst parent with
  | nil => exact ⟨rfl, rfl⟩
  | cons e rest ih =>
    obtain ⟨w, u, v⟩ := e
    simp only [processEdges]
    by_cases hr : (union fuel u v parent).1 = true
    · simp only [hr, if_pos]
      have h1 := ih (mst.addEdge u v w).1 (union fuel u v parent).2
      have h2 := addEdge_shape mst u v w
      exact ⟨h1.1.trans h2.1, h1.2.trans h2.2⟩
    · simp only [hr]
      rw [if_neg (by simp [hr])]
      exact ih mst (union fuel u v parent).2

/-- Claim C5: `kruskalMST` touches its input only through reads — the
state-threaded variant returns the input state unchanged — and the result
is a freshly constructed graph with the input's `rows` and `cols`. -/
theorem kruskalMST_frame (g : AdjacencyListGraph) :
    kruskalMSTS g = (kruskalMST g, g) ∧
    (kruskalMST g).rows = g.rows ∧ (kruskalMST g).cols = g.cols := by
  refine ⟨?_, ?_⟩
  · unfold kruskalMSTS kruskalMST getVerticesS
    by_cases he : g.getVertices.isEmpty
    · simp [he]
    · simp only [he, Bool.false_eq_true, if_neg, if_false]
      rw [collectAllS_eq]
  · unfold kruskalMST
    by_cases he : g.getVertices.isEmpty
    · simp [he, AdjacencyListGraph.init]
    · simp only [he, Bool.false_eq_true, if_false]
      have h1 := processEdges_shape (g.getVertices.length +
        (sortEdges (collectAll g g.getVertices ([], [])).1).length)
        (sortEdges (collectAll g g.getVertices ([], [])).1)
        ((AdjacencyListGraph.init g.rows g.cols).addVertices g.getVertices)
        (fun v => v)
      have h2 := addVertices_shape (AdjacencyListGraph.init g.rows g.cols)
        g.getVertices
      exact ⟨h1.1.trans h2.1, h1.2.trans h2.2⟩

/-! ## Union-find theory: naive walks, resolution, roots -/

/-- The naive parent-chain walk: follow pointers for at most `n` steps
without any mutation, stopping at a self-parented vertex. -/
def naiveWalk : Nat → Parent → Coordinate → Coordinate
  | 0, _, c => c
  | n + 1, p, c => if p c = c then c else naiveWalk n p (p c)

/-- The chain from `c` reaches a self-parented root within `n` steps. -/
def Resolves (p : Parent) (c : Coordinate) (n : Nat) : Prop :=
  p (naiveWalk n p c) = naiveWalk n p c

/-- `r` is the root of `c`'s parent chain (the result of the naive walk). -/
def RootIs (p : Parent) (c r : Coordinate) : Prop :=
  ∃ n, Resolves p c n ∧ naiveWalk n p c = r

/-- `y` and `z` lie in the same set of the union-find partition. -/
def sameRoot (p : Parent) (y z : Coordinate) : Prop :=
  ∃ r, RootIs p y r ∧ RootIs p z r

theorem naiveWalk_root {p : Parent} {c : Coordinate} (h : p c = c) :
    ∀ n, naiveWalk n p c = c := by
  intro n
  cases n with
  | zero => rfl
  | succ n => simp [naiveWalk, h]

theorem naiveWalk_step {p : Parent} {c : Coordinate} (h : p c ≠ c)
    (n : Nat) : naiveWalk (n + 1) p c = naiveWalk n p (p c) := by
  simp [naiveWalk, h]

theorem Resolves_zero {p : Parent} {c : Coordinate} :
    Resolves p c 0 ↔ p c = c := Iff.rfl

theorem Resolves_succ {p : Parent} {c : Coordinate} (h : p c ≠ c)
    {n : Nat} : Resolves p c (n + 1) ↔ Resolves p (p c) n := by
  unfold Resolves
  rw [naiveWalk_step h]

theorem Resolves.mono {p : Parent} {c : Coordinate} {n : Nat}
    (h : Resolves p c n) {m : Nat} (hm : n ≤ m) :
    Resolves p c m ∧ naiveWalk m p c = naiveWalk n p c := by
  induction n generalizing c m with
  | zero =>
    have hc : p c = c := h
    exact ⟨by unfold Resolves; rw [naiveWalk_root hc]; exact hc, by
      rw [naiveWalk_root hc]; rfl⟩
  | succ n ih =>
    by_cases hc : p c = c
    · refine ⟨by unfold Resolves; rw [naiveWalk_root hc]; exact hc, ?_⟩
      rw [naiveWalk_root hc, naiveWalk_root hc]
    · obtain ⟨m', rfl⟩ : ∃ m', m = m' + 1 :=
        ⟨m - 1, by omega⟩
      have h' := (Resolves_succ hc).mp h
      have hm' : n ≤ m' := by omega
      obtain ⟨hres, hwalk⟩ := ih h' hm'
      exact ⟨(Resolves_succ hc).mpr hres, by
        rw [naiveWalk_step hc, naiveWalk_step hc, hwalk]⟩

theorem RootIs_unique {p : Parent} {c r r' : Coordinate}
    (h1 : RootIs p c r) (h2 : RootIs p c r') : r = r' := by
  obtain ⟨n, hn, hwn⟩ := h1
  obtain ⟨m, hm, hwm⟩ := h2
  rcases Nat.le_total n m with h | h
  · rw [← hwn, ← hwm, (hn.mono h).2]
  · rw [← hwn, ← hwm, (hm.mono h).2]

theorem RootIs.fix {p : Parent} {c r : Coordinate} (h : RootIs p c r) :
    p r = r := by
  obtain ⟨n, hn, hwn⟩ := h
  rw [← hwn]
  exact hn

theorem RootIs_self {p : Parent} {c : Coordinate} (h : p c = c) :
    RootIs p c c := ⟨0, h, rfl⟩

theorem RootIs_of_fix {p : Parent} {r : Coordinate} (h : p r = r) :
    RootIs p r r := RootIs_self h

theorem RootIs_step {p : Parent} {c r : Coordinate} (h : p c ≠ c)
    (hr : RootIs p (p c) r) : RootIs p c r := by
  obtain ⟨n, hn, hwn⟩ := hr
  exact ⟨n + 1, (Resolves_succ h).mpr hn, by rw [naiveWalk_step h, hwn]⟩

theorem RootIs_step' {p : Parent} {c r : Coordinate} (h : p c ≠ c)
    (hr : RootIs p c r) : RootIs p (p c) r := by
  obtain ⟨n, hn, hwn⟩ := hr
  cases n with
  | zero => exact absurd hn h
  | succ n =>
    exact ⟨n, (Resolves_succ h).mp hn, by rw [← naiveWalk_step h n, hwn]⟩

theorem RootIs.root {p : Parent} {c r : Coordinate} (h : RootIs p c r) :
    RootIs p r r := RootIs_of_fix h.fix

theorem Resolves.rootIs {p : Parent} {c : Coordinate} {n : Nat}
    (h : Resolves p c n) : RootIs p c (naiveWalk n p c) := ⟨n, h, rfl⟩

theorem setP_self (p : Parent) (c r : Coordinate) : setP p c r c = r := by
  simp [setP]

theorem setP_ne (p : Parent) {c x : Coordinate} (r : Coordinate)
    (h : x ≠ c) : setP p c r x = p x := by
  simp [setP, h]

/-- Redirection preservation: if every pointer of `q` is either the old
pointer of `p` or a direct jump to that vertex's `p`-root, then every chain
resolves at least as fast in `q` and reaches the same root. -/
theorem redirect_preserves {p q : Parent}
    (H : ∀ y, q y = p y ∨ RootIs p y (q y)) :
    ∀ n c r, Resolves p c n → naiveWalk n p c = r →
      Resolves q c n ∧ naiveWalk n q c = r := by
  intro n
  induction n with
  | zero =>
    intro c r hres hw
    have hqc : q c = c := by
      rcases H c with h | h
      · rw [h]; exact hres
      · exact RootIs_unique h (RootIs_self hres)
    exact ⟨hqc, hw⟩
  | succ n ih =>
    intro c r hres hw
    by_cases hc : p c = c
    · have hr : c = r := by rw [← hw, naiveWalk_root hc]
      have hqc : q c = c := by
        rcases H c with h | h
        · rw [h]; exact hc
        · exact RootIs_unique h (RootIs_self hc)
      constructor
      · unfold Resolves
        rw [naiveWalk_root hqc]
        exact hqc
      · rw [naiveWalk_root hqc]
        exact hr
    · have hres' := (Resolves_succ hc).mp hres
      have hw' : naiveWalk n p (p c) = r := by
        rw [← naiveWalk_step hc]
        exact hw
      obtain ⟨hq1, hq2⟩ := ih (p c) r hres' hw'
      rcases H c with hqc | hqc
      · have hqne : q c ≠ c := by rw [hqc]; exact hc
        refine ⟨(Resolves_succ hqne).mpr ?_, ?_⟩
        · rw [hqc]; exact hq1
        · rw [naiveWalk_step hqne, hqc]; exact hq2
      · have hcr : RootIs p c r := RootIs_step hc ⟨n, hres', hw'⟩
        have hqcr : q c = r := RootIs_unique hqc hcr
        have hpr : p r = r := hcr.fix
        have hqr : q r = r := by
          rcases H r with h | h
          · rw [h]; exact hpr
          · exact RootIs_unique h (RootIs_self hpr)
        by_cases hcreq : c = r
        · exact absurd (by rw [hcreq]; exact hpr) hc
        · have hqne : q c ≠ c := by
            rw [hqcr]
            exact fun h => hcreq h.symm
          refine ⟨(Resolves_succ hqne).mpr ?_, ?_⟩
          · rw [hqcr]
            unfold Resolves
            rw [naiveWalk_root hqr]
            exact hqr
          · rw [naiveWalk_step hqne, hqcr, naiveWalk_root hqr]

theorem redirect_rootIs {p q : Parent}
    (H : ∀ y, q y = p y ∨ RootIs p y (q y)) {c r : Coordinate}
    (hr : RootIs p c r) : RootIs q c r := by
  obtain ⟨n, hres, hw⟩ := hr
  obtain ⟨h1, h2⟩ := redirect_preserves H n c r hres hw
  exact ⟨n, h1, h2⟩

/-- Specification of `find`: with sufficient fuel it returns the chain's
root, and the compressed map redirects vertices only to their own roots. -/
theorem find_spec : ∀ (fuel : Nat) (c : Coordinate) (p : Parent) (n : Nat),
    n ≤ fuel → Resolves p c n →
    RootIs p c (find fuel c p).1 ∧
    (∀ y, (find fuel c p).2 y = p y ∨ RootIs p y ((find fuel c p).2 y)) := by
  intro fuel
  induction fuel with
  | zero =>
    intro c p n hn hres
    have hn0 : n = 0 := by omega
    subst hn0
    have hc : p c = c := hres
    constructor
    · show RootIs p c (p c)
      rw [hc]
      exact RootIs_self hc
    · intro y
      exact Or.inl rfl
  | succ fuel ih =>
    intro c p n hn hres
    by_cases hc : p c = c
    · constructor
      · show RootIs p c (find (fuel + 1) c p).1
        simp only [find, if_pos hc]
        rw [hc]
        exact RootIs_self hc
      · intro y
        left
        simp only [find, if_pos hc]
    · obtain ⟨m, rfl⟩ : ∃ m, n = m + 1 := by
        cases n with
        | zero => exact absurd hres hc
        | succ m => exact ⟨m, rfl⟩
      have hres' := (Resolves_succ hc).mp hres
      have hm : m ≤ fuel := by omega
      obtain ⟨hroot, hmap⟩ := ih (p c) p m hm hres'
      have heq1 : (find (fuel + 1) c p).1 =
          setP (find fuel (p c) p).2 c (find fuel (p c) p).1 c := by
        simp only [find, if_neg hc]
      have heq2 : (find (fuel + 1) c p).2 =
          setP (find fuel (p c) p).2 c (find fuel (p c) p).1 := by
        simp only [find, if_neg hc]
      constructor
      · rw [heq1, setP_self]
        exact RootIs_step hc hroot
      · intro y
        rw [heq2]
        by_cases hy : y = c
        · right
          rw [hy, setP_self]
          exact RootIs_step hc hroot
        · rw [setP_ne _ _ hy]
          exact hmap y

/-- With sufficient fuel, `find` returns exactly the root that the naive,
compression-free walk reaches. -/
theorem find_eq_naiveWalk {p : Parent} {x : Coordinate} {n fuel : Nat}
    (h : Resolves p x n) (hn : n ≤ fuel) :
    (find fuel x p).1 = naiveWalk n p x :=
  RootIs_unique (find_spec fuel x p n hn h).1 h.rootIs

/-- Linking: pointing root `rb` at root `ra` extends every chain by at most
one step and renames the `rb` class to `ra`. -/
theorem link_spec {p : Parent} {ra rb : Coordinate} (hra : p ra = ra)
    (hrb : p rb = rb) (hne : ra ≠ rb) :
    ∀ k y r, Resolves p y k → naiveWalk k p y = r →
      Resolves (setP p rb ra) y (k + 1) ∧
      naiveWalk (k + 1) (setP p rb ra) y = (if r = rb then ra else r) := by
  have hqra : setP p rb ra ra = ra := by
    rw [setP_ne _ _ hne]
    exact hra
  have hbase : ∀ k y, p y = y → Resolves (setP p rb ra) y (k + 1) ∧
      naiveWalk (k + 1) (setP p rb ra) y = (if y = rb then ra else y) := by
    intro k y hy
    by_cases hyrb : y = rb
    · have hqy : setP p rb ra y = ra := by
        rw [hyrb]
        exact setP_self _ _ _
      have hqyne : setP p rb ra y ≠ y := by
        rw [hqy, hyrb]
        exact hne
      constructor
      · unfold Resolves
        rw [naiveWalk_step hqyne, hqy, naiveWalk_root hqra, hqra]
      · rw [naiveWalk_step hqyne, hqy, naiveWalk_root hqra, if_pos hyrb]
    · have hqy : setP p rb ra y = y := by
        rw [setP_ne _ _ hyrb]
        exact hy
      constructor
      · unfold Resolves
        rw [naiveWalk_root hqy]
        exact hqy
      · rw [naiveWalk_root hqy, if_neg hyrb]
  intro k
  induction k with
  | zero =>
    intro y r h0 hw
    have hr : y = r := hw
    subst hr
    exact hbase 0 y h0
  | succ k ih =>
    intro y r h hw
    by_cases hpy : p y = y
    · have hr : y = r := by rw [← hw, naiveWalk_root hpy]
      subst hr
      exact hbase (k + 1) y hpy
    · have h' := (Resolves_succ hpy).mp h
      have hw' : naiveWalk k p (p y) = r := by
        rw [← naiveWalk_step hpy]
        exact hw
      obtain ⟨hq1, hq2⟩ := ih (p y) r h' hw'
      have hyrb : y ≠ rb := by
        intro he
        apply hpy
        rw [he]
        exact hrb
      have hqy : setP p rb ra y = p y := setP_ne _ _ hyrb
      have hqne : setP p rb ra y ≠ y := by
        rw [hqy]
        exact hpy
      constructor
      · exact (Resolves_succ hqne).mpr (by rw [hqy]; exact hq1)
      · rw [naiveWalk_step hqne, hqy]
        exact hq2

/-- Master specification of `union`: both chain roots are computed, the
boolean reports whether they differ, and the resulting map merges exactly
the two classes (attaching `b`'s root under `a`'s root) while extending
resolution bounds by at most one. -/
theorem union_spec (fuel : Nat) (a b : Coordinate) (p : Parent)
    {n m : Nat} (hna : Resolves p a n) (hnb : Resolves p b m)
    (hn : n ≤ fuel) (hm : m ≤ fuel) :
    ∃ ra rb, RootIs p a ra ∧ RootIs p b rb ∧
      ((union fuel a b p).1 = true ↔ ra ≠ rb) ∧
      (ra ≠ rb → (union fuel a b p).2 rb = ra) ∧
      (∀ y k r, Resolves p y k → naiveWalk k p y = r →
        Resolves (union fuel a b p).2 y (k + 1) ∧
        RootIs (union fuel a b p).2 y
          (if ra ≠ rb ∧ r = rb then ra else r)) := by
  obtain ⟨hrootA, hmapA⟩ := find_spec fuel a p n hn hna
  obtain ⟨hb1, hb2⟩ := redirect_preserves hmapA m b (naiveWalk m p b) hnb rfl
  obtain ⟨hrootB1, hmapB⟩ := find_spec fuel b (find fuel a p).2 m hm hb1
  have hrootB : RootIs p b (find fuel b (find fuel a p).2).1 :=
    ⟨m, hnb, (RootIs_unique hrootB1 ⟨m, hb1, hb2⟩).symm⟩
  refine ⟨(find fuel a p).1, (find fuel b (find fuel a p).2).1,
    hrootA, hrootB, ?_⟩
  by_cases hrr : (find fuel a p).1 = (find fuel b (find fuel a p).2).1
  · have hu : union fuel a b p = (false, (find fuel b (find fuel a p).2).2) := by
      unfold union
      rw [if_neg (by simpa using hrr)]
    rw [hu]
    refine ⟨by simp [hrr], by simp [hrr], ?_⟩
    intro y k r hres hw
    simp only [hrr, ne_eq, not_true_eq_false, false_and, if_false]
    obtain ⟨h1, h2⟩ := redirect_preserves hmapA k y r hres hw
    obtain ⟨h3, h4⟩ := redirect_preserves hmapB k y r h1 h2
    exact ⟨((h3.mono (Nat.le_succ k)).1), ⟨k, h3, h4⟩⟩
  · have hu : union fuel a b p = (true,
        setP (find fuel b (find fuel a p).2).2
          (find fuel b (find fuel a p).2).1 (find fuel a p).1) := by
      unfold union
      rw [if_pos (by simpa using hrr)]
    have hra2 : (find fuel b (find fuel a p).2).2 (find fuel a p).1 =
        (find fuel a p).1 := by
      have s1 : RootIs p (find fuel a p).1 (find fuel a p).1 :=
        hrootA.root
      have s2 := redirect_rootIs hmapA s1
      have s3 := redirect_rootIs hmapB s2
      exact s3.fix
    have hrb2 : (find fuel b (find fuel a p).2).2
        (find fuel b (find fuel a p).2).1 =
        (find fuel b (find fuel a p).2).1 :=
      (redirect_rootIs hmapB hrootB1.root).fix
    have hlink := link_spec hra2 hrb2 hrr
    rw [hu]
    refine ⟨by simp [hrr], fun _ => setP_self _ _ _, ?_⟩
    intro y k r hres hw
    obtain ⟨h1, h2⟩ := redirect_preserves hmapA k y r hres hw
    obtain ⟨h3, h4⟩ := redirect_preserves hmapB k y r h1 h2
    obtain ⟨h5, h6⟩ := hlink k y r h3 h4
    refine ⟨h5, ⟨k + 1, h5, ?_⟩⟩
    rw [h6]
    simp [hrr]

/-- A concrete three-vertex parent chain `(0,0) → (0,1) → (0,2)`. -/
def pC3 : Parent := fun x =>
  if x = ⟨0, 0⟩ then ⟨0, 1⟩ else if x = ⟨0, 1⟩ then ⟨0, 2⟩ else x

/-- Counterexample to C3 as stated: both finds yield the same root and
`union` returns `false`, yet the parent mapping HAS been mutated — path
compression inside `find` rewrote the pointer of `(0,0)`. -/
theorem union_equal_roots_mutates :
    (find 3 ⟨0, 0⟩ pC3).1 = (find 3 ⟨0, 2⟩ pC3).1 ∧
    (union 3 ⟨0, 0⟩ ⟨0, 2⟩ pC3).1 = false ∧
    (union 3 ⟨0, 0⟩ ⟨0, 2⟩ pC3).2 ⟨0, 0⟩ ≠ pC3 ⟨0, 0⟩ := by decide

/-- Claim C3 (amended): on a terminating parent map, if the two chain roots
are equal then `union` returns `false` and performs no union — every
vertex's root is unchanged (path compression may still rewrite pointers on
the two search paths); if the roots differ it attaches `b`'s root under
`a`'s root and returns `true`. -/
theorem union_amended (fuel : Nat) (a b : Coordinate) (p : Parent)
    {n m : Nat} (hna : Resolves p a n) (hnb : Resolves p b m)
    (hn : n ≤ fuel) (hm : m ≤ fuel) :
    ∃ ra rb, RootIs p a ra ∧ RootIs p b rb ∧
      (ra = rb → (union fuel a b p).1 = false ∧
        ∀ y r, RootIs p y r → RootIs (union fuel a b p).2 y r) ∧
      (ra ≠ rb → (union fuel a b p).1 = true ∧
        (union fuel a b p).2 rb = ra) := by
  obtain ⟨ra, rb, h1, h2, h3, h4, h5⟩ := union_spec fuel a b p hna hnb hn hm
  refine ⟨ra, rb, h1, h2, ?_, ?_⟩
  · intro he
    constructor
    · cases hu : (union fuel a b p).1 with
      | false => rfl
      | true => exact absurd he (h3.mp hu)
    · intro y r hr
      obtain ⟨k, hres, hw⟩ := hr
      have hres2 := (h5 y k r hres hw).2
      rw [if_neg (by simp [he])] at hres2
      exact hres2
  · intro hne
    exact ⟨h3.mpr hne, h4 hne⟩

/-- Witness for C3's amended claim: two singleton roots being united. -/
theorem union_amended_witness :
    ∃ ra rb, RootIs (fun c => c) (⟨0, 0⟩ : Coordinate) ra ∧
      RootIs (fun c => c) (⟨0, 1⟩ : Coordinate) rb ∧
      (ra = rb → (union 2 ⟨0, 0⟩ ⟨0, 1⟩ (fun c => c)).1 = false ∧
        ∀ y r, RootIs (fun c => c) y r →
          RootIs (union 2 ⟨0, 0⟩ ⟨0, 1⟩ (fun c => c)).2 y r) ∧
      (ra ≠ rb → (union 2 ⟨0, 0⟩ ⟨0, 1⟩ (fun c => c)).1 = true ∧
        (union 2 ⟨0, 0⟩ ⟨0, 1⟩ (fun c => c)).2 rb = ra) :=
  union_amended 2 ⟨0, 0⟩ ⟨0, 1⟩ (fun c => c) (n := 0) (m := 0) rfl rfl
    (Nat.zero_le 2) (Nat.zero_le 2)

/-- Apply a sequence of `union` operations left to right. -/
def runUnions (fuel : Nat) :
    List (Coordinate × Coordinate) → Parent → Parent
  | [], p => p
  | ab :: rest, p => runUnions fuel rest (union fuel ab.1 ab.2 p).2

theorem runUnions_resolves {p : Parent} {n : Nat}
    (h : ∀ c, Resolves p c n) (ops : List (Coordinate × Coordinate))
    {fuel : Nat} (hfuel : n + ops.length ≤ fuel) :
    ∀ c, Resolves (runUnions fuel ops p) c (n + ops.length) := by
  induction ops generalizing p n with
  | nil => simpa using h
  | cons ab rest ih =>
    intro c
    have hstep : ∀ c, Resolves (union fuel ab.1 ab.2 p).2 c (n + 1) := by
      intro c
      obtain ⟨ra, rb, -, -, -, -, h5⟩ := union_spec fuel ab.1 ab.2 p
        (h ab.1) (h ab.2) (by simp at hfuel; omega) (by simp at hfuel; omega)
      exact (h5 c n _ (h c) rfl).1
    have harith : n + (ab :: rest).length = (n + 1) + rest.length := by
      simp [List.length_cons]
      omega
    rw [harith]
    exact ih hstep (by simp at hfuel; omega) c

/-- Claim C8: starting from any parent map whose chains all terminate
(within a uniform bound, as holds for every finite-support map) and after
any sequence of `union` operations, `find` — given fuel covering the
chains, mirroring the source's unbounded recursion — returns exactly the
root that the naive, compression-free walk along the current parent
pointers reaches. -/
theorem find_after_unions (p : Parent) (n : Nat)
    (hall : ∀ c, Resolves p c n) (ops : List (Coordinate × Coordinate))
    (fuel : Nat) (hfuel : n + ops.length ≤ fuel) (x : Coordinate) :
    (find fuel x (runUnions fuel ops p)).1 =
      naiveWalk (n + ops.length) (runUnions fuel ops p) x :=
  find_eq_naiveWalk (runUnions_resolves hall ops hfuel x) hfuel

/-- Witness for C8: a union sequence over an initially-singleton forest. -/
theorem find_after_unions_witness :
    (find 2 ⟨0, 0⟩ (runUnions 2 [(⟨0, 0⟩, ⟨0, 1⟩), (⟨0, 1⟩, ⟨0, 2⟩)]
      (fun c => c))).1 =
    naiveWalk 2 (runUnions 2 [(⟨0, 0⟩, ⟨0, 1⟩), (⟨0, 1⟩, ⟨0, 2⟩)]
      (fun c => c)) ⟨0, 0⟩ :=
  find_after_unions (fun c => c) 0 (fun _ => rfl)
    [(⟨0, 0⟩, ⟨0, 1⟩), (⟨0, 1⟩, ⟨0, 2⟩)] 2 (by decide) ⟨0, 0⟩

/-- Claim C10: a `find` call — though it may repoint vertices on `x`'s
path — preserves the partition: two vertices have equal roots after the
call exactly when they had equal roots before it. -/
theorem find_preserves_partition (p : Parent) (x : Coordinate)
    (fuel n : Nat) (hx : Resolves p x n) (hn : n ≤ fuel)
    (hall : ∀ y, ∃ k, Resolves p y k) (y z : Coordinate) :
    (sameRoot (find fuel x p).2 y z ↔ sameRoot p y z) := by
  obtain ⟨-, hmap⟩ := find_spec fuel x p n hn hx
  constructor
  · rintro ⟨r, hy, hz⟩
    obtain ⟨ky, hky⟩ := hall y
    obtain ⟨kz, hkz⟩ := hall z
    have hy1 := redirect_rootIs hmap hky.rootIs
    have hz1 := redirect_rootIs hmap hkz.rootIs
    have e1 := RootIs_unique hy hy1
    have e2 := RootIs_unique hz hz1
    exact ⟨r, by rw [e1]; exact hky.rootIs, by rw [e2]; exact hkz.rootIs⟩
  · rintro ⟨r, hy, hz⟩
    exact ⟨r, redirect_rootIs hmap hy, redirect_rootIs hmap hz⟩

theorem pC3_resolves : ∀ y, ∃ k, Resolves pC3 y k := by
  intro y
  refine ⟨2, ?_⟩
  by_cases h0 : y = ⟨0, 0⟩
  · simp [Resolves, naiveWalk, pC3, h0]
  · by_cases h1 : y = ⟨0, 1⟩
    · simp [Resolves, naiveWalk, pC3, h0, h1]
    · simp [Resolves, naiveWalk, pC3, h0, h1]

/-- Witness for C10 at the concrete chain, where compression really
rewrites a pointer. -/
theorem find_preserves_partition_witness :
    sameRoot (find 3 ⟨0, 0⟩ pC3).2 ⟨0, 0⟩ ⟨0, 1⟩ ↔
      sameRoot pC3 ⟨0, 0⟩ ⟨0, 1⟩ :=
  find_preserves_partition pC3 ⟨0, 0⟩ 3 2 (by rfl) (by decide)
    pC3_resolves ⟨0, 0⟩ ⟨0, 1⟩

/-! ## Connectivity over an edge list (for the Kruskal edge-count claim) -/

/-- One undirected step along an edge of the list. -/
def edgeStep (es : List KEdge) (a b : Coordinate) : Prop :=
  ∃ w, (w, a, b) ∈ es ∨ (w, b, a) ∈ es

/-- Connectivity generated by the edge list. -/
def PConn (es : List KEdge) : Coordinate → Coordinate → Prop :=
  Relation.ReflTransGen (edgeStep es)

theorem edgeStep_symm {es : List KEdge} {a b : Coordinate}
    (h : edgeStep es a b) : edgeStep es b a := by
  obtain ⟨w, h | h⟩ := h
  · exact ⟨w, Or.inr h⟩
  · exact ⟨w, Or.inl h⟩

theorem edgeStep_mono {es es' : List KEdge}
    (hsub : ∀ e ∈ es, e ∈ es') {a b : Coordinate}
    (h : edgeStep es a b) : edgeStep es' a b := by
  obtain ⟨w, h | h⟩ := h
  · exact ⟨w, Or.inl (hsub _ h)⟩
  · exact ⟨w, Or.inr (hsub _ h)⟩

theorem PConn.symm {es : List KEdge} {a b : Coordinate}
    (h : PConn es a b) : PConn es b a := by
  induction h with
  | refl => exact Relation.ReflTransGen.refl
  | tail _ hstep ih =>
    exact Relation.ReflTransGen.trans
      (Relation.ReflTransGen.single (edgeStep_symm hstep)) ih

theorem PConn.sub {es es' : List KEdge} (hsub : ∀ e ∈ es, e ∈ es')
    {a b : Coordinate} (h : PConn es a b) : PConn es' a b := by
  induction h with
  | refl => exact Relation.ReflTransGen.refl
  | tail _ hstep ih =>
    exact Relation.ReflTransGen.tail ih (edgeStep_mono hsub hstep)

theorem PConn_nil {a b : Coordinate} (h : PConn [] a b) : a = b := by
  induction h with
  | refl => rfl
  | tail _ hstep ih =>
    obtain ⟨w, h | h⟩ := hstep <;> cases h

/-- Connectivity after appending one edge decomposes into the old
connectivity with at most one crossing of the new edge. -/
theorem PConn_append_iff (es : List KEdge) (w : Int) (u v : Coordinate)
    (y z : Coordinate) :
    PConn (es ++ [(w, u, v)]) y z ↔
      PConn es y z ∨ (PConn es y u ∧ PConn es v z) ∨
      (PConn es y v ∧ PConn es u z) := by
  constructor
  · intro h
    induction h with
    | refl => exact Or.inl Relation.ReflTransGen.refl
    | @tail b c hab hstep ih =>
      obtain ⟨w0, hm | hm⟩ := hstep
      · rcases List.mem_append.mp hm with hm' | hm'
        · rcases ih with h1 | ⟨h1, h2⟩ | ⟨h1, h2⟩
          · exact Or.inl (Relation.ReflTransGen.tail h1 ⟨w0, Or.inl hm'⟩)
          · exact Or.inr (Or.inl ⟨h1,
              Relation.ReflTransGen.tail h2 ⟨w0, Or.inl hm'⟩⟩)
          · exact Or.inr (Or.inr ⟨h1,
              Relation.ReflTransGen.tail h2 ⟨w0, Or.inl hm'⟩⟩)
        · obtain ⟨hw0, hb, hc⟩ : w0 = w ∧ b = u ∧ c = v := by
            simpa using hm'
          subst hb
          subst hc
          rcases ih with h1 | ⟨h1, h2⟩ | ⟨h1, h2⟩
          · exact Or.inr (Or.inl ⟨h1, Relation.ReflTransGen.refl⟩)
          · exact Or.inr (Or.inl ⟨h1, Relation.ReflTransGen.refl⟩)
          · exact Or.inl h1
      · rcases List.mem_append.mp hm with hm' | hm'
        · rcases ih with h1 | ⟨h1, h2⟩ | ⟨h1, h2⟩
          · exact Or.inl (Relation.ReflTransGen.tail h1 ⟨w0, Or.inr hm'⟩)
          · exact Or.inr (Or.inl ⟨h1,
              Relation.ReflTransGen.tail h2 ⟨w0, Or.inr hm'⟩⟩)
          · exact Or.inr (Or.inr ⟨h1,
              Relation.ReflTransGen.tail h2 ⟨w0, Or.inr hm'⟩⟩)
        · obtain ⟨hw0, hc, hb⟩ : w0 = w ∧ c = u ∧ b = v := by
            simpa using hm'
          subst hb
          subst hc
          rcases ih with h1 | ⟨h1, h2⟩ | ⟨h1, h2⟩
          · exact Or.inr (Or.inr ⟨h1, Relation.ReflTransGen.refl⟩)
          · exact Or.inl h1
          · exact Or.inr (Or.inr ⟨h1, Relation.ReflTransGen.refl⟩)
  · intro h
    have hsub : ∀ e ∈ es, e ∈ es ++ [(w, u, v)] :=
      fun e he => List.mem_append_left _ he
    have hnew1 : edgeStep (es ++ [(w, u, v)]) u v :=
      ⟨w, Or.inl (List.mem_append_right _ (List.mem_singleton_self _))⟩
    have hnew2 : edgeStep (es ++ [(w, u, v)]) v u :=
      ⟨w, Or.inr (List.mem_append_right _ (List.mem_singleton_self _))⟩
    rcases h with h | ⟨h1, h2⟩ | ⟨h1, h2⟩
    · exact h.sub hsub
    · exact Relation.ReflTransGen.trans
        (Relation.ReflTransGen.tail (h1.sub hsub) hnew1) (h2.sub hsub)
    · exact Relation.ReflTransGen.trans
        (Relation.ReflTransGen.tail (h1.sub hsub) hnew2) (h2.sub hsub)

/-- Appending an edge between already-connected endpoints does not change
connectivity. -/
theorem PConn_append_absorb {es : List KEdge} {w : Int} {u v : Coordinate}
    (huv : PConn es u v) (y z : Coordinate) :
    PConn (es ++ [(w, u, v)]) y z ↔ PConn es y z := by
  rw [PConn_append_iff]
  constructor
  · rintro (h | ⟨h1, h2⟩ | ⟨h1, h2⟩)
    · exact h
    · exact Relation.ReflTransGen.trans h1
        (Relation.ReflTransGen.trans huv h2)
    · exact Relation.ReflTransGen.trans h1
        (Relation.ReflTransGen.trans huv.symm h2)
  · exact Or.inl

/-! ## Characterization of the edge collection -/

/-- Connectivity of the input graph along traversable (`hasEdge`) edges. -/
def CConn (g : AdjacencyListGraph) : Coordinate → Coordinate → Prop :=
  Relation.ReflTransGen (fun a b => g.hasEdge a b = true)

theorem getWeight_pos_hasEdge {g : AdjacencyListGraph}
    {u v : Coordinate} (h : 0 < g.getWeight u v) :
    g.hasEdge u v = true := by
  cases hge : g.getEdge u v with
  | none => simp [AdjacencyListGraph.getWeight, hge] at h
  | some e =>
    simp only [AdjacencyListGraph.getWeight, hge] at h
    simp only [AdjacencyListGraph.hasEdge, hge]
    by_cases hp : 0 < e.2
    · simpa using hp
    · rw [if_neg hp] at h; omega

theorem hasEdge_getWeight_pos {g : AdjacencyListGraph}
    {u v : Coordinate} (h : g.hasEdge u v = true) :
    0 < g.getWeight u v := by
  cases hge : g.getEdge u v with
  | none => simp [AdjacencyListGraph.hasEdge, hge] at h
  | some e =>
    simp only [AdjacencyListGraph.hasEdge, hge] at h
    have hp : 0 < e.2 := by simpa using h
    simp only [AdjacencyListGraph.getWeight, hge, if_pos hp]
    exact hp

theorem WF.hasEdge_symm {g : AdjacencyListGraph} (hw : WF g)
    (u v : Coordinate) : g.hasEdge u v = g.hasEdge v u := by
  cases hab : g.getEdge u v with
  | none =>
    cases hba : g.getEdge v u with
    | none => simp [AdjacencyListGraph.hasEdge, hab, hba]
    | some eb =>
      have h := hw.getEdge_symm hba
      rw [hab] at h
      cases h
  | some ea =>
    have hba := hw.getEdge_symm hab
    simp [AdjacencyListGraph.hasEdge, hab, hba]

theorem hasEdge_mem_vertices {g : AdjacencyListGraph} (hw : WF g)
    {a b : Coordinate} (h : g.hasEdge a b = true) :
    a ∈ g.vertices ∧ b ∈ g.neighbours a ∧ 0 < g.getWeight a b := by
  unfold AdjacencyListGraph.hasEdge at h
  cases hge : g.getEdge a b with
  | none => rw [hge] at h; cases h
  | some e =>
    rw [hge] at h
    have hp : 0 < e.2 := by simpa using h
    unfold AdjacencyListGraph.getEdge at hge
    cases hga : dictGet g.adj_list a with
    | none => rw [hga] at hge; cases hge
    | some la =>
      rw [hga] at hge
      obtain ⟨hmem, hfst⟩ := entryGet_mem hge
      refine ⟨?_, ?_, ?_⟩
      · rw [← hw.1]
        exact List.mem_map_of_mem Prod.fst (dictGet_mem hga)
      · unfold AdjacencyListGraph.neighbours
        rw [hga]
        rw [← hfst]
        exact List.mem_map_of_mem _ (List.mem_filter.mpr ⟨hmem, by simpa using hp⟩)
      · exact hasEdge_getWeight_pos (by
          unfold AdjacencyListGraph.hasEdge
          unfold AdjacencyListGraph.getEdge
          rw [hga, hge]
          simpa using hp)

theorem pairSeen_append {s : List (Coordinate × Coordinate)}
    {u v : Coordinate} (h : pairSeen s u v = true)
    (t : List (Coordinate × Coordinate)) :
    pairSeen (s ++ t) u v = true := by
  unfold pairSeen at h ⊢
  rw [List.any_append, h, Bool.true_or]

theorem collectFrom_ps_mono (g : AdjacencyListGraph) (u : Coordinate)
    (vs : List Coordinate)
    (acc : List KEdge × List (Coordinate × Coordinate)) :
    ∃ t, (collectFrom g u vs acc).2 = acc.2 ++ t := by
  induction vs generalizing acc with
  | nil => exact ⟨[], by simp [collectFrom]⟩
  | cons v vs ih =>
    simp only [collectFrom]
    by_cases hp : pairSeen acc.2 u v = true
    · rw [if_pos hp]
      exact ih acc
    · rw [if_neg hp]
      by_cases hwt : 0 < g.getWeight u v
      · rw [if_pos hwt]
        obtain ⟨t, ht⟩ := ih (acc.1 ++ [(g.getWeight u v, u, v)],
          acc.2 ++ [(u, v)])
        exact ⟨(u, v) :: t, by rw [ht]; simp⟩
      · rw [if_neg hwt]
        exact ih acc

theorem collectAll_ps_mono (g : AdjacencyListGraph)
    (us : List Coordinate)
    (acc : List KEdge × List (Coordinate × Coordinate)) :
    ∃ t, (collectAll g us acc).2 = acc.2 ++ t := by
  induction us generalizing acc with
  | nil => exact ⟨[], by simp [collectAll]⟩
  | cons u us ih =>
    simp only [collectAll]
    obtain ⟨t1, ht1⟩ := collectFrom_ps_mono g u (g.neighbours u) acc
    obtain ⟨t2, ht2⟩ := ih (collectFrom g u (g.neighbours u) acc)
    exact ⟨t1 ++ t2, by rw [ht2, ht1]; simp⟩

theorem collectFrom_elems (g : AdjacencyListGraph) (u : Coordinate)
    (vs : List Coordinate)
    (acc : List KEdge × List (Coordinate × Coordinate)) :
    ∀ e ∈ (collectFrom g u vs acc).1, e ∈ acc.1 ∨
      ∃ v ∈ vs, e = (g.getWeight u v, u, v) ∧ 0 < g.getWeight u v := by
  induction vs generalizing acc with
  | nil => intro e he; exact Or.inl he
  | cons v vs ih =>
    intro e he
    simp only [collectFrom] at he
    by_cases hp : pairSeen acc.2 u v = true
    · rw [if_pos hp] at he
      rcases ih acc e he with h | ⟨v', hv', hh⟩
      · exact Or.inl h
      · exact Or.inr ⟨v', List.mem_cons_of_mem _ hv', hh⟩
    · rw [if_neg hp] at he
      by_cases hwt : 0 < g.getWeight u v
      · rw [if_pos hwt] at he
        rcases ih _ e he with h | ⟨v', hv', hh⟩
        · rcases List.mem_append.mp h with h | h
          · exact Or.inl h
          · simp only [List.mem_singleton] at h
            exact Or.inr ⟨v, List.mem_cons_self _ _, h, hwt⟩
        · exact Or.inr ⟨v', List.mem_cons_of_mem _ hv', hh⟩
      · rw [if_neg hwt] at he
        rcases ih acc e he with h | ⟨v', hv', hh⟩
        · exact Or.inl h
        · exact Or.inr ⟨v', List.mem_cons_of_mem _ hv', hh⟩

theorem collectAll_elems (g : AdjacencyListGraph) (us : List Coordinate)
    (acc : List KEdge × List (Coordinate × Coordinate)) :
    ∀ e ∈ (collectAll g us acc).1, e ∈ acc.1 ∨
      ∃ u ∈ us, ∃ v ∈ g.neighbours u,
        e = (g.getWeight u v, u, v) ∧ 0 < g.getWeight u v := by
  induction us generalizing acc with
  | nil => intro e he; exact Or.inl he
  | cons u us ih =>
    intro e he
    simp only [collectAll] at he
    rcases ih _ e he with h | ⟨u', hu', hrest⟩
    · rcases collectFrom_elems g u (g.neighbours u) acc e h with
        h | ⟨v, hv, hh⟩
      · exact Or.inl h
      · exact Or.inr ⟨u, List.mem_cons_self _ _, v, hv, hh⟩
    · exact Or.inr ⟨u', List.mem_cons_of_mem _ hu', hrest⟩

theorem collectFrom_complete (g : AdjacencyListGraph) (u : Coordinate)
    (vs : List Coordinate)
    (acc : List KEdge × List (Coordinate × Coordinate)) :
    ∀ v ∈ vs, 0 < g.getWeight u v →
      pairSeen (collectFrom g u vs acc).2 u v = true := by
  induction vs generalizing acc with
  | nil => intro v hv; cases hv
  | cons v0 vs ih =>
    intro v hv hwt
    simp only [collectFrom]
    rcases List.mem_cons.mp hv with rfl | hv'
    · by_cases hp : pairSeen acc.2 u v = true
      · rw [if_pos hp]
        obtain ⟨t, ht⟩ := collectFrom_ps_mono g u vs acc
        rw [ht]
        exact pairSeen_append hp t
      · rw [if_neg hp, if_pos hwt]
        obtain ⟨t, ht⟩ := collectFrom_ps_mono g u vs
          (acc.1 ++ [(g.getWeight u v, u, v)], acc.2 ++ [(u, v)])
        rw [ht]
        apply pairSeen_append
        unfold pairSeen
        rw [List.any_append]
        simp [pairSeen]
    · by_cases hp : pairSeen acc.2 u v0 = true
      · rw [if_pos hp]
        exact ih acc v hv' hwt
      · by_cases hwt0 : 0 < g.getWeight u v0
        · rw [if_neg hp, if_pos hwt0]
          exact ih _ v hv' hwt
        · rw [if_neg hp, if_neg hwt0]
          exact ih acc v hv' hwt

theorem collectAll_complete (g : AdjacencyListGraph)
    (us : List Coordinate)
    (acc : List KEdge × List (Coordinate × Coordinate)) :
    ∀ u ∈ us, ∀ v ∈ g.neighbours u, 0 < g.getWeight u v →
      pairSeen (collectAll g us acc).2 u v = true := by
  induction us generalizing acc with
  | nil => intro u hu; cases hu
  | cons u0 us ih =>
    intro u hu v hv hwt
    simp only [collectAll]
    rcases List.mem_cons.mp hu with rfl | hu'
    · obtain ⟨t, ht⟩ := collectAll_ps_mono g us
        (collectFrom g u (g.neighbours u) acc)
      rw [ht]
      exact pairSeen_append (collectFrom_complete g u _ acc v hv hwt) t
    · exact ih _ u hu' v hv hwt

theorem collectFrom_pairs (g : AdjacencyListGraph) (u : Coordinate)
    (vs : List Coordinate)
    (acc : List KEdge × List (Coordinate × Coordinate))
    (hinv : ∀ a b, pairSeen acc.2 a b = true → edgeStep acc.1 a b) :
    ∀ a b, pairSeen (collectFrom g u vs acc).2 a b = true →
      edgeStep (collectFrom g u vs acc).1 a b := by
  induction vs generalizing acc with
  | nil => exact hinv
  | cons v vs ih =>
    simp only [collectFrom]
    by_cases hp : pairSeen acc.2 u v = true
    · rw [if_pos hp]
      exact ih acc hinv
    · rw [if_neg hp]
      by_cases hwt : 0 < g.getWeight u v
      · rw [if_pos hwt]
        refine ih _ ?_
        intro a b hab
        unfold pairSeen at hab
        rw [List.any_append] at hab
        rcases Bool.or_eq_true_iff.mp hab with h | h
        · exact edgeStep_mono (fun e he => List.mem_append_left _ he)
            (hinv a b h)
        · simp at h
          rcases h with ⟨h1, h2⟩ | ⟨h1, h2⟩
          · exact ⟨g.getWeight u v, Or.inl (by
              rw [h1, h2]
              exact List.mem_append_right _ (List.mem_singleton_self _))⟩
          · exact ⟨g.getWeight u v, Or.inr (by
              rw [h1, h2]
              exact List.mem_append_right _ (List.mem_singleton_self _))⟩
      · rw [if_neg hwt]
        exact ih acc hinv

theorem collectAll_pairs (g : AdjacencyListGraph) (us : List Coordinate)
    (acc : List KEdge × List (Coordinate × Coordinate))
    (hinv : ∀ a b, pairSeen acc.2 a b = true → edgeStep acc.1 a b) :
    ∀ a b, pairSeen (collectAll g us acc).2 a b = true →
      edgeStep (collectAll g us acc).1 a b := by
  induction us generalizing acc with
  | nil => exact hinv
  | cons u us ih =>
    simp only [collectAll]
    exact ih _ (collectFrom_pairs g u (g.neighbours u) acc hinv)

theorem neighbours_mem {g : AdjacencyListGraph} (hw : WF g)
    {u v : Coordinate} (h : v ∈ g.neighbours u) :
    v ∈ g.vertices ∧ u.isAdjacent v = true := by
  unfold AdjacencyListGraph.neighbours at h
  cases hgu : dictGet g.adj_list u with
  | none => rw [hgu] at h; cases h
  | some lu =>
    rw [hgu] at h
    obtain ⟨e, he, hefst⟩ := List.mem_map.mp h
    have hel := (List.mem_filter.mp he).1
    obtain ⟨-, hadj, hhas⟩ := hw.2.2.2.1 (u, lu) (dictGet_mem hgu) e hel
    constructor
    · rw [← hw.1, ← hefst]
      exact dictHas_iff_mem_keys.mp hhas
    · rw [← hefst]
      exact hadj

theorem edgeStep_collected_iff {g : AdjacencyListGraph} (hw : WF g)
    (a b : Coordinate) :
    edgeStep (collectAll g g.vertices ([], [])).1 a b ↔
      g.hasEdge a b = true := by
  constructor
  · rintro ⟨w, hm | hm⟩
    · rcases collectAll_elems g g.vertices ([], []) _ hm with h | ⟨u, hu, v, hv, he, hwt⟩
      · cases h
      · obtain ⟨h1, h2, h3⟩ : w = g.getWeight u v ∧ a = u ∧ b = v := by
          simpa using he
        rw [h2, h3]
        exact getWeight_pos_hasEdge hwt
    · rcases collectAll_elems g g.vertices ([], []) _ hm with h | ⟨u, hu, v, hv, he, hwt⟩
      · cases h
      · obtain ⟨h1, h2, h3⟩ : w = g.getWeight u v ∧ b = u ∧ a = v := by
          simpa using he
        rw [h2, h3, ← hw.hasEdge_symm]
        exact getWeight_pos_hasEdge hwt
  · intro h
    obtain ⟨ha, hb, hwt⟩ := hasEdge_mem_vertices hw h
    have hseen := collectAll_complete g g.vertices ([], []) a ha b hb hwt
    exact collectAll_pairs g g.vertices ([], [])
      (fun a b hab => by cases hab) a b hseen

theorem PConn_collected_iff {g : AdjacencyListGraph} (hw : WF g)
    (y z : Coordinate) :
    PConn (collectAll g g.vertices ([], [])).1 y z ↔ CConn g y z := by
  constructor
  · intro h
    exact Relation.ReflTransGen.mono
      (fun a b hab => (edgeStep_collected_iff hw a b).mp hab) h
  · intro h
    exact Relation.ReflTransGen.mono
      (fun a b hab => (edgeStep_collected_iff hw a b).mpr hab) h

theorem sortEdges_perm (es : List KEdge) : (sortEdges es).Perm es :=
  List.perm_insertionSort _ _

theorem PConn_sort_iff (es : List KEdge) (y z : Coordinate) :
    PConn (sortEdges es) y z ↔ PConn es y z := by
  constructor
  · exact Relation.ReflTransGen.mono (fun a b hab => by
      obtain ⟨w, h | h⟩ := hab
      · exact ⟨w, Or.inl ((sortEdges_perm es).mem_iff.mp h)⟩
      · exact ⟨w, Or.inr ((sortEdges_perm es).mem_iff.mp h)⟩)
  · exact Relation.ReflTransGen.mono (fun a b hab => by
      obtain ⟨w, h | h⟩ := hab
      · exact ⟨w, Or.inl ((sortEdges_perm es).mem_iff.mpr h)⟩
      · exact ⟨w, Or.inr ((sortEdges_perm es).mem_iff.mpr h)⟩)

/-! ## Connected components of the input, computably -/

/-- One breadth step: adjoin every vertex joined by a traversable edge to
the current set. -/
def expandOnce (g : AdjacencyListGraph) (s : List Coordinate) :
    List Coordinate :=
  s ++ (g.vertices.filter
    (fun v => decide (v ∉ s) && s.any (fun u => g.hasEdge u v)))

/-- Iterated expansion. -/
def expandN (g : AdjacencyListGraph) : Nat → List Coordinate →
    List Coordinate
  | 0, s => s
  | n + 1, s => expandN g n (expandOnce g s)

/-- Decidable connectivity: `v` is reachable from `u` along traversable
edges (the expansion stabilizes within `|V|` steps). -/
def connB (g : AdjacencyListGraph) (u v : Coordinate) : Bool :=
  decide (v ∈ expandN g g.vertices.length [u])

/-- Pick one representative per equivalence class, scanning left to right. -/
def repsFold (e : Coordinate → Coordinate → Bool) :
    List Coordinate → List Coordinate → List Coordinate
  | [], reps => reps
  | v :: vs, reps =>
    repsFold e vs (if reps.any (fun u => e u v) then reps else reps ++ [v])

/-- The number of connected components of the traversable subgraph: one
representative per `connB`-class of the vertex list. -/
def numComponents (g : AdjacencyListGraph) : Nat :=
  (repsFold (connB g) g.vertices []).length

theorem expandN_sound (g : AdjacencyListGraph) (u : Coordinate) :
    ∀ n s, (∀ x ∈ s, CConn g u x) → ∀ x ∈ expandN g n s, CConn g u x := by
  intro n
  induction n with
  | zero => intro s hs x hx; exact hs x hx
  | succ n ih =>
    intro s hs x hx
    refine ih (expandOnce g s) ?_ x hx
    intro y hy
    rcases List.mem_append.mp hy with hy | hy
    · exact hs y hy
    · obtain ⟨hyV, hpred⟩ := List.mem_filter.mp hy
      obtain ⟨-, hany⟩ := Bool.and_eq_true_iff.mp hpred
      obtain ⟨x0, hx0, hedge⟩ := List.any_eq_true.mp hany
      exact Relation.ReflTransGen.tail (hs x0 hx0) (by simpa using hedge)

theorem sub_expandN (g : AdjacencyListGraph) :
    ∀ n s, ∀ x ∈ s, x ∈ expandN g n s := by
  intro n
  induction n with
  | zero => intro s x hx; exact hx
  | succ n ih =>
    intro s x hx
    exact ih (expandOnce g s) x (List.mem_append_left _ hx)

theorem expandN_fix (g : AdjacencyListGraph) {s : List Coordinate}
    (h : expandOnce g s = s) : ∀ n, expandN g n s = s := by
  intro n
  induction n with
  | zero => rfl
  | succ n ih =>
    show expandN g n (expandOnce g s) = s
    rw [h]
    exact ih

theorem expandOnce_closed (g : AdjacencyListGraph) {s : List Coordinate}
    (h : expandOnce g s = s) :
    ∀ x ∈ s, ∀ v ∈ g.vertices, g.hasEdge x v = true → v ∈ s := by
  intro x hx v hv hedge
  unfold expandOnce at h
  have hlen := congrArg List.length h
  rw [List.length_append] at hlen
  have hnil : g.vertices.filter
      (fun v => decide (v ∉ s) && s.any (fun u => g.hasEdge u v)) = [] :=
    List.eq_nil_of_length_eq_zero (by omega)
  have hall := List.filter_eq_nil_iff.mp hnil v hv
  by_contra hvs
  apply hall
  rw [Bool.and_eq_true_iff]
  exact ⟨by simpa using hvs, List.any_eq_true.mpr ⟨x, hx, by simpa using hedge⟩⟩

theorem expandN_nodup_sub (g : AdjacencyListGraph)
    (hV : g.vertices.Nodup) :
    ∀ n s, s.Nodup → (∀ x ∈ s, x ∈ g.vertices) →
      (expandN g n s).Nodup ∧ ∀ x ∈ expandN g n s, x ∈ g.vertices := by
  intro n
  induction n with
  | zero => intro s h1 h2; exact ⟨h1, h2⟩
  | succ n ih =>
    intro s h1 h2
    refine ih (expandOnce g s) ?_ ?_
    · unfold expandOnce
      rw [List.nodup_append]
      refine ⟨h1, List.Nodup.filter _ hV, ?_⟩
      intro x hx hxf
      have := (List.mem_filter.mp hxf).2
      rw [Bool.and_eq_true_iff] at this
      exact (by simpa using this.1 : x ∉ s) hx
    · intro x hx
      rcases List.mem_append.mp hx with hx | hx
      · exact h2 x hx
      · exact (List.mem_filter.mp hx).1

theorem expandN_grow_or_fix (g : AdjacencyListGraph) :
    ∀ n s, expandOnce g (expandN g n s) = expandN g n s ∨
      s.length + n ≤ (expandN g n s).length := by
  intro n
  induction n with
  | zero =>
    intro s
    right
    show s.length + 0 ≤ s.length
    omega
  | succ n ih =>
    intro s
    by_cases hfix : expandOnce g s = s
    · left
      show expandOnce g (expandN g n (expandOnce g s)) =
        expandN g n (expandOnce g s)
      rw [hfix, expandN_fix g hfix n]
      exact hfix
    · rcases ih (expandOnce g s) with h | h
      · left; exact h
      · right
        have hgrow : s.length + 1 ≤ (expandOnce g s).length := by
          unfold expandOnce
          rw [List.length_append]
          rcases Nat.eq_zero_or_pos (g.vertices.filter
            (fun v => decide (v ∉ s) && s.any (fun u => g.hasEdge u v))).length
            with h0 | h0
          · exact absurd (by
              unfold expandOnce
              rw [List.eq_nil_of_length_eq_zero h0, List.append_nil]) hfix
          · omega
        show s.length + (n + 1) ≤ (expandN g n (expandOnce g s)).length
        omega

theorem expandN_fixpoint (g : AdjacencyListGraph)
    (hV : g.vertices.Nodup) {u : Coordinate} (hu : u ∈ g.vertices) :
    expandOnce g (expandN g g.vertices.length [u]) =
      expandN g g.vertices.length [u] := by
  rcases expandN_grow_or_fix g g.vertices.length [u] with h | h
  · exact h
  · exfalso
    obtain ⟨hnd, hsub⟩ := expandN_nodup_sub g hV g.vertices.length [u]
      (List.nodup_singleton u) (by simpa using hu)
    have hle : (expandN g g.vertices.length [u]).length ≤
        g.vertices.length :=
      (List.Nodup.subperm hnd hsub).length_le
    simp at h
    omega

theorem connB_iff {g : AdjacencyListGraph} (hw : WF g) {u : Coordinate}
    (hu : u ∈ g.vertices) (v : Coordinate) :
    connB g u v = true ↔ CConn g u v := by
  unfold connB
  rw [decide_eq_true_iff]
  constructor
  · intro h
    refine expandN_sound g u g.vertices.length [u] ?_ v h
    intro x hx
    rw [List.mem_singleton.mp hx]
    exact Relation.ReflTransGen.refl
  · intro h
    induction h with
    | refl => exact sub_expandN g _ [u] u (List.mem_singleton_self u)
    | @tail b c hab hstep ih =>
      have hcV : c ∈ g.vertices := by
        rw [hw.hasEdge_symm] at hstep
        exact (hasEdge_mem_vertices hw hstep).1
      exact expandOnce_closed g (expandN_fixpoint g hw.2.1 hu) b ih c hcV hstep

/-! ## Counting classes -/

theorem repsFold_card (eB : Coordinate → Coordinate → Bool)
    (f : Coordinate → Coordinate) (R : Coordinate → Coordinate → Prop)
    (V : List Coordinate)
    (hBf : ∀ u ∈ V, ∀ v ∈ V, (eB u v = true ↔ R u v))
    (hfR : ∀ u ∈ V, ∀ v ∈ V, (f u = f v ↔ R u v)) :
    ∀ (vs done reps : List Coordinate), done ++ vs = V →
      (∀ r ∈ reps, r ∈ done) →
      ((done.map f).toFinset = (reps.map f).toFinset) →
      (reps.map f).Nodup →
      (repsFold eB vs reps).length = ((done ++ vs).map f).toFinset.card := by
  intro vs
  induction vs with
  | nil =>
    intro done reps hsplit hsub himg hnd
    simp only [repsFold, List.append_nil]
    rw [himg, List.toFinset_card_of_nodup hnd, List.length_map]
  | cons v vs ih =>
    intro done reps hsplit hsub himg hnd
    have hvV : v ∈ V := by
      rw [← hsplit]
      exact List.mem_append_right done (List.mem_cons_self v vs)
    have himgm : ∀ x, x ∈ done.map f ↔ x ∈ reps.map f := by
      intro x
      rw [← List.mem_toFinset, himg, List.mem_toFinset]
    have hsplit' : (done ++ [v]) ++ vs = V := by
      rw [List.append_assoc, List.singleton_append]
      exact hsplit
    have hgoal : ((done ++ v :: vs).map f).toFinset =
        (((done ++ [v]) ++ vs).map f).toFinset := by
      rw [List.append_assoc, List.singleton_append]
    show (repsFold eB vs
      (if reps.any (fun u => eB u v) then reps else reps ++ [v])).length = _
    by_cases hany : reps.any (fun u => eB u v) = true
    · rw [if_pos hany]
      obtain ⟨r, hr, herv⟩ := List.any_eq_true.mp hany
      have hrV : r ∈ V := by
        rw [← hsplit]
        exact List.mem_append_left _ (hsub r hr)
      have hfrv : f r = f v :=
        (hfR r hrV v hvV).mpr ((hBf r hrV v hvV).mp herv)
      have himg' : ((done ++ [v]).map f).toFinset =
          (reps.map f).toFinset := by
        ext x
        simp only [List.mem_toFinset, List.map_append, List.mem_append,
          List.map_cons, List.map_nil, List.mem_singleton]
        constructor
        · rintro (h | h)
          · exact (himgm x).mp h
          · rw [h, ← hfrv]
            exact List.mem_map_of_mem f hr
        · intro h
          exact Or.inl ((himgm x).mpr h)
      have hres := ih (done ++ [v]) reps hsplit'
        (fun r' hr' => List.mem_append_left _ (hsub r' hr')) himg' hnd
      rw [hgoal]
      exact hres
    · rw [if_neg hany]
      have hfvnot : f v ∉ reps.map f := by
        intro hmem
        obtain ⟨r, hr, hfr⟩ := List.mem_map.mp hmem
        have hrV : r ∈ V := by
          rw [← hsplit]
          exact List.mem_append_left _ (hsub r hr)
        exact hany (List.any_eq_true.mpr
          ⟨r, hr, (hBf r hrV v hvV).mpr ((hfR r hrV v hvV).mp hfr)⟩)
      have himg' : ((done ++ [v]).map f).toFinset =
          ((reps ++ [v]).map f).toFinset := by
        ext x
        simp only [List.mem_toFinset, List.map_append, List.mem_append,
          List.map_cons, List.map_nil, List.mem_singleton]
        constructor
        · rintro (h | h)
          · exact Or.inl ((himgm x).mp h)
          · exact Or.inr h
        · rintro (h | h)
          · exact Or.inl ((himgm x).mpr h)
          · exact Or.inr h
      have hnd' : ((reps ++ [v]).map f).Nodup := by
        rw [List.map_append]
        simp only [List.map_cons, List.map_nil]
        rw [List.nodup_append]
        exact ⟨hnd, List.nodup_singleton _, by
          simpa [List.disjoint_singleton] using hfvnot⟩
      have hsub' : ∀ r' ∈ reps ++ [v], r' ∈ done ++ [v] := by
        intro r' hr'
        rcases List.mem_append.mp hr' with h | h
        · exact List.mem_append_left _ (hsub r' h)
        · exact List.mem_append_right _ h
      have hres := ih (done ++ [v]) (reps ++ [v]) hsplit' hsub' himg' hnd'
      rw [hgoal]
      exact hres

/-- Collapsing one root value onto another (both present) drops the number
of distinct values by exactly one. -/
theorem toFinset_map_collapse (l : List Coordinate) (ra rb : Coordinate)
    (hra : ra ∈ l) (hrb : rb ∈ l) (hne : ra ≠ rb) :
    ((l.map (fun c => if c = rb then ra else c)).toFinset).card + 1 =
      l.toFinset.card := by
  have himg : (l.map (fun c => if c = rb then ra else c)).toFinset =
      l.toFinset.erase rb := by
    ext x
    simp only [List.mem_toFinset, List.mem_map, Finset.mem_erase]
    constructor
    · rintro ⟨c, hc, hcx⟩
      by_cases hcrb : c = rb
      · rw [if_pos hcrb] at hcx
        rw [← hcx]
        exact ⟨hne, hra⟩
      · rw [if_neg hcrb] at hcx
        rw [← hcx]
        exact ⟨hcrb, hc⟩
    · rintro ⟨hx, hxl⟩
      exact ⟨x, hxl, if_neg hx⟩
  rw [himg]
  exact Finset.card_erase_add_one (by simpa using hrb)

/-! ## Facts about the freshly built result graph -/

theorem dictGet_append_none {d1 : AdjDict} {x : Coordinate}
    (h : dictGet d1 x = none) (d2 : AdjDict) :
    dictGet (d1 ++ d2) x = dictGet d2 x := by
  induction d1 with
  | nil => rfl
  | cons kv rest ih =>
    obtain ⟨k, v⟩ := kv
    by_cases hk : k = x
    · simp [dictGet, hk] at h
    · simp [dictGet, hk] at h ⊢
      exact ih h

theorem addVertices_fresh_build (g0 : AdjacencyListGraph) :
    ∀ (cs : List Coordinate), cs.Nodup →
      (∀ c ∈ cs, dictHas g0.adj_list c = false) →
      (g0.addVertices cs).vertices = g0.vertices ++ cs ∧
      (g0.addVertices cs).adj_list =
        g0.adj_list ++ cs.map (fun c => (c, ([] : List Entry))) := by
  intro cs
  induction cs generalizing g0 with
  | nil =>
    intro _ _
    exact ⟨by simp [AdjacencyListGraph.addVertices], by
      simp [AdjacencyListGraph.addVertices]⟩
  | cons c cs ih =>
    intro hnd hdisj
    have hc : dictHas g0.adj_list c = false :=
      hdisj c (List.mem_cons_self _ _)
    have hstep : g0.addVertex c =
        { g0 with adj_list := g0.adj_list ++ [(c, [])],
                  vertices := g0.vertices ++ [c] } := by
      unfold AdjacencyListGraph.addVertex
      rw [if_neg (by simp [hc])]
    have hrest : ∀ c' ∈ cs, dictHas (g0.addVertex c).adj_list c' = false := by
      intro c' hc'
      rw [hstep]
      show dictHas (g0.adj_list ++ [(c, [])]) c' = false
      have hnone : dictGet g0.adj_list c' = none := by
        have := hdisj c' (List.mem_cons_of_mem _ hc')
        unfold dictHas at this
        exact Option.not_isSome_iff_eq_none.mp (by simp [this])
      unfold dictHas
      rw [dictGet_append_none hnone]
      have hne : c ≠ c' := by
        rintro rfl
        exact (List.nodup_cons.mp hnd).1 hc'
      simp [dictGet, hne]
    have hmain := ih (g0.addVertex c) (List.nodup_cons.mp hnd).2 hrest
    have heq : (g0.addVertices (c :: cs)) = (g0.addVertex c).addVertices cs :=
      rfl
    rw [heq]
    exact ⟨by rw [hmain.1, hstep]; simp, by rw [hmain.2, hstep]; simp⟩

theorem freshAdj_get (V : List Coordinate) (a : Coordinate) :
    ∀ l, dictGet (V.map (fun c => (c, ([] : List Entry)))) a = some l →
      l = [] := by
  induction V with
  | nil => intro l h; cases h
  | cons c cs ih =>
    intro l h
    by_cases hc : c = a
    · simp [dictGet, hc] at h
      exact h
    · simp [dictGet, hc] at h
      exact ih l h

theorem freshAdj_degreeSum (V : List Coordinate) :
    ((V.map (fun c => (c, ([] : List Entry)))).map
      (fun kv => kv.2.length)).sum = 0 := by
  induction V with
  | nil => rfl
  | cons c cs ih => simpa using ih

theorem degreeSum_pushEntry (g : AdjacencyListGraph) (k : Coordinate)
    (e : Entry) (hk : dictHas g.adj_list k = true) :
    degreeSum (g.pushEntry k e) = degreeSum g + 1 := by
  show ((dictModify g.adj_list k (fun l => l ++ [e])).map
    (fun kv => kv.2.length)).sum = _
  have : ∀ d : AdjDict, dictHas d k = true →
      ((dictModify d k (fun l => l ++ [e])).map
        (fun kv => kv.2.length)).sum =
      (d.map (fun kv => kv.2.length)).sum + 1 := by
    intro d
    induction d with
    | nil => intro h; cases h
    | cons kv rest ih =>
      obtain ⟨k0, l0⟩ := kv
      intro h
      by_cases hk0 : k0 = k
      · simp [dictModify, hk0]
        omega
      · simp [dictModify, hk0]
        have h' : dictHas rest k = true := by
          simpa [dictHas, dictGet, hk0] using h
        have := ih h'
        simp at this
        omega
  exact this g.adj_list hk

theorem entryGet_append_isSome (l : List Entry) (e : Entry)
    (b : Coordinate) :
    (entryGet (l ++ [e]) b).isSome =
      ((entryGet l b).isSome || decide (e.1 = b)) := by
  induction l with
  | nil =>
    obtain ⟨a, w⟩ := e
    by_cases h : a = b <;> simp [entryGet, h]
  | cons f rest ih =>
    obtain ⟨a, w⟩ := f
    by_cases h : a = b <;> simp [entryGet, h, ih]

theorem getEdge_eq_entryGet {g : AdjacencyListGraph} {a : Coordinate}
    {la : List Entry} (h : dictGet g.adj_list a = some la)
    (b : Coordinate) : g.getEdge a b = entryGet la b := by
  unfold AdjacencyListGraph.getEdge
  rw [h]

theorem getEdge_none_of_get {g : AdjacencyListGraph} {a : Coordinate}
    (h : dictGet g.adj_list a = none) (b : Coordinate) :
    g.getEdge a b = none := by
  unfold AdjacencyListGraph.getEdge
  rw [h]

theorem getEdge_pushPair_isSome {g : AdjacencyListGraph} {u v : Coordinate}
    (hne : u ≠ v) (w : Int) (hu : dictHas g.adj_list u = true)
    (hv : dictHas g.adj_list v = true) (a b : Coordinate) :
    ((((g.pushEntry u (v, w)).pushEntry v (u, w)).getEdge a b).isSome = true)
      ↔ ((g.getEdge a b).isSome = true ∨ (a = u ∧ b = v) ∨
         (a = v ∧ b = u)) := by
  obtain ⟨lu, hlu⟩ := Option.isSome_iff_exists.mp (by simpa [dictHas] using hu)
  obtain ⟨lv, hlv⟩ := Option.isSome_iff_exists.mp (by simpa [dictHas] using hv)
  by_cases hau : a = u
  · have h1 : ((g.pushEntry u (v, w)).pushEntry v (u, w)).getEdge a b =
        entryGet (lu ++ [(v, w)]) b := by
      apply getEdge_eq_entryGet
      show dictGet ((g.pushEntry u (v, w)).pushEntry v (u, w)).adj_list a = _
      rw [dictGet_pushPair hne w a, if_pos hau, hlu]
      rfl
    have h2 : g.getEdge a b = entryGet lu b := by
      rw [hau]
      exact getEdge_eq_entryGet hlu b
    rw [h1, h2, entryGet_append_isSome]
    constructor
    · intro h
      rcases Bool.or_eq_true_iff.mp h with h | h
      · exact Or.inl h
      · exact Or.inr (Or.inl ⟨hau, ((by simpa using h : v = b)).symm⟩)
    · intro h
      rcases h with h | ⟨-, hb⟩ | ⟨huv, -⟩
      · exact Bool.or_eq_true_iff.mpr (Or.inl h)
      · exact Bool.or_eq_true_iff.mpr (Or.inr (by simp [hb]))
      · exact absurd (hau.symm.trans huv) hne
  · by_cases hav : a = v
    · have h1 : ((g.pushEntry u (v, w)).pushEntry v (u, w)).getEdge a b =
          entryGet (lv ++ [(u, w)]) b := by
        apply getEdge_eq_entryGet
        show dictGet ((g.pushEntry u (v, w)).pushEntry v (u, w)).adj_list a
          = _
        rw [dictGet_pushPair hne w a, if_neg hau, if_pos hav, hlv]
        rfl
      have h2 : g.getEdge a b = entryGet lv b := by
        rw [hav]
        exact getEdge_eq_entryGet hlv b
      rw [h1, h2, entryGet_append_isSome]
      constructor
      · intro h
        rcases Bool.or_eq_true_iff.mp h with h | h
        · exact Or.inl h
        · exact Or.inr (Or.inr ⟨hav, ((by simpa using h : u = b)).symm⟩)
      · intro h
        rcases h with h | ⟨hau', -⟩ | ⟨-, hb⟩
        · exact Bool.or_eq_true_iff.mpr (Or.inl h)
        · exact absurd hau' hau
        · exact Bool.or_eq_true_iff.mpr (Or.inr (by simp [hb]))
    · have h1 : ((g.pushEntry u (v, w)).pushEntry v (u, w)).getEdge a b =
          g.getEdge a b := by
        unfold AdjacencyListGraph.getEdge
        rw [dictGet_pushPair hne w a, if_neg hau, if_neg hav]
      rw [h1]
      simp [hau, hav]

theorem sameRoot_iff_walk {p : Parent} {n : Nat}
    (h : ∀ c, Resolves p c n) (y z : Coordinate) :
    sameRoot p y z ↔ naiveWalk n p y = naiveWalk n p z := by
  constructor
  · rintro ⟨r, hy, hz⟩
    rw [RootIs_unique (h y).rootIs hy, RootIs_unique (h z).rootIs hz]
  · intro he
    exact ⟨naiveWalk n p y, (h y).rootIs, by rw [he]; exact (h z).rootIs⟩

theorem collapse_eq_iff (ra rb : Coordinate) (x y : Coordinate) :
    ((if x = rb then ra else x) = (if y = rb then ra else y)) ↔
      (x = y ∨ (x = ra ∧ y = rb) ∨ (x = rb ∧ y = ra)) := by
  by_cases hx : x = rb <;> by_cases hy : y = rb
  · simp only [if_pos hx, if_pos hy]
    constructor
    · intro _
      exact Or.inl (hx.trans hy.symm)
    · intro _
      trivial
  · simp only [if_pos hx, if_neg hy]
    constructor
    · intro h
      exact Or.inr (Or.inr ⟨hx, h.symm⟩)
    · rintro (h | ⟨h1, h2⟩ | ⟨h1, h2⟩)
      · exact absurd (h ▸ hx) hy
      · exact absurd h2 hy
      · exact h2.symm
  · simp only [if_neg hx, if_pos hy]
    constructor
    · intro h
      exact Or.inr (Or.inl ⟨h, hy⟩)
    · rintro (h | ⟨h1, h2⟩ | ⟨h1, h2⟩)
      · exact absurd (h.trans hy) hx
      · exact h1
      · exact absurd h1 hx
  · simp only [if_neg hx, if_neg hy]
    constructor
    · intro h
      exact Or.inl h
    · rintro (h | ⟨h1, h2⟩ | ⟨h1, h2⟩)
      · exact h
      · exact absurd h2 hy
      · exact absurd h1 hx

theorem processEdges_cons_true {F : Nat} {w : Int} {u v : Coordinate}
    {rest : List KEdge} {mst : AdjacencyListGraph} {p : Parent}
    (h : (union F u v p).1 = true) :
    processEdges F ((w, u, v) :: rest) mst p =
      processEdges F rest (mst.addEdge u v w).1 (union F u v p).2 := by
  simp [processEdges, h]

theorem processEdges_cons_false {F : Nat} {w : Int} {u v : Coordinate}
    {rest : List KEdge} {mst : AdjacencyListGraph} {p : Parent}
    (h : (union F u v p).1 = false) :
    processEdges F ((w, u, v) :: rest) mst p =
      processEdges F rest mst (union F u v p).2 := by
  simp [processEdges, h]

/-! ## The accepted-edge list of the union-find loop -/

/-- The subsequence of edges whose union succeeds, together with the final
parent map; the parent evolution is exactly that of `processEdges`. -/
def ufAccept (F : Nat) : List KEdge → Parent → List KEdge × Parent
  | [], p => ([], p)
  | (w, u, v) :: rest, p =>
    let r := union F u v p
    let t := ufAccept F rest r.2
    (if r.1 then (w, u, v) :: t.1 else t.1, t.2)

theorem ufAccept_cons_true {F : Nat} {w : Int} {u v : Coordinate}
    {rest : List KEdge} {p : Parent} (h : (union F u v p).1 = true) :
    ufAccept F ((w, u, v) :: rest) p =
      ((w, u, v) :: (ufAccept F rest (union F u v p).2).1,
       (ufAccept F rest (union F u v p).2).2) := by
  simp [ufAccept, h]

theorem ufAccept_cons_false {F : Nat} {w : Int} {u v : Coordinate}
    {rest : List KEdge} {p : Parent} (h : (union F u v p).1 = false) :
    ufAccept F ((w, u, v) :: rest) p =
      ((ufAccept F rest (union F u v p).2).1,
       (ufAccept F rest (union F u v p).2).2) := by
  simp [ufAccept, h]

theorem ufAccept_append (F : Nat) :
    ∀ (es1 es2 : List KEdge) (p : Parent),
      ufAccept F (es1 ++ es2) p =
        ((ufAccept F es1 p).1 ++
          (ufAccept F es2 (ufAccept F es1 p).2).1,
         (ufAccept F es2 (ufAccept F es1 p).2).2) := by
  intro es1
  induction es1 with
  | nil => intro es2 p; rfl
  | cons e rest ih =>
    intro es2 p
    obtain ⟨w, u, v⟩ := e
    cases hb : (union F u v p).1 with
    | true =>
      rw [List.cons_append, ufAccept_cons_true hb, ufAccept_cons_true hb,
        ih es2 (union F u v p).2]
      rfl
    | false =>
      rw [List.cons_append, ufAccept_cons_false hb, ufAccept_cons_false hb,
        ih es2 (union F u v p).2]

theorem ufAccept_sublist (F : Nat) :
    ∀ (es : List KEdge) (p : Parent), (ufAccept F es p).1.Sublist es := by
  intro es
  induction es with
  | nil => intro p; exact List.Sublist.refl _
  | cons e rest ih =>
    intro p
    obtain ⟨w, u, v⟩ := e
    cases hb : (union F u v p).1 with
    | true =>
      rw [ufAccept_cons_true hb]
      exact List.Sublist.cons₂ _ (ih (union F u v p).2)
    | false =>
      rw [ufAccept_cons_false hb]
      exact List.Sublist.cons _ (ih (union F u v p).2)

/-! ## Weight accounting -/

theorem weightSum_pushEntry (g : AdjacencyListGraph) (k : Coordinate)
    (e : Entry) (hk : dictHas g.adj_list k = true) :
    weightSum (g.pushEntry k e) = weightSum g + e.2 := by
  show ((dictModify g.adj_list k (fun l => l ++ [e])).map
    (fun kv => (kv.2.map (fun x => x.2)).sum)).sum = _
  have : ∀ d : AdjDict, dictHas d k = true →
      ((dictModify d k (fun l => l ++ [e])).map
        (fun kv => (kv.2.map (fun x => x.2)).sum)).sum =
      (d.map (fun kv => (kv.2.map (fun x => x.2)).sum)).sum + e.2 := by
    intro d
    induction d with
    | nil => intro h; cases h
    | cons kv rest ih =>
      obtain ⟨k0, l0⟩ := kv
      intro h
      by_cases hk0 : k0 = k
      · simp [dictModify, hk0]
        ring
      · simp [dictModify, hk0]
        have h' : dictHas rest k = true := by
          simpa [dictHas, dictGet, hk0] using h
        have := ih h'
        simp at this
        rw [this]
        ring
  exact this g.adj_list hk

theorem freshAdj_weightSum (V : List Coordinate) :
    ((V.map (fun c => (c, ([] : List Entry)))).map
      (fun kv => (kv.2.map (fun x => x.2)).sum)).sum = 0 := by
  induction V with
  | nil => rfl
  | cons c cs ih => simpa using ih

/-- Loop invariant for `processEdges`: resolution bounds grow by one per
edge, the union-find partition tracks connectivity over the processed
prefix, the accepted count balances the number of distinct roots, and the
result graph's degree sum is twice the accepted count. -/
theorem processEdges_master (V : List Coordinate) (F : Nat) :
    ∀ (es done : List KEdge) (mst : AdjacencyListGraph) (p : Parent)
      (A : Nat),
      (∀ e ∈ es, e.2.1 ∈ V ∧ e.2.2 ∈ V ∧
        (e.2.1).isAdjacent e.2.2 = true ∧ 0 < e.1) →
      done.length + es.length ≤ F →
      (∀ c, Resolves p c done.length) →
      (∀ y z, sameRoot p y z ↔ PConn done y z) →
      (A + ((V.map (naiveWalk done.length p)).toFinset).card = V.length) →
      mst.vertices = V →
      mst.adj_list.map Prod.fst = V →
      degreeSum mst = 2 * A →
      (∀ a b, ((mst.getEdge a b).isSome = true) → PConn done a b ∧ a ≠ b) →
      ∃ A2 : Nat,
        A2 + ((V.map (naiveWalk (done.length + es.length)
          (processEdges F es mst p).2)).toFinset).card = V.length ∧
        degreeSum (processEdges F es mst p).1 = 2 * A2 ∧
        (processEdges F es mst p).1.vertices = V ∧
        (processEdges F es mst p).1.adj_list.map Prod.fst = V ∧
        (∀ y z, sameRoot (processEdges F es mst p).2 y z ↔
          PConn (done ++ es) y z) ∧
        (∀ c, Resolves (processEdges F es mst p).2 c
          (done.length + es.length)) ∧
        (processEdges F es mst p).2 = (ufAccept F es p).2 ∧
        weightSum (processEdges F es mst p).1 =
          weightSum mst + 2 * (((ufAccept F es p).1.map
            (fun e => e.1)).sum) ∧
        A2 = A + (ufAccept F es p).1.length := by
  intro es
  induction es with
  | nil =>
    intro done mst p A hprops hfuel hres hconn hcount hvert hkeys hdeg hedge
    refine ⟨A, ?_, hdeg, hvert, hkeys, ?_, ?_, ?_, ?_, ?_⟩
    · simpa [processEdges] using hcount
    · simpa [processEdges] using hconn
    · simpa [processEdges] using hres
    · rfl
    · simp [processEdges, ufAccept]
    · simp [ufAccept]
  | cons e rest ih =>
    obtain ⟨w, u, v⟩ := e
    intro done mst p A hprops hfuel hres hconn hcount hvert hkeys hdeg hedge
    obtain ⟨hu, hv, hadj, hwpos⟩ := hprops (w, u, v) (List.mem_cons_self _ _)
    have hrest : ∀ e ∈ rest, e.2.1 ∈ V ∧ e.2.2 ∈ V ∧
        (e.2.1).isAdjacent e.2.2 = true ∧ 0 < e.1 :=
      fun e he => hprops e (List.mem_cons_of_mem _ he)
    have hfu : done.length ≤ F := by
      simp only [List.length_cons] at hfuel
      omega
    obtain ⟨ra, rb, hra, hrb, hiff, hattach, hstep⟩ :=
      union_spec F u v p (hres u) (hres v) hfu hfu
    have hres' : ∀ c, Resolves (union F u v p).2 c (done.length + 1) :=
      fun c => (hstep c done.length _ (hres c) rfl).1
    have hwalku : naiveWalk done.length p u = ra :=
      RootIs_unique (hres u).rootIs hra
    have hwalkv : naiveWalk done.length p v = rb :=
      RootIs_unique (hres v).rootIs hrb
    have hneuv : u ≠ v := isAdjacent_ne hadj
    have harith : done.length + ((w, u, v) :: rest).length =
        (done ++ [(w, u, v)]).length + rest.length := by simp; omega
    have hlist : done ++ (w, u, v) :: rest =
        (done ++ [(w, u, v)]) ++ rest := by simp
    have hlen1 : (done ++ [(w, u, v)]).length = done.length + 1 := by simp
    have hstepmem : edgeStep (done ++ [(w, u, v)]) u v :=
      ⟨w, Or.inl (List.mem_append_right _ (List.mem_singleton_self _))⟩
    have hsub : ∀ e0 ∈ done, e0 ∈ done ++ [(w, u, v)] :=
      fun e0 he0 => List.mem_append_left _ he0
    cases hb : (union F u v p).1 with
    | true =>
      have hrarb : ra ≠ rb := hiff.mp hb
      have hcollapse : ∀ y,
          naiveWalk (done.length + 1) (union F u v p).2 y =
          (if naiveWalk done.length p y = rb then ra
           else naiveWalk done.length p y) := by
        intro y
        have h2 := (hstep y done.length _ (hres y) rfl).2
        have heq := RootIs_unique (hres' y).rootIs h2
        rw [heq]
        simp [hrarb]
      have hmu : dictHas mst.adj_list u = true := by
        rw [dictHas_iff_mem_keys, hkeys]
        exact hu
      have hmv : dictHas mst.adj_list v = true := by
        rw [dictHas_iff_mem_keys, hkeys]
        exact hv
      have hnone : mst.getEdge u v = none := by
        rw [← Option.not_isSome_iff_eq_none]
        intro hsome
        have hPC := (hedge u v (by simpa using hsome)).1
        have hsr := (hconn u v).mpr hPC
        have heqw := (sameRoot_iff_walk hres u v).mp hsr
        rw [hwalku, hwalkv] at heqw
        exact hrarb heqw
      have heqAdd := addEdge_success_eq hmu hmv hadj hwpos hnone
      have hmst1 : (mst.addEdge u v w).1 =
          (mst.pushEntry u (v, w)).pushEntry v (u, w) := by rw [heqAdd]
      rw [processEdges_cons_true hb]
      -- re-established invariants
      have hres2 : ∀ c, Resolves (union F u v p).2 c
          (done ++ [(w, u, v)]).length := by
        rw [hlen1]
        exact hres'
      have hconn2 : ∀ y z, sameRoot (union F u v p).2 y z ↔
          PConn (done ++ [(w, u, v)]) y z := by
        intro y z
        rw [sameRoot_iff_walk hres2 y z, hlen1, hcollapse y, hcollapse z,
          collapse_eq_iff, PConn_append_iff]
        have c1 : (naiveWalk done.length p y = naiveWalk done.length p z) ↔
            PConn done y z :=
          (sameRoot_iff_walk hres y z).symm.trans (hconn y z)
        have c2a : (naiveWalk done.length p y = ra) ↔ PConn done y u := by
          rw [← hwalku]
          exact (sameRoot_iff_walk hres y u).symm.trans (hconn y u)
        have c2b : (naiveWalk done.length p z = rb) ↔ PConn done v z := by
          rw [← hwalkv]
          constructor
          · intro h
            exact ((sameRoot_iff_walk hres v z).mpr h.symm |> (hconn v z).mp)
          · intro h
            exact ((hconn z v).mpr h.symm |> (sameRoot_iff_walk hres z v).mp)
        have c3a : (naiveWalk done.length p y = rb) ↔ PConn done y v := by
          rw [← hwalkv]
          exact (sameRoot_iff_walk hres y v).symm.trans (hconn y v)
        have c3b : (naiveWalk done.length p z = ra) ↔ PConn done u z := by
          rw [← hwalku]
          constructor
          · intro h
            exact ((sameRoot_iff_walk hres u z).mpr h.symm |> (hconn u z).mp)
          · intro h
            exact ((hconn z u).mpr h.symm |> (sameRoot_iff_walk hres z u).mp)
        exact or_congr c1 (or_congr (and_congr c2a c2b) (and_congr c3a c3b))
      have hmapnew : V.map (naiveWalk (done.length + 1) (union F u v p).2) =
          (V.map (naiveWalk done.length p)).map
            (fun c => if c = rb then ra else c) := by
        rw [List.map_map]
        exact List.map_congr_left (fun y _ => hcollapse y)
      have hcard := toFinset_map_collapse (V.map (naiveWalk done.length p))
        ra rb (hwalku ▸ List.mem_map_of_mem _ hu)
        (hwalkv ▸ List.mem_map_of_mem _ hv) hrarb
      have hcount2 : (A + 1) + ((V.map (naiveWalk
          (done ++ [(w, u, v)]).length (union F u v p).2)).toFinset).card =
          V.length := by
        rw [hlen1, hmapnew]
        omega
      have hvert2 : (mst.addEdge u v w).1.vertices = V := by
        rw [hmst1, pushPair_vertices]
        exact hvert
      have hkeys2 : (mst.addEdge u v w).1.adj_list.map Prod.fst = V := by
        rw [hmst1, pushPair_map_fst]
        exact hkeys
      have hdeg2 : degreeSum (mst.addEdge u v w).1 = 2 * (A + 1) := by
        rw [hmst1]
        rw [degreeSum_pushEntry _ v (u, w) (by
          show dictHas (dictModify mst.adj_list u _) v = true
          rw [dictHas_modify]
          exact hmv)]
        rw [degreeSum_pushEntry _ u (v, w) hmu]
        omega
      have hedge2 : ∀ a b,
          (((mst.addEdge u v w).1.getEdge a b).isSome = true) →
          PConn (done ++ [(w, u, v)]) a b ∧ a ≠ b := by
        intro a b hsome
        rw [hmst1] at hsome
        rcases (getEdge_pushPair_isSome hneuv w hmu hmv a b).mp hsome with
          hold | ⟨rfl, rfl⟩ | ⟨rfl, rfl⟩
        · obtain ⟨hp, hne⟩ := hedge a b hold
          exact ⟨hp.sub hsub, hne⟩
        · exact ⟨Relation.ReflTransGen.single hstepmem, hneuv⟩
        · exact ⟨Relation.ReflTransGen.single (edgeStep_symm hstepmem),
            Ne.symm hneuv⟩
      have hfuel2 : (done ++ [(w, u, v)]).length + rest.length ≤ F := by
        rw [hlen1]
        simp only [List.length_cons] at hfuel
        omega
      rw [harith, hlist]
      obtain ⟨A2, h1, h2, h3, h4, h5, h6, h7, h8, h9⟩ :=
        ih (done ++ [(w, u, v)]) (mst.addEdge u v w).1
          (union F u v p).2 (A + 1) hrest hfuel2 hres2 hconn2 hcount2
          hvert2 hkeys2 hdeg2 hedge2
      refine ⟨A2, h1, h2, h3, h4, h5, h6, ?_, ?_, ?_⟩
      · simp only [ufAccept_cons_true hb]
        exact h7
      · simp only [ufAccept_cons_true hb, List.map_cons, List.sum_cons]
        rw [h8, hmst1, weightSum_pushEntry _ v (u, w) (by
          show dictHas (dictModify mst.adj_list u _) v = true
          rw [dictHas_modify]
          exact hmv), weightSum_pushEntry _ u (v, w) hmu]
        ring
      · simp only [ufAccept_cons_true hb, List.length_cons]
        rw [h9]
        omega
    | false =>
      have hrarb : ra = rb := by
        by_contra hne2
        have := hiff.mpr hne2
        rw [hb] at this
        cases this
      have hcollapse : ∀ y,
          naiveWalk (done.length + 1) (union F u v p).2 y =
          naiveWalk done.length p y := by
        intro y
        have h2 := (hstep y done.length _ (hres y) rfl).2
        have heq := RootIs_unique (hres' y).rootIs h2
        rw [heq, if_neg (by simp [hrarb])]
      have hPCuv : PConn done u v := by
        apply (hconn u v).mp
        apply (sameRoot_iff_walk hres u v).mpr
        rw [hwalku, hwalkv, hrarb]
      have habs := PConn_append_absorb (w := w) hPCuv
      rw [processEdges_cons_false hb]
      have hres2 : ∀ c, Resolves (union F u v p).2 c
          (done ++ [(w, u, v)]).length := by
        rw [hlen1]
        exact hres'
      have hconn2 : ∀ y z, sameRoot (union F u v p).2 y z ↔
          PConn (done ++ [(w, u, v)]) y z := by
        intro y z
        rw [sameRoot_iff_walk hres2 y z, hlen1, hcollapse y, hcollapse z,
          habs y z]
        exact (sameRoot_iff_walk hres y z).symm.trans (hconn y z)
      have hcount2 : A + ((V.map (naiveWalk
          (done ++ [(w, u, v)]).length (union F u v p).2)).toFinset).card =
          V.length := by
        rw [hlen1]
        have : V.map (naiveWalk (done.length + 1) (union F u v p).2) =
            V.map (naiveWalk done.length p) :=
          List.map_congr_left (fun y _ => hcollapse y)
        rw [this]
        exact hcount
      have hedge2 : ∀ a b, ((mst.getEdge a b).isSome = true) →
          PConn (done ++ [(w, u, v)]) a b ∧ a ≠ b := by
        intro a b hsome
        obtain ⟨hp, hne⟩ := hedge a b hsome
        exact ⟨hp.sub hsub, hne⟩
      have hfuel2 : (done ++ [(w, u, v)]).length + rest.length ≤ F := by
        rw [hlen1]
        simp only [List.length_cons] at hfuel
        omega
      rw [harith, hlist]
      obtain ⟨A2, h1, h2, h3, h4, h5, h6, h7, h8, h9⟩ :=
        ih (done ++ [(w, u, v)]) mst (union F u v p).2 A hrest hfuel2
          hres2 hconn2 hcount2 hvert hkeys hdeg hedge2
      refine ⟨A2, h1, h2, h3, h4, h5, h6, ?_, ?_, ?_⟩
      · simp only [ufAccept_cons_false hb]
        exact h7
      · simp only [ufAccept_cons_false hb]
        exact h8
      · simp only [ufAccept_cons_false hb]
        exact h9

/-! ## Assembling the edge-count theorem -/

theorem repsFold_const (e : Coordinate → Coordinate → Bool) :
    ∀ (vs reps : List Coordinate),
      (∀ v ∈ vs, reps.any (fun u => e u v) = true) →
      repsFold e vs reps = reps := by
  intro vs
  induction vs with
  | nil => intro reps _; rfl
  | cons v vs ih =>
    intro reps h
    show repsFold e vs
      (if reps.any (fun u => e u v) then reps else reps ++ [v]) = reps
    rw [if_pos (h v (List.mem_cons_self _ _))]
    exact ih reps (fun v' hv' => h v' (List.mem_cons_of_mem _ hv'))

theorem numComponents_connected {g : AdjacencyListGraph} (hw : WF g)
    (hne : g.vertices ≠ [])
    (hcon : ∀ u ∈ g.vertices, ∀ v ∈ g.vertices, CConn g u v) :
    numComponents g = 1 := by
  unfold numComponents
  cases hV : g.vertices with
  | nil => exact absurd hV hne
  | cons v0 vs =>
    have hstep0 : repsFold (connB g) (v0 :: vs) [] =
        repsFold (connB g) vs [v0] := by
      show repsFold (connB g) vs
        (if List.any [] (fun u => connB g u v0) then [] else [] ++ [v0]) = _
      rfl
    rw [hstep0]
    have hv0 : v0 ∈ g.vertices := by
      rw [hV]; exact List.mem_cons_self _ _
    have hall : ∀ v ∈ vs, List.any [v0] (fun u => connB g u v) = true := by
      intro v hv
      have hvg : v ∈ g.vertices := by
        rw [hV]; exact List.mem_cons_of_mem _ hv
      have hcc : connB g v0 v = true :=
        (connB_iff hw hv0 v).mpr (hcon v0 hv0 v hvg)
      simp [hcc]
    rw [repsFold_const (connB g) vs [v0] hall]
    rfl

theorem getEdge_fresh (V : List Coordinate) (g : AdjacencyListGraph)
    (hadj : g.adj_list = V.map (fun c => (c, ([] : List Entry))))
    (a b : Coordinate) : g.getEdge a b = none := by
  unfold AdjacencyListGraph.getEdge
  cases hg : dictGet g.adj_list a with
  | none => rfl
  | some l =>
    rw [hadj] at hg
    rw [freshAdj_get V a l hg]
    rfl

/-- Claim C1: for every well-formed input graph (symmetric, positive-weight
edges only between adjacent existing vertices), the graph returned by
`kruskalMST` contains exactly `|V| - c` edges, where `c` is the number of
connected components of the input restricted to traversable edges; in
particular, a connected nonempty input yields exactly `|V| - 1` edges. -/
theorem kruskalMST_edge_count (g : AdjacencyListGraph) (hw : WF g) :
    numEdges (kruskalMST g) = g.vertices.length - numComponents g ∧
    ((∀ u ∈ g.vertices, ∀ v ∈ g.vertices, CConn g u v) →
      g.vertices ≠ [] →
      numEdges (kruskalMST g) = g.vertices.length - 1) := by
  have hmain : numEdges (kruskalMST g) =
      g.vertices.length - numComponents g := by
    by_cases hVnil : g.vertices = []
    · have he : g.getVertices.isEmpty = true := by
        simp [AdjacencyListGraph.getVertices, hVnil]
      have hK : kruskalMST g = AdjacencyListGraph.init g.rows g.cols := by
        unfold kruskalMST
        rw [if_pos he]
      have hC : numComponents g = 0 := by
        unfold numComponents
        rw [hVnil]
        rfl
      rw [hK, hC, hVnil]
      simp [numEdges, degreeSum, AdjacencyListGraph.init]
    · have he : ¬ (g.getVertices.isEmpty = true) := by
        simp only [AdjacencyListGraph.getVertices, List.isEmpty_iff]
        exact hVnil
      set E := sortEdges (collectAll g g.vertices ([], [])).1 with hE
      set F := g.vertices.length + E.length with hF
      set mst0 := (AdjacencyListGraph.init g.rows g.cols).addVertices
        g.vertices with hmst0
      have hK : kruskalMST g = (processEdges F E mst0 (fun v => v)).1 := by
        unfold kruskalMST
        rw [if_neg he]
        rfl
      have hprops : ∀ e ∈ E, e.2.1 ∈ g.vertices ∧ e.2.2 ∈ g.vertices ∧
          (e.2.1).isAdjacent e.2.2 = true ∧ 0 < e.1 := by
        intro e he2
        have hmem : e ∈ (collectAll g g.vertices ([], [])).1 :=
          (sortEdges_perm _).mem_iff.mp he2
        rcases collectAll_elems g g.vertices ([], []) e hmem with
          h | ⟨u, hu, v, hv, heq, hwt⟩
        · cases h
        · obtain ⟨hvV, hadj⟩ := neighbours_mem hw hv
          rw [heq]
          exact ⟨hu, hvV, hadj, hwt⟩
      have hfuel : List.length ([] : List KEdge) + E.length ≤ F := by
        rw [hF]
        simp
      have hres0 : ∀ c, Resolves (fun v => v) c
          (List.length ([] : List KEdge)) := fun c => rfl
      have hconn0 : ∀ y z, sameRoot (fun v => v) y z ↔
          PConn ([] : List KEdge) y z := by
        intro y z
        rw [sameRoot_iff_walk hres0 y z]
        show y = z ↔ _
        constructor
        · rintro rfl
          exact Relation.ReflTransGen.refl
        · exact PConn_nil
      have hmapid : g.vertices.map (naiveWalk
          (List.length ([] : List KEdge)) (fun v => v)) = g.vertices :=
        (List.map_congr_left (fun y _ => rfl)).trans (List.map_id _)
      have hcount0 : 0 + ((g.vertices.map (naiveWalk
          (List.length ([] : List KEdge)) (fun v => v))).toFinset).card =
          g.vertices.length := by
        rw [hmapid, List.toFinset_card_of_nodup hw.2.1, Nat.zero_add]
      obtain ⟨hvertF, hadjF⟩ := addVertices_fresh_build
        (AdjacencyListGraph.init g.rows g.cols) g.vertices hw.2.1
        (fun c _ => rfl)
      have hvert0 : mst0.vertices = g.vertices := by
        rw [hmst0, hvertF]
        rfl
      have hadj0 : mst0.adj_list =
          g.vertices.map (fun c => (c, ([] : List Entry))) := by
        rw [hmst0, hadjF]
        rfl
      have hkeys0 : mst0.adj_list.map Prod.fst = g.vertices := by
        rw [hadj0, List.map_map]
        exact (List.map_congr_left (fun y _ => rfl)).trans (List.map_id _)
      have hdeg0 : degreeSum mst0 = 2 * 0 := by
        unfold degreeSum
        rw [hadj0]
        simpa using freshAdj_degreeSum g.vertices
      have hedge0 : ∀ a b, ((mst0.getEdge a b).isSome = true) →
          PConn ([] : List KEdge) a b ∧ a ≠ b := by
        intro a b hsome
        rw [getEdge_fresh g.vertices mst0 hadj0 a b] at hsome
        cases hsome
      obtain ⟨A2, hcnt, hdeg, hvert, hkeys, hconnF, hresF, -, -, -⟩ :=
        processEdges_master g.vertices F E [] mst0 (fun v => v) 0
          hprops hfuel hres0 hconn0 hcount0 hvert0 hkeys0 hdeg0 hedge0
      simp only [List.length_nil, Nat.zero_add, List.nil_append] at hcnt hconnF hresF
      have hCC : ∀ y z, naiveWalk E.length (processEdges F E mst0
          (fun v => v)).2 y = naiveWalk E.length (processEdges F E mst0
          (fun v => v)).2 z ↔ CConn g y z := by
        intro y z
        rw [← sameRoot_iff_walk hresF y z, hconnF y z, hE,
          PConn_sort_iff, PConn_collected_iff hw]
      have hcomp : numComponents g = ((g.vertices.map (naiveWalk E.length
          (processEdges F E mst0 (fun v => v)).2)).toFinset).card := by
        have hmain2 := repsFold_card (connB g) (naiveWalk E.length
            (processEdges F E mst0 (fun v => v)).2) (CConn g) g.vertices
          (fun u hu v _ => connB_iff hw hu v)
          (fun u _ v _ => hCC u v)
          g.vertices [] [] rfl (fun r hr => absurd hr (List.not_mem_nil r))
          rfl List.nodup_nil
        unfold numComponents
        rw [hmain2]
        rfl
      have hNE : numEdges (kruskalMST g) = A2 := by
        unfold numEdges
        rw [hK, hdeg]
        omega
      rw [hNE, hcomp]
      omega
  refine ⟨hmain, fun hcon hne => ?_⟩
  rw [hmain, numComponents_connected hw hne hcon]

/-- A concrete connected two-vertex graph with one unit-weight edge. -/
def gC1 : AdjacencyListGraph :=
  (((AdjacencyListGraph.init 1 2).addVertices
    [⟨0, 0⟩, ⟨0, 1⟩]).addEdge ⟨0, 0⟩ ⟨0, 1⟩ 1).1

theorem kruskalMST_edge_count_witness :
    WF gC1 ∧
      (numEdges (kruskalMST gC1) = gC1.vertices.length - numComponents gC1 ∧
      ((∀ u ∈ gC1.vertices, ∀ v ∈ gC1.vertices, CConn gC1 u v) →
        gC1.vertices ≠ [] →
        numEdges (kruskalMST gC1) = gC1.vertices.length - 1)) :=
  ⟨by simp only [WF, entryMem]; decide,
    kruskalMST_edge_count gC1 (by simp only [WF, entryMem]; decide)⟩

/-! ## Comparing class counts of partitions -/

theorem classCard_mono (l : List Coordinate) (f h : Coordinate → Coordinate)
    (hfh : ∀ u ∈ l, ∀ v ∈ l, f u = f v → h u = h v) :
    (l.map h).toFinset.card ≤ (l.map f).toFinset.card := by
  induction l with
  | nil => simp
  | cons v vs ih =>
    simp only [List.map_cons, List.toFinset_cons]
    have ih2 := ih (fun u hu v' hv' =>
      hfh u (List.mem_cons_of_mem _ hu) v' (List.mem_cons_of_mem _ hv'))
    by_cases hf : f v ∈ (vs.map f).toFinset
    · have hh : h v ∈ (vs.map h).toFinset := by
        simp only [List.mem_toFinset, List.mem_map] at hf ⊢
        obtain ⟨u, hu, hufv⟩ := hf
        exact ⟨u, hu, hfh u (List.mem_cons_of_mem _ hu) v
          (List.mem_cons_self _ _) hufv⟩
      rw [Finset.insert_eq_self.mpr hh, Finset.insert_eq_self.mpr hf]
      exact ih2
    · rw [Finset.card_insert_of_not_mem hf]
      calc (insert (h v) (vs.map h).toFinset).card
          ≤ (vs.map h).toFinset.card + 1 := Finset.card_insert_le _ _
        _ ≤ (vs.map f).toFinset.card + 1 := by omega

theorem classCard_congr (l : List Coordinate)
    (f h : Coordinate → Coordinate)
    (hfh : ∀ u ∈ l, ∀ v ∈ l, (f u = f v ↔ h u = h v)) :
    (l.map h).toFinset.card = (l.map f).toFinset.card :=
  Nat.le_antisymm
    (classCard_mono l f h (fun u hu v hv => (hfh u hu v hv).mp))
    (classCard_mono l h f (fun u hu v hv => (hfh u hu v hv).mpr))

/-- `numComponents` agrees with the image cardinality of any function that
classifies traversable connectivity on the vertex list. -/
theorem numComponents_eq (g : AdjacencyListGraph) (hw : WF g)
    (f : Coordinate → Coordinate)
    (hf : ∀ u ∈ g.vertices, ∀ v ∈ g.vertices, (f u = f v ↔ CConn g u v)) :
    numComponents g = ((g.vertices.map f).toFinset).card := by
  have hmain := repsFold_card (connB g) f (CConn g) g.vertices
    (fun u hu v _ => connB_iff hw hu v) hf
    g.vertices [] [] rfl (fun r hr => absurd hr (List.not_mem_nil r))
    rfl List.nodup_nil
  unfold numComponents
  rw [hmain]
  rfl

/-! ## Sorted-list weight comparison -/

theorem sorted_sum_le : ∀ (as bs : List Int),
    as.Sorted (· ≤ ·) → bs.Sorted (· ≤ ·) → as.length = bs.length →
    (∀ t, (bs.filter (fun x => decide (x ≤ t))).length ≤
      (as.filter (fun x => decide (x ≤ t))).length) →
    as.sum ≤ bs.sum := by
  intro as
  induction as with
  | nil =>
    intro bs _ _ hlen _
    cases bs with
    | nil => exact le_refl _
    | cons b bs => cases hlen
  | cons a as ih =>
    intro bs hsa hsb hlen hcnt
    cases bs with
    | nil => cases hlen
    | cons b bs =>
      obtain ⟨ha1, ha2⟩ := List.sorted_cons.mp hsa
      obtain ⟨hb1, hb2⟩ := List.sorted_cons.mp hsb
      have hab : a ≤ b := by
        have h1 := hcnt b
        have hbpos : 1 ≤ ((b :: bs).filter
            (fun x => decide (x ≤ b))).length := by
          simp [List.filter_cons]
        have hapos : 0 < ((a :: as).filter
            (fun x => decide (x ≤ b))).length := by omega
        obtain ⟨x, hx⟩ := List.exists_mem_of_length_pos hapos
        obtain ⟨hxmem, hxle⟩ := List.mem_filter.mp hx
        have hxb : x ≤ b := by simpa using hxle
        rcases List.mem_cons.mp hxmem with rfl | hxas
        · exact hxb
        · exact le_trans (ha1 x hxas) hxb
      have hlen2 : as.length = bs.length := by
        simp only [List.length_cons] at hlen
        omega
      have hcnt2 : ∀ t, (bs.filter (fun x => decide (x ≤ t))).length ≤
          (as.filter (fun x => decide (x ≤ t))).length := by
        intro t
        by_cases hbt : b ≤ t
        · have hat : a ≤ t := le_trans hab hbt
          have h1 := hcnt t
          simp only [List.filter_cons, hbt, hat, decide_eq_true_eq,
            List.length_cons, if_pos] at h1
          simpa using Nat.le_of_succ_le_succ (by simpa using h1)
        · have hnil : bs.filter (fun x => decide (x ≤ t)) = [] := by
            rw [List.filter_eq_nil_iff]
            intro x hx
            simp only [decide_eq_true_eq]
            intro hxt
            exact hbt (le_trans (hb1 x hx) hxt)
          rw [hnil]
          exact Nat.zero_le _
      have hsum := ih bs ha2 hb2 hlen2 hcnt2
      simp only [List.sum_cons]
      exact add_le_add hab hsum

/-! ## Edges of the input as collected elements -/

theorem WF.getWeight_symm {g : AdjacencyListGraph} (hw : WF g)
    (u v : Coordinate) : g.getWeight u v = g.getWeight v u := by
  cases hab : g.getEdge u v with
  | none =>
    cases hba : g.getEdge v u with
    | none => simp [AdjacencyListGraph.getWeight, hab, hba]
    | some eb =>
      have h := hw.getEdge_symm hba
      rw [hab] at h
      cases h
  | some ea =>
    have hba := hw.getEdge_symm hab
    simp [AdjacencyListGraph.getWeight, hab, hba]

theorem collected_pair {g : AdjacencyListGraph} (hw : WF g)
    {u v : Coordinate} (h : g.hasEdge u v = true) :
    (g.getWeight u v, u, v) ∈ (collectAll g g.vertices ([], [])).1 ∨
    (g.getWeight u v, v, u) ∈ (collectAll g g.vertices ([], [])).1 := by
  obtain ⟨w, hm | hm⟩ := (edgeStep_collected_iff hw u v).mpr h
  · rcases collectAll_elems g g.vertices ([], []) _ hm with
      h0 | ⟨u', hu', v', hv', he, hwt⟩
    · cases h0
    · obtain ⟨h1, h2, h3⟩ : w = g.getWeight u' v' ∧ u = u' ∧ v = v' := by
        simpa using he
      have hwW : w = g.getWeight u v := by rw [h1, ← h2, ← h3]
      left
      rw [← hwW]
      exact hm
  · rcases collectAll_elems g g.vertices ([], []) _ hm with
      h0 | ⟨u', hu', v', hv', he, hwt⟩
    · cases h0
    · obtain ⟨h1, h2, h3⟩ : w = g.getWeight u' v' ∧ v = u' ∧ u = v' := by
        simpa using he
      have hwW : w = g.getWeight u v := by
        rw [h1, ← h2, ← h3, hw.getWeight_symm]
      right
      rw [← hwW]
      exact hm

/-! ## Sorted splits at a weight threshold -/

theorem sorted_dropWhile_not {t : Int} {es : List KEdge}
    (hs : es.Pairwise kGLE) :
    ∀ e ∈ es.dropWhile (fun x => decide (x.1 ≤ t)), ¬ (e.1 ≤ t) := by
  induction es with
  | nil => intro e he; cases he
  | cons a es ih =>
    intro e he
    obtain ⟨ha, hs2⟩ := List.pairwise_cons.mp hs
    by_cases hat : a.1 ≤ t
    · rw [List.dropWhile_cons_of_pos (by simpa using hat)] at he
      exact ih hs2 e he
    · rw [List.dropWhile_cons_of_neg (by simpa using hat)] at he
      rcases List.mem_cons.mp he with rfl | hees
      · exact hat
      · intro het
        exact hat (le_trans (ha e hees) het)

theorem mem_sorted_prefix {t : Int} {es : List KEdge}
    (hs : es.Pairwise kGLE) {e : KEdge} (he : e ∈ es) (het : e.1 ≤ t) :
    e ∈ es.takeWhile (fun x => decide (x.1 ≤ t)) := by
  have hsplit := List.takeWhile_append_dropWhile
    (fun x : KEdge => decide (x.1 ≤ t)) es
  rw [← hsplit] at he
  rcases List.mem_append.mp he with h | h
  · exact h
  · exact absurd het (sorted_dropWhile_not hs e h)

/-! ## Counting accepted unions over a fresh parent map -/

theorem ufCount (g : AdjacencyListGraph) (hw : WF g) (F : Nat)
    (L : List KEdge)
    (hL : ∀ e ∈ L, e.2.1 ∈ g.vertices ∧ e.2.2 ∈ g.vertices ∧
      (e.2.1).isAdjacent e.2.2 = true ∧ 0 < e.1)
    (hF : L.length ≤ F) :
    (ufAccept F L (fun v => v)).1.length +
      ((g.vertices.map (naiveWalk L.length
        (ufAccept F L (fun v => v)).2)).toFinset).card =
      g.vertices.length ∧
    (∀ y z, sameRoot (ufAccept F L (fun v => v)).2 y z ↔ PConn L y z) ∧
    (∀ c, Resolves (ufAccept F L (fun v => v)).2 c L.length) := by
  obtain ⟨hvertF, hadjF⟩ := addVertices_fresh_build
    (AdjacencyListGraph.init g.rows g.cols) g.vertices hw.2.1
    (fun c _ => rfl)
  set mst0 := (AdjacencyListGraph.init g.rows g.cols).addVertices
    g.vertices with hmst0
  have hvert0 : mst0.vertices = g.vertices := by
    rw [hmst0, hvertF]
    rfl
  have hadj0 : mst0.adj_list =
      g.vertices.map (fun c => (c, ([] : List Entry))) := by
    rw [hmst0, hadjF]
    rfl
  have hkeys0 : mst0.adj_list.map Prod.fst = g.vertices := by
    rw [hadj0, List.map_map]
    exact (List.map_congr_left (fun y _ => rfl)).trans (List.map_id _)
  have hdeg0 : degreeSum mst0 = 2 * 0 := by
    unfold degreeSum
    rw [hadj0]
    simpa using freshAdj_degreeSum g.vertices
  have hedge0 : ∀ a b, ((mst0.getEdge a b).isSome = true) →
      PConn ([] : List KEdge) a b ∧ a ≠ b := by
    intro a b hsome
    rw [getEdge_fresh g.vertices mst0 hadj0 a b] at hsome
    cases hsome
  have hres0 : ∀ c, Resolves (fun v => v) c
      (List.length ([] : List KEdge)) := fun c => rfl
  have hconn0 : ∀ y z, sameRoot (fun v => v) y z ↔
      PConn ([] : List KEdge) y z := by
    intro y z
    rw [sameRoot_iff_walk hres0 y z]
    show y = z ↔ _
    constructor
    · rintro rfl
      exact Relation.ReflTransGen.refl
    · exact PConn_nil
  have hmapid : g.vertices.map (naiveWalk
      (List.length ([] : List KEdge)) (fun v => v)) = g.vertices :=
    (List.map_congr_left (fun y _ => rfl)).trans (List.map_id _)
  have hcount0 : 0 + ((g.vertices.map (naiveWalk
      (List.length ([] : List KEdge)) (fun v => v))).toFinset).card =
      g.vertices.length := by
    rw [hmapid, List.toFinset_card_of_nodup hw.2.1, Nat.zero_add]
  have hfuel : List.length ([] : List KEdge) + L.length ≤ F := by
    simpa using hF
  obtain ⟨A2, hcnt, hdeg, hvert, hkeys, hconnF, hresF, hpeq, hwt, hA2⟩ :=
    processEdges_master g.vertices F L [] mst0 (fun v => v) 0
      hL hfuel hres0 hconn0 hcount0 hvert0 hkeys0 hdeg0 hedge0
  simp only [List.length_nil, Nat.zero_add, List.nil_append] at hcnt hconnF hresF hA2
  rw [hpeq] at hcnt hconnF hresF
  refine ⟨?_, hconnF, hresF⟩
  rw [← hA2]
  exact hcnt

/-- The spec's fixed four-vertex example graph: a 2-by-2 grid with edge
weights `(0,0)-(0,1) = 1`, `(0,0)-(1,0) = 4`, `(0,1)-(1,1) = 2`,
`(1,0)-(1,1) = 1`. -/
def G0 : AdjacencyListGraph :=
  ((((((AdjacencyListGraph.init 2 2).addVertices
    [⟨0, 0⟩, ⟨0, 1⟩, ⟨1, 0⟩, ⟨1, 1⟩]).addEdge ⟨0, 0⟩ ⟨0, 1⟩ 1).1.addEdge
    ⟨0, 0⟩ ⟨1, 0⟩ 4).1.addEdge ⟨0, 1⟩ ⟨1, 1⟩ 2).1.addEdge
    ⟨1, 0⟩ ⟨1, 1⟩ 1).1

theorem G0_total : totalWeight (kruskalMST G0) = 4 := by decide

/-- Greedy optimality: for a well-formed input, the total weight of the
Kruskal result is at most the weight of any spanning forest of the
traversable edges (edges of the graph carrying their stored weights,
spanning the same connectivity, with the forest edge count `|V| - c`). -/
theorem kruskal_minimal_general (g : AdjacencyListGraph) (hw : WF g)
    (S : List KEdge)
    (hSE : ∀ e ∈ S, g.getWeight e.2.1 e.2.2 = e.1 ∧ 0 < e.1)
    (hSspan : ∀ y z, PConn S y z ↔ CConn g y z)
    (hSlen : S.length + numComponents g = g.vertices.length) :
    totalWeight (kruskalMST g) ≤ (S.map (fun e => e.1)).sum := by
  by_cases hVnil : g.vertices = []
  · have hC : numComponents g = 0 := by
      unfold numComponents
      rw [hVnil]
      rfl
    have hS0 : S = [] := by
      rw [hC, hVnil] at hSlen
      exact List.length_eq_zero.mp (by simpa using hSlen)
    have he : g.getVertices.isEmpty = true := by
      simp [AdjacencyListGraph.getVertices, hVnil]
    have hK : kruskalMST g = AdjacencyListGraph.init g.rows g.cols := by
      unfold kruskalMST
      rw [if_pos he]
    rw [hK, hS0]
    simp [totalWeight, weightSum, AdjacencyListGraph.init]
  · have he : ¬ (g.getVertices.isEmpty = true) := by
      simp only [AdjacencyListGraph.getVertices, List.isEmpty_iff]
      exact hVnil
    set E := sortEdges (collectAll g g.vertices ([], [])).1 with hE
    set F := g.vertices.length + E.length with hF
    set mst0 := (AdjacencyListGraph.init g.rows g.cols).addVertices
      g.vertices with hmst0
    have hK : kruskalMST g = (processEdges F E mst0 (fun v => v)).1 := by
      unfold kruskalMST
      rw [if_neg he]
      rfl
    have hprops : ∀ e ∈ E, e.2.1 ∈ g.vertices ∧ e.2.2 ∈ g.vertices ∧
        (e.2.1).isAdjacent e.2.2 = true ∧ 0 < e.1 := by
      intro e he2
      have hmem : e ∈ (collectAll g g.vertices ([], [])).1 :=
        (sortEdges_perm _).mem_iff.mp he2
      rcases collectAll_elems g g.vertices ([], []) e hmem with
        h | ⟨u, hu, v, hv, heq, hwt⟩
      · cases h
      · obtain ⟨hvV, hadj⟩ := neighbours_mem hw hv
        rw [heq]
        exact ⟨hu, hvV, hadj, hwt⟩
    obtain ⟨hvertF, hadjF⟩ := addVertices_fresh_build
      (AdjacencyListGraph.init g.rows g.cols) g.vertices hw.2.1
      (fun c _ => rfl)
    have hvert0 : mst0.vertices = g.vertices := by
      rw [hmst0, hvertF]
      rfl
    have hadj0 : mst0.adj_list =
        g.vertices.map (fun c => (c, ([] : List Entry))) := by
      rw [hmst0, hadjF]
      rfl
    have hkeys0 : mst0.adj_list.map Prod.fst = g.vertices := by
      rw [hadj0, List.map_map]
      exact (List.map_congr_left (fun y _ => rfl)).trans (List.map_id _)
    have hdeg0 : degreeSum mst0 = 2 * 0 := by
      unfold degreeSum
      rw [hadj0]
      simpa using freshAdj_degreeSum g.vertices
    have hws0 : weightSum mst0 = 0 := by
      unfold weightSum
      rw [hadj0]
      exact freshAdj_weightSum g.vertices
    have hedge0 : ∀ a b, ((mst0.getEdge a b).isSome = true) →
        PConn ([] : List KEdge) a b ∧ a ≠ b := by
      intro a b hsome
      rw [getEdge_fresh g.vertices mst0 hadj0 a b] at hsome
      cases hsome
    have hres0 : ∀ c, Resolves (fun v => v) c
        (List.length ([] : List KEdge)) := fun c => rfl
    have hconn0 : ∀ y z, sameRoot (fun v => v) y z ↔
        PConn ([] : List KEdge) y z := by
      intro y z
      rw [sameRoot_iff_walk hres0 y z]
      show y = z ↔ _
      constructor
      · rintro rfl
        exact Relation.ReflTransGen.refl
      · exact PConn_nil
    have hmapid : g.vertices.map (naiveWalk
        (List.length ([] : List KEdge)) (fun v => v)) = g.vertices :=
      (List.map_congr_left (fun y _ => rfl)).trans (List.map_id _)
    have hcount0 : 0 + ((g.vertices.map (naiveWalk
        (List.length ([] : List KEdge)) (fun v => v))).toFinset).card =
        g.vertices.length := by
      rw [hmapid, List.toFinset_card_of_nodup hw.2.1, Nat.zero_add]
    have hfuel : List.length ([] : List KEdge) + E.length ≤ F := by
      rw [hF]
      simp
    obtain ⟨A2, hcnt, hdeg, hvert, hkeys, hconnF, hresF, hpeq, hwtW, hA2⟩ :=
      processEdges_master g.vertices F E [] mst0 (fun v => v) 0
        hprops hfuel hres0 hconn0 hcount0 hvert0 hkeys0 hdeg0 hedge0
    have htw : totalWeight (kruskalMST g) =
        (((ufAccept F E (fun v => v)).1.map (fun e => e.1)).sum) := by
      unfold totalWeight
      rw [hK, hwtW, hws0]
      omega
    obtain ⟨hcard, hclass, hresE⟩ := ufCount g hw F E hprops
      (by rw [hF]; simp)
    have hEsConn : ∀ y z, PConn E y z ↔ CConn g y z := by
      intro y z
      rw [hE, PConn_sort_iff, PConn_collected_iff hw]
    have hnum : numComponents g = ((g.vertices.map (naiveWalk E.length
        (ufAccept F E (fun v => v)).2)).toFinset).card :=
      numComponents_eq g hw _ (fun u _ v _ => by
        rw [← sameRoot_iff_walk hresE u v, hclass u v, hEsConn u v])
    have hAlen : (ufAccept F E (fun v => v)).1.length + numComponents g =
        g.vertices.length := by
      rw [hnum]
      exact hcard
    have hSlen2 : (ufAccept F E (fun v => v)).1.length = S.length := by
      omega
    have hEsort : E.Pairwise kGLE := by
      rw [hE]
      exact List.sorted_insertionSort kGLE _
    have hAsort : (ufAccept F E (fun v => v)).1.Pairwise kGLE :=
      List.Pairwise.sublist (ufAccept_sublist F E _) hEsort
    have hasSorted : ((ufAccept F E (fun v => v)).1.map
        (fun e => e.1)).Sorted (fun a b : Int => a ≤ b) :=
      List.pairwise_map.mpr hAsort
    set bs := List.insertionSort (fun a b : Int => a ≤ b)
      (S.map (fun e => e.1)) with hbs
    have hbsPerm : bs.Perm (S.map (fun e => e.1)) := by
      rw [hbs]
      exact List.perm_insertionSort _ _
    have hbsSorted : bs.Sorted (fun a b : Int => a ≤ b) := by
      rw [hbs]
      exact List.sorted_insertionSort _ _
    have hlen : ((ufAccept F E (fun v => v)).1.map (fun e => e.1)).length
        = bs.length := by
      rw [List.length_map, hbsPerm.length_eq, List.length_map, hSlen2]
    have hSprops : ∀ e ∈ S, e.2.1 ∈ g.vertices ∧ e.2.2 ∈ g.vertices ∧
        (e.2.1).isAdjacent e.2.2 = true ∧ 0 < e.1 := by
      intro e heS
      have hwq : g.getWeight e.2.1 e.2.2 = e.1 := (hSE e heS).1
      have hpos : 0 < e.1 := (hSE e heS).2
      have hhe : g.hasEdge e.2.1 e.2.2 = true :=
        getWeight_pos_hasEdge (by rw [hwq]; exact hpos)
      obtain ⟨h1, h2, h3⟩ := hasEdge_mem_vertices hw hhe
      obtain ⟨h4, h5⟩ := neighbours_mem hw h2
      exact ⟨h1, h4, h5, hpos⟩
    have hcntAll : ∀ t, (bs.filter (fun x => decide (x ≤ t))).length ≤
        (((ufAccept F E (fun v => v)).1.map (fun e => e.1)).filter
          (fun x => decide (x ≤ t))).length := by
      intro t
      set P := E.takeWhile (fun x => decide (x.1 ≤ t)) with hP
      set Q := E.dropWhile (fun x => decide (x.1 ≤ t)) with hQ
      set Bf := S.filter (fun e => decide (e.1 ≤ t)) with hBf
      set Br := S.filter (fun e => ! decide (e.1 ≤ t)) with hBr
      have hPQ : P ++ Q = E := by
        rw [hP, hQ]
        exact List.takeWhile_append_dropWhile _ _
      have hAsplit : (ufAccept F E (fun v => v)).1 =
          (ufAccept F P (fun v => v)).1 ++
            (ufAccept F Q (ufAccept F P (fun v => v)).2).1 := by
        conv_lhs => rw [← hPQ]
        rw [ufAccept_append]
      have hfilterA : ((ufAccept F E (fun v => v)).1.filter
          (fun e => decide (e.1 ≤ t))) = (ufAccept F P (fun v => v)).1 := by
        rw [hAsplit, List.filter_append]
        have h1 : (ufAccept F P (fun v => v)).1.filter
            (fun e => decide (e.1 ≤ t)) =
            (ufAccept F P (fun v => v)).1 := by
          rw [List.filter_eq_self]
          intro e heA
          have heP : e ∈ P := (ufAccept_sublist F P _).subset heA
          rw [hP] at heP
          have hp := List.mem_takeWhile_imp heP
          simpa using hp
        have h2 : ((ufAccept F Q (ufAccept F P (fun v => v)).2).1.filter
            (fun e => decide (e.1 ≤ t))) = [] := by
          rw [List.filter_eq_nil_iff]
          intro e heA
          have heQ : e ∈ Q := (ufAccept_sublist F Q _).subset heA
          rw [hQ] at heQ
          have hnot := sorted_dropWhile_not hEsort e heQ
          simp only [decide_eq_true_eq]
          exact hnot
        rw [h1, h2, List.append_nil]
      have hmapfilter : (((ufAccept F E (fun v => v)).1.map
          (fun e => e.1)).filter (fun x => decide (x ≤ t))) =
          ((ufAccept F E (fun v => v)).1.filter
            (fun e => decide (e.1 ≤ t))).map (fun e => e.1) := by
        rw [List.filter_map]
        rfl
      have hbsfilter : (bs.filter (fun x => decide (x ≤ t))).length =
          Bf.length := by
        rw [(hbsPerm.filter _).length_eq, List.filter_map,
          List.length_map, hBf]
        rfl
      have hBperm : (Bf ++ Br).Perm S := by
        rw [hBf, hBr]
        exact List.filter_append_perm _ S
      have hLBfr : ∀ e ∈ Bf ++ Br, e.2.1 ∈ g.vertices ∧
          e.2.2 ∈ g.vertices ∧ (e.2.1).isAdjacent e.2.2 = true ∧
          0 < e.1 := fun e heB => hSprops e (hBperm.subset heB)
      have hLBf : ∀ e ∈ Bf, e.2.1 ∈ g.vertices ∧
          e.2.2 ∈ g.vertices ∧ (e.2.1).isAdjacent e.2.2 = true ∧
          0 < e.1 := by
        intro e heB
        rw [hBf] at heB
        exact hSprops e (List.mem_of_mem_filter heB)
      have hlenBfr : (Bf ++ Br).length = S.length := hBperm.length_eq
      obtain ⟨hcardB, hclassB, hresB⟩ := ufCount g hw S.length (Bf ++ Br)
        hLBfr (le_of_eq hlenBfr)
      have hPCperm : ∀ y z, PConn (Bf ++ Br) y z ↔ PConn S y z := by
        intro y z
        constructor
        · exact fun h => h.sub (fun e he2 => hBperm.subset he2)
        · exact fun h => h.sub (fun e he2 => hBperm.symm.subset he2)
      have hnumB : numComponents g = ((g.vertices.map (naiveWalk
          (Bf ++ Br).length (ufAccept S.length (Bf ++ Br)
            (fun v => v)).2)).toFinset).card :=
        numComponents_eq g hw _ (fun u _ v _ => by
          rw [← sameRoot_iff_walk hresB u v, hclassB u v, hPCperm u v,
            hSspan u v])
      have hBtotal : (ufAccept S.length (Bf ++ Br) (fun v => v)).1.length
          = Bf.length + Br.length := by
        have h1 : (ufAccept S.length (Bf ++ Br) (fun v => v)).1.length +
            numComponents g = g.vertices.length := by
          rw [hnumB]
          exact hcardB
        have h2 := hlenBfr
        simp only [List.length_append] at h2
        omega
      have hBsplit := ufAccept_append S.length Bf Br (fun v => v)
      have hBfull : (ufAccept S.length Bf (fun v => v)).1.length =
          Bf.length := by
        have hle1 : (ufAccept S.length Bf (fun v => v)).1.length ≤
            Bf.length := (ufAccept_sublist _ _ _).length_le
        have hle2 : (ufAccept S.length Br
            (ufAccept S.length Bf (fun v => v)).2).1.length ≤
            Br.length := (ufAccept_sublist _ _ _).length_le
        have h3 := hBtotal
        simp only [hBsplit, List.length_append] at h3
        omega
      obtain ⟨hcardBf, hclassBf, hresBf⟩ := ufCount g hw S.length Bf hLBf
        (by rw [hBf]; exact List.length_filter_le _ _)
      have hLP : ∀ e ∈ P, e.2.1 ∈ g.vertices ∧ e.2.2 ∈ g.vertices ∧
          (e.2.1).isAdjacent e.2.2 = true ∧ 0 < e.1 := by
        intro e heP
        refine hprops e ?_
        rw [hP] at heP
        exact (List.takeWhile_sublist _).subset heP
      have hPlenle : P.length ≤ F := by
        have hle : P.length ≤ E.length := by
          rw [hP]
          exact (List.takeWhile_sublist _).length_le
        rw [hF]
        omega
      obtain ⟨hcardP, hclassP, hresP⟩ := ufCount g hw F P hLP hPlenle
      have hstepBfP : ∀ a b, edgeStep Bf a b → edgeStep P a b := by
        rintro a b ⟨w, hm | hm⟩
        · have hmf := hm
          rw [hBf] at hmf
          have hwle : w ≤ t := by
            have h2 := (List.mem_filter.mp hmf).2
            simpa using h2
          have hmS : (w, a, b) ∈ S := List.mem_of_mem_filter hmf
          have hgw : g.getWeight a b = w := (hSE _ hmS).1
          have hpos : (0 : Int) < w := (hSE _ hmS).2
          have hhe : g.hasEdge a b = true :=
            getWeight_pos_hasEdge (by rw [hgw]; exact hpos)
          rcases collected_pair hw hhe with hc | hc
          · have hcE : (g.getWeight a b, a, b) ∈ E := by
              rw [hE]
              exact (sortEdges_perm _).mem_iff.mpr hc
            have hcP : (g.getWeight a b, a, b) ∈ P := by
              rw [hP]
              exact mem_sorted_prefix hEsort hcE (by rw [hgw]; exact hwle)
            exact ⟨g.getWeight a b, Or.inl hcP⟩
          · have hcE : (g.getWeight a b, b, a) ∈ E := by
              rw [hE]
              exact (sortEdges_perm _).mem_iff.mpr hc
            have hcP : (g.getWeight a b, b, a) ∈ P := by
              rw [hP]
              exact mem_sorted_prefix hEsort hcE (by rw [hgw]; exact hwle)
            exact ⟨g.getWeight a b, Or.inr hcP⟩
        · have hmf := hm
          rw [hBf] at hmf
          have hwle : w ≤ t := by
            have h2 := (List.mem_filter.mp hmf).2
            simpa using h2
          have hmS : (w, b, a) ∈ S := List.mem_of_mem_filter hmf
          have hgw : g.getWeight b a = w := (hSE _ hmS).1
          have hpos : (0 : Int) < w := (hSE _ hmS).2
          have hhe : g.hasEdge b a = true :=
            getWeight_pos_hasEdge (by rw [hgw]; exact hpos)
          rcases collected_pair hw hhe with hc | hc
          · have hcE : (g.getWeight b a, b, a) ∈ E := by
              rw [hE]
              exact (sortEdges_perm _).mem_iff.mpr hc
            have hcP : (g.getWeight b a, b, a) ∈ P := by
              rw [hP]
              exact mem_sorted_prefix hEsort hcE (by rw [hgw]; exact hwle)
            exact ⟨g.getWeight b a, Or.inr hcP⟩
          · have hcE : (g.getWeight b a, a, b) ∈ E := by
              rw [hE]
              exact (sortEdges_perm _).mem_iff.mpr hc
            have hcP : (g.getWeight b a, a, b) ∈ P := by
              rw [hP]
              exact mem_sorted_prefix hEsort hcE (by rw [hgw]; exact hwle)
            exact ⟨g.getWeight b a, Or.inl hcP⟩
      have hPCBfP : ∀ y z, PConn Bf y z → PConn P y z :=
        fun y z h =>
          Relation.ReflTransGen.mono (fun a b hab => hstepBfP a b hab) h
      have hcardcmp : ((g.vertices.map (naiveWalk P.length
          (ufAccept F P (fun v => v)).2)).toFinset).card ≤
          ((g.vertices.map (naiveWalk Bf.length
            (ufAccept S.length Bf (fun v => v)).2)).toFinset).card := by
        apply classCard_mono
        intro u _ v _ h
        have hsr : sameRoot (ufAccept S.length Bf (fun v => v)).2 u v :=
          (sameRoot_iff_walk hresBf u v).mpr h
        have hPC : PConn Bf u v := (hclassBf u v).mp hsr
        have hPCP : PConn P u v := hPCBfP u v hPC
        exact (sameRoot_iff_walk hresP u v).mp ((hclassP u v).mpr hPCP)
      rw [hbsfilter, hmapfilter, List.length_map, hfilterA]
      omega
    have hsum := sorted_sum_le _ bs hasSorted hbsSorted hlen hcntAll
    rw [htw]
    exact le_trans hsum (le_of_eq hbsPerm.sum_eq)

/-- Claim C2: for every well-formed input graph, the total weight of the
Kruskal result is minimal among spanning forests of the input's traversable
edges (edge lists drawn from the graph with their stored positive weights,
spanning the same traversable connectivity, with the spanning-forest edge
count `|V| - c`); in particular, on the fixed four-vertex example graph
`G0` the returned tree has total weight exactly 4. -/
theorem kruskalMST_minimal :
    (∀ (g : AdjacencyListGraph), WF g → ∀ (S : List KEdge),
      (∀ e ∈ S, g.getWeight e.2.1 e.2.2 = e.1 ∧ 0 < e.1) →
      (∀ y z, PConn S y z ↔ CConn g y z) →
      S.length + numComponents g = g.vertices.length →
      totalWeight (kruskalMST g) ≤ (S.map (fun e => e.1)).sum) ∧
    totalWeight (kruskalMST G0) = 4 :=
  ⟨fun g hw S h1 h2 h3 => kruskal_minimal_general g hw S h1 h2 h3, G0_total⟩

theorem gC1_step (a b : Coordinate) :
    edgeStep [((1 : Int), (⟨0, 0⟩ : Coordinate), (⟨0, 1⟩ : Coordinate))]
      a b ↔ gC1.hasEdge a b = true := by
  constructor
  · rintro ⟨w, h | h⟩
    · simp only [List.mem_singleton] at h
      obtain ⟨h1, h2, h3⟩ : w = 1 ∧ a = ⟨0, 0⟩ ∧ b = ⟨0, 1⟩ := by
        simpa [Prod.ext_iff] using h
      rw [h2, h3]
      decide
    · simp only [List.mem_singleton] at h
      obtain ⟨h1, h2, h3⟩ : w = 1 ∧ b = ⟨0, 0⟩ ∧ a = ⟨0, 1⟩ := by
        simpa [Prod.ext_iff] using h
      rw [h2, h3]
      decide
  · intro h
    have hWF : WF gC1 := by
      simp only [WF, entryMem]
      decide
    obtain ⟨haV, hbN, hpos⟩ := hasEdge_mem_vertices hWF h
    have hvert : gC1.vertices = [⟨0, 0⟩, ⟨0, 1⟩] := by decide
    rw [hvert] at haV
    rcases List.mem_cons.mp haV with rfl | haV2
    · have hn : gC1.neighbours (⟨0, 0⟩ : Coordinate) = [⟨0, 1⟩] := by
        decide
      rw [hn] at hbN
      have hb := List.mem_singleton.mp hbN
      subst hb
      exact ⟨1, Or.inl (List.mem_singleton_self _)⟩
    · have ha := List.mem_singleton.mp haV2
      subst ha
      have hn : gC1.neighbours (⟨0, 1⟩ : Coordinate) = [⟨0, 0⟩] := by
        decide
      rw [hn] at hbN
      have hb := List.mem_singleton.mp hbN
      subst hb
      exact ⟨1, Or.inr (List.mem_singleton_self _)⟩

theorem gC1_bridge : ∀ y z,
    PConn [((1 : Int), (⟨0, 0⟩ : Coordinate), (⟨0, 1⟩ : Coordinate))] y z ↔
      CConn gC1 y z := by
  intro y z
  constructor
  · exact Relation.ReflTransGen.mono (fun a b hab => (gC1_step a b).mp hab)
  · exact Relation.ReflTransGen.mono (fun a b hab => (gC1_step a b).mpr hab)

theorem kruskalMST_minimal_witness :
    WF gC1 ∧
      totalWeight (kruskalMST gC1) ≤
        (([((1 : Int), (⟨0, 0⟩ : Coordinate), (⟨0, 1⟩ : Coordinate))].map
          (fun e => e.1)).sum) :=
  ⟨by simp only [WF, entryMem]; decide,
    kruskalMST_minimal.1 gC1 (by simp only [WF, entryMem]; decide)
      [((1 : Int), (⟨0, 0⟩ : Coordinate), (⟨0, 1⟩ : Coordinate))]
      (by decide) gC1_bridge (by decide)⟩
